import Mathlib

/-! Verification of the `pxt-common-packages` mixer/melody synthesizer.

A shallow embedding of `libs/mixer/melody.cpp` (namespace `music`): the
waveform generators, the scheduler `WSynthesizer::updateQueues`, the mixer
`WSynthesizer::fillSamples`, and the queue-management entry point
`queuePlayInstructions`, together with theorems about the behaviour of these
functions.

Machine integers are modelled as `Nat`/`Int` with explicit reduction
`% 2^32` (resp. two's-complement reinterpretation) at the points where the
C code performs `uint32_t`/`int32_t` arithmetic whose wrapping can matter.
C integer division (truncation towards zero) is `Int.tdiv`; arithmetic right
shift of a signed value is floor division (`Int.fdiv` by a power of two).
-/

namespace Music

/-- Truncated C `int` division: rounds towards zero (`Int.tdiv`);
division by zero yields `0` (a total stand-in for the C UB case). -/
def cdiv (a b : Int) : Int := Int.tdiv a b

/-- Arithmetic shift right on a (possibly negative) value: floor division by
`2^k`, matching `>>` on a signed int on the targets this code runs on. -/
def sar (x : Int) (k : Nat) : Int := Int.fdiv x (2 ^ k)

/-- Reduce a natural to the `uint32_t` range. -/
def u32 (n : Nat) : Nat := n % 2 ^ 32

/-- Reinterpret the low 32 bits of a natural as a two's-complement
`int32_t` (the C cast `(int)x` / `(int32_t)x` on an unsigned value). -/
def i32 (n : Nat) : Int :=
  if n % 2 ^ 32 < 2 ^ 31 then ((n % 2 ^ 32 : Nat) : Int)
  else ((n % 2 ^ 32 : Nat) : Int) - 2 ^ 32

/-- Reduce an `Int` to the `uint32_t` range (two's-complement wrap),
as when a signed delta is added to an unsigned 32-bit variable. -/
def u32I (x : Int) : Nat := (x.emod (2 ^ 32)).toNat

/-- `CLAMP(lo, v, hi)` from `melody.cpp` on naturals. -/
def clampN (lo v hi : Nat) : Nat := if v < lo then lo else if v > hi then hi else v

/-- Wrapping `int16_t` addition: the accumulation `dst[j] += v` stores into an
`int16_t` buffer cell, wrapping modulo `2^16`. -/
def wrapAdd16 (a v : Int) : Int := (a + v + 32768).emod 65536 - 32768

/-! ## Waveform generators (`melody.cpp`, lines 12-99)

Each generator takes the cyclic phase `position ∈ [0, 1023]`.  The noise
generator's xorshift state (a C `static uint32_t`) is threaded explicitly:
stateful generators take the current state and return the output together
with the new state. -/

/-- One step of the 32-bit xorshift sequence used by `noiseTone`:
`x ^= x<<13; x ^= x>>17; x ^= x<<5;` in `uint32_t` arithmetic. -/
def xorshiftStep (x : Nat) : Nat :=
  let x1 := u32 (x ^^^ (x <<< 13))
  let x2 := x1 ^^^ (x1 >>> 17)
  u32 (x2 ^^^ (x2 <<< 5))

/-- `noiseTone`: advances the xorshift state and returns
`(x & 0xffff) - 0x7fff` together with the new state. -/
def noiseTone (rng : Nat) : Int × Nat :=
  let x := xorshiftStep rng
  (((x &&& 0xffff : Nat) : Int) - 0x7fff, x)

/-- The constant `c = (int32_t)(0.0721435357258 * 32767)` of `sineTone`
(the `constexpr` double product truncates to `2363`). -/
def sineC : Int := 2363

/-- The constant `b = (int32_t)(-0.642443736562 * 32767) = -21050`. -/
def sineB : Int := -21050

/-- The constant `a = (int32_t)(1.57030020084 * 32767) = 51454`. -/
def sineA : Int := 51454

/-- `sineTone`: fold the phase into a quarter wave, evaluate the odd
degree-5 polynomial `((c x² + b) x² + a) x` in fixed point, negate on the
second half cycle. -/
def sineTone (position : Nat) : Int :=
  let p1 : Nat := if position ≥ 512 then position - 512 else position
  let p : Nat := if p1 > 256 then 512 - p1 else p1
  let p2 : Int := (p : Int) * p
  let u : Int := sar (sineC * p2) 16 + sineB
  let v : Int := sar (u * p2) 16 + sineA
  let w : Int := sar (v * p) 8
  if position ≥ 512 then -w else w

/-- `sawtoothTone`: `(position << 6) - 0x7fff`. -/
def sawtoothTone (position : Nat) : Int := ((position <<< 6 : Nat) : Int) - 0x7fff

/-- `triangleTone`: rising ramp below phase 512, falling ramp above. -/
def triangleTone (position : Nat) : Int :=
  if position < 512 then ((position <<< 7 : Nat) : Int) - 0x7fff
  else (((1023 - position) <<< 7 : Nat) : Int) - 0x7fff

/-- Waveform selector values.  Modelled from the spec: `melody.h` is not part
of `src/`; the spec fixes a family of square duty-cycle variants
(10%..50% in 10% steps) with consecutive selector values and dedicated
selectors for triangle, sawtooth, sine and noise, all in `uint8_t` range.
Concrete values follow the upstream header. -/
def SW_TRIANGLE : Nat := 1

/-- Sawtooth selector (see `SW_TRIANGLE`). -/
def SW_SAWTOOTH : Nat := 2

/-- Sine selector (see `SW_TRIANGLE`). -/
def SW_SINE : Nat := 3

/-- Noise selector (see `SW_TRIANGLE`). -/
def SW_NOISE : Nat := 5

/-- First square duty-cycle selector, 10% duty (see `SW_TRIANGLE`). -/
def SW_SQUARE_10 : Nat := 11

/-- Last square duty-cycle selector, 50% duty (see `SW_TRIANGLE`). -/
def SW_SQUARE_50 : Nat := 15

/-- `squareWaveTone`: low below the duty threshold
`102 * (wave - SW_SQUARE_10 + 1)`, high above (the selector itself is the
`userData` argument). -/
def squareWaveTone (wave position : Nat) : Int :=
  if position < 102 * (wave - SW_SQUARE_10 + 1) then -0x7fff else 0x7fff

/-- `silenceTone`: always zero. -/
def silenceTone : Int := 0

/-- `getWaveFn` composed with the call `fn(wave, position)` of
`fillSamples`: dispatch over the selector, square variants for
`SW_SQUARE_10 ≤ wave ≤ SW_SQUARE_50`, silence for anything unrecognized.
The xorshift state is threaded through (only noise changes it). -/
def getWaveFn (wave position rng : Nat) : Int × Nat :=
  if wave = SW_TRIANGLE then (triangleTone position, rng)
  else if wave = SW_SAWTOOTH then (sawtoothTone position, rng)
  else if wave = SW_NOISE then noiseTone rng
  else if wave = SW_SINE then (sineTone position, rng)
  else if SW_SQUARE_10 ≤ wave ∧ wave ≤ SW_SQUARE_50 then (squareWaveTone wave position, rng)
  else (silenceTone, rng)

/-! ## Data model

`SoundInstruction` mirrors the record consumed by `fillSamples` (the fields
read there: `soundWave`, `frequency`, `endFrequency`, `startVolume`,
`endVolume`, `duration`; raw field values are unsigned and are clamped at
use).  A `WaitingSound` node owns its `state`, `instructions` buffer and
`startSampleNo`; the singly linked waiting list is modelled as a `List` of
nodes tagged with unique identities (pointer identity), in link order.
A `PlayingSound` slot holds the identity of its bound sound (`sound`, the C
back pointer), the captured instruction buffer with the cursor as an index
pair (`currInstr`, `instrEnd`, the C pointers into the buffer), and the
resumable interpolation state.  The xorshift state of `noiseTone` (a C
`static`) is carried in the `rng` field. -/

structure SoundInstruction where
  soundWave : Nat
  frequency : Nat
  duration : Nat
  startVolume : Nat
  endVolume : Nat
  endFrequency : Nat
  deriving Repr, DecidableEq, Inhabited

/-- Lifecycle state of a queued sound. -/
inductive SoundState where
  | Waiting
  | Playing
  | Done
  deriving Repr, DecidableEq

/-- One node of the waiting list. -/
structure WaitingSound where
  state : SoundState
  instructions : List SoundInstruction
  startSampleNo : Int
  deriving Repr, DecidableEq

/-- One playing slot (`PlayingSound` in `melody.h`, as used by `melody.cpp`). -/
structure PlayingSound where
  sound : Option Nat
  instrs : List SoundInstruction
  currInstr : Int
  instrEnd : Int
  startSampleNo : Int
  tonePosition : Nat
  samplesLeftInCurr : Nat
  prevVolume : Int
  prevToneStep : Nat
  prevToneDelta : Int
  deriving Repr, DecidableEq

/-- An empty playing slot (all-zero, `sound == NULL`), as after the
`memset` in the `WSynthesizer` constructor. -/
def emptySlot : PlayingSound :=
  { sound := none, instrs := [], currInstr := 0, instrEnd := 0, startSampleNo := 0,
    tonePosition := 0, samplesLeftInCurr := 0, prevVolume := 0, prevToneStep := 0,
    prevToneDelta := 0 }

/-- The synthesizer state (`WSynthesizer`): absolute sample counter, sample
rate, slot pool (`playingSounds`, its length playing the role of
`MAX_SOUNDS`), the waiting list, a fresh-identity counter for new nodes, and
the xorshift state of the noise generator. -/
structure WSynthesizer where
  currSample : Int
  sampleRate : Nat
  playingSounds : List PlayingSound
  waiting : List (Nat × WaitingSound)
  nextId : Nat
  rng : Nat
  deriving Repr, DecidableEq

/-! ## Scheduler: `WSynthesizer::updateQueues` (lines 103-145)

The `while (1)` loop is modelled with explicit fuel; one unit of fuel is one
loop iteration.  Each iteration that does not return moves a `Waiting` sound
to `Playing`, so the number of `Waiting` entries plus one bounds the
iteration count, and `updateQueues` runs the fueled body with exactly that
much fuel. -/

/-- `maxTime = 0xffffff`, the scheduler's sentinel. -/
def maxTime : Int := 0xffffff

/-- The scan loop of `updateQueues`: walk the waiting list accumulating the
least positive `timeLeft` of the `Waiting` entries into `minLeft`; stop at
the first entry whose `timeLeft ≤ 0` (a due sound) and return it. -/
def scanW (curr : Int) : List (Nat × WaitingSound) → Int → Int × Option (Nat × WaitingSound)
  | [], minLeft => (minLeft, none)
  | (i, w) :: rest, minLeft =>
    let timeLeft : Int := if w.state = SoundState.Waiting then w.startSampleNo - curr else maxTime
    if timeLeft ≤ 0 then (minLeft, some (i, w))
    else scanW curr rest (if timeLeft < minLeft then timeLeft else minLeft)

/-- The slot-selection loop of `updateQueues`: break at the first empty slot;
otherwise remember the index of the slot with the largest `startSampleNo`
(`minIdx` is replaced whenever `playingSounds[minIdx].startSampleNo <
playingSounds[i].startSampleNo`); ties keep the earlier index. -/
def chooseSlotAux : List PlayingSound → Nat → Option (Nat × Int) → Option Nat
  | [], _, acc => acc.map Prod.fst
  | slot :: rest, i, acc =>
    match slot.sound with
    | none => some i
    | some _ =>
      let acc' := match acc with
        | none => some (i, slot.startSampleNo)
        | some (mi, mv) =>
          if mv < slot.startSampleNo then some (i, slot.startSampleNo) else some (mi, mv)
      chooseSlotAux rest (i + 1) acc'

/-- Slot selection over the whole pool (`none` only for an empty pool, a
configuration the C code rules out by `MAX_SOUNDS ≥ 1`). -/
def chooseSlot (slots : List PlayingSound) : Option Nat := chooseSlotAux slots 0 none

/-- Write a sound's `state` field through its identity (the C
`p->state = ...` through a node pointer). -/
def setSoundState (l : List (Nat × WaitingSound)) (id : Nat) (st : SoundState) :
    List (Nat × WaitingSound) :=
  l.map fun e => if e.1 = id then (e.1, { e.2 with state := st }) else e

/-- Bind the due sound `p` (identity `pid`) to slot `slotIdx`: force the
current occupant (if any) to `Done`, point the slot at `p`, mark `p`
`Playing`, stamp the slot's `startSampleNo` with `currSample`, set the
instruction cursor to the start of `p`'s buffer and mark the interpolation
state fresh (`prevVolume = -1`).  The slot's other fields
(`tonePosition`, `samplesLeftInCurr`, `prevToneStep`, `prevToneDelta`) are
not written by the C code and keep their previous values. -/
def bindSound (s : WSynthesizer) (slotIdx pid : Nat) (p : WaitingSound) : WSynthesizer :=
  match s.playingSounds.get? slotIdx with
  | none => { s with waiting := setSoundState s.waiting pid SoundState.Playing }
  | some slot =>
    let w1 := match slot.sound with
      | some evicted => setSoundState s.waiting evicted SoundState.Done
      | none => s.waiting
    let slot' :=
      { slot with
        sound := some pid
        startSampleNo := s.currSample
        instrs := p.instructions
        currInstr := 0
        instrEnd := (p.instructions.length : Int)
        prevVolume := -1 }
    { s with
      waiting := setSoundState w1 pid SoundState.Playing
      playingSounds := s.playingSounds.set slotIdx slot' }

/-- Number of `Waiting` entries of a waiting list (the fuel measure of the
scheduler loop). -/
def countWaiting (l : List (Nat × WaitingSound)) : Nat :=
  l.countP fun e => e.2.state = SoundState.Waiting

/-- The fueled body of `updateQueues`: scan; if a due sound was found, bind
it to the chosen slot and repeat, otherwise return `minLeft`.  (When the
slot pool is empty the C code would dereference an uninitialized pointer;
the model performs only the well-defined direct write `p->state = Playing`.) -/
def updateQueuesF : Nat → WSynthesizer → Int × WSynthesizer
  | 0, s => (maxTime, s)
  | fuel + 1, s =>
    match scanW s.currSample s.waiting maxTime with
    | (minLeft, none) => (minLeft, s)
    | (_, some (pid, p)) =>
      let s' := match chooseSlot s.playingSounds with
        | some idx => bindSound s idx pid p
        | none => { s with waiting := setSoundState s.waiting pid SoundState.Playing }
      updateQueuesF fuel s'

/-- `WSynthesizer::updateQueues`. -/
def updateQueues (s : WSynthesizer) : Int × WSynthesizer :=
  updateQueuesF (countWaiting s.waiting + 1) s

/-- One scheduler iteration from `s` after the scan found the due sound
`(pid, p)`. -/
def schedStep (s : WSynthesizer) (pid : Nat) (p : WaitingSound) : WSynthesizer :=
  match chooseSlot s.playingSounds with
  | some idx => bindSound s idx pid p
  | none => { s with waiting := setSoundState s.waiting pid SoundState.Playing }

/-- The waiting list with the mutable `state` fields erased: node identities,
instruction buffers and start times in link order.  `updateQueues` and
`fillSamples` preserve this projection exactly. -/
def eraseStates (l : List (Nat × WaitingSound)) : List (Nat × List SoundInstruction × Int) :=
  l.map fun e => (e.1, e.2.instructions, e.2.startSampleNo)

/-! ## Queue management: `queuePlayInstructions` (lines 297-327)

The cleanup loop walks the list with a cursor `p`; the inner `while` unlinks
and releases the maximal run of `Done` nodes following `p`, then the cursor
advances.  `removeDoneRun` is the inner `while` applied to the suffix after
the cursor (returning the remaining suffix and the removed run, in removal
order); `sweepList` is the outer `while`. -/

/-- The inner cleanup `while`: strip the leading run of `Done` nodes from
the suffix following the cursor. -/
def removeDoneRun : List (Nat × WaitingSound) →
    List (Nat × WaitingSound) × List (Nat × WaitingSound)
  | [] => ([], [])
  | x :: rest =>
    if x.2.state = SoundState.Done then
      let r := removeDoneRun rest
      (r.1, x :: r.2)
    else (x :: rest, [])

/-- The outer cleanup `while`: at each cursor node, strip the `Done` run
after it, then advance the cursor. -/
def sweepList : List (Nat × WaitingSound) →
    List (Nat × WaitingSound) × List (Nat × WaitingSound)
  | [] => ([], [])
  | x :: rest =>
    let r1 := removeDoneRun rest
    let r2 := sweepList r1.1
    (x :: r2.1, r1.2 ++ r2.2)
termination_by l => l.length
decreasing_by
  have hle : ∀ l : List (Nat × WaitingSound), (removeDoneRun l).1.length ≤ l.length := by
    intro l
    induction l with
    | nil => simp [removeDoneRun]
    | cons y ys ih =>
      simp only [removeDoneRun]
      split
      · simpa using Nat.le_succ_of_le ih
      · simp
  simpa using Nat.lt_succ_of_le (hle rest)

/-- `queuePlayInstructions(when, buf)`: register the buffer, create a
`Waiting` node starting at `currSample + when * sampleRate / 1000`, push it
at the head of the waiting list, then run the lazy cleanup.  Returns the new
state together with the list of released (unregistered) instruction buffers,
in release order. -/
def queuePlayInstructions (when : Int) (buf : List SoundInstruction) (s : WSynthesizer) :
    WSynthesizer × List (List SoundInstruction) :=
  let p : WaitingSound :=
    { state := SoundState.Waiting
      instructions := buf
      startSampleNo := s.currSample + cdiv (when * (s.sampleRate : Int)) 1000 }
  let r := sweepList ((s.nextId, p) :: s.waiting)
  ({ s with
      waiting := r.1
      nextId := s.nextId + 1 },
   r.2.map fun e => e.2.instructions)

/-- A slot occupied by sound `id`, which began playing at sample `ssn`. -/
def occupiedSlot (id : Nat) (ssn : Int) : PlayingSound :=
  { emptySlot with
    sound := some id
    startSampleNo := ssn }

/-- Concrete scheduler input: both slots occupied (slot 0 playing since
sample 10, slot 1 since sample 20) and sound 2 due now. -/
def evictionInput : WSynthesizer :=
  { currSample := 100
    sampleRate := 1000
    playingSounds := [occupiedSlot 0 10, occupiedSlot 1 20]
    waiting := [(0, ⟨SoundState.Playing, [], 10⟩), (1, ⟨SoundState.Playing, [], 20⟩),
                (2, ⟨SoundState.Waiting, [], 0⟩)]
    nextId := 3
    rng := 1 }

/-- A concrete future-scheduled sound (starts at absolute sample 5). -/
def schedSound : WaitingSound := ⟨SoundState.Waiting, [], 5⟩

/-- Concrete scheduling-accuracy input: one empty slot, one `Waiting` sound
(identity 0) scheduled at sample 5, counter at 0. -/
def schedInput : WSynthesizer :=
  { currSample := 0
    sampleRate := 1000
    playingSounds := [emptySlot]
    waiting := [(0, schedSound)]
    nextId := 1
    rng := 1 }

/-- Concrete scheduler input: a single waiting sound whose distance to its
start time exceeds the sentinel `0xffffff`. -/
def sentinelInput : WSynthesizer :=
  { currSample := 0
    sampleRate := 1000
    playingSounds := [emptySlot]
    waiting := [(0, ⟨SoundState.Waiting, [], 0x1000000⟩)]
    nextId := 1
    rng := 1 }

/-! ## Mixer: `WSynthesizer::fillSamples` (lines 147-275)

The per-slot sample loop is modelled by `slotLoop`, whose loop-local state
`SlotLocals` mirrors the C locals (`snd->currInstr` is threaded through it,
since the C code mutates the slot field in place and writes the rest back
after the loop).  The `j == 0` test is the `first` flag, true only on the
initial iteration.  The outer recursion of `fillSamples` (splitting at
scheduling events) is modelled with fuel; `numsamples` itself bounds the
recursion depth because every split strictly decreases it.

`OUTPUT_BITS` and the instruction-record field widths live in `melody.h`,
which is not part of `src/`.  Modelled from the spec: the configured output
bit depth (the upstream header fixes 12).

The tone-step computation
`toneStep = (uint32_t)(toneStepMult * instr->frequency)` goes through a
`float` (`toneStepMult = 1024.0 * 65536 / sampleRate`).  Modelled from the
spec: floating point is not shallow-embeddable, so the map from a clamped
frequency to the 16.16 fixed-point phase step is an arbitrary parameter
`tsf : Nat → Nat` threaded through the mixer (reduced to `uint32_t` range at
its uses); all mixer theorems are proved for every such `tsf`. -/

/-- Output bit depth (from the spec/upstream header; `melody.h` absent). -/
def OUTPUT_BITS : Nat := 12

/-- `MAXVAL = (1 << (OUTPUT_BITS - 1)) - 1`. -/
def MAXVAL : Int := ((1 <<< (OUTPUT_BITS - 1) : Nat) : Int) - 1

/-- Clamp an accumulated sample into `[-MAXVAL, MAXVAL]` (the final loop of
`fillSamples`). -/
def clampOut (x : Int) : Int := if x > MAXVAL then MAXVAL else if x < -MAXVAL then -MAXVAL else x

/-- The five `CLAMP` calls performed when an instruction is entered. -/
def clampInstr (i : SoundInstruction) : SoundInstruction :=
  { i with
    frequency := clampN 20 i.frequency 20000
    endFrequency := clampN 20 i.endFrequency 20000
    startVolume := clampN 0 i.startVolume 1023
    endVolume := clampN 0 i.endVolume 1023
    duration := clampN 1 i.duration 60000 }

/-- The loop-local variables of the per-slot sample loop of `fillSamples`,
together with the in-place mutated instruction cursor. -/
structure SlotLocals where
  currInstr : Int
  wave : Nat
  toneStep : Nat
  toneDelta : Int
  volumeStep : Int
  tonePosition : Nat
  samplesLeft : Nat
  volume : Int
  prevFreq : Nat
  prevEndFreq : Nat
  deriving Repr, DecidableEq

/-- Loop-local initialization for one slot: `snd->currInstr--`, zeroed
step/delta/volume locals, `tonePosition` loaded from the slot. -/
def initLocals (snd : PlayingSound) : SlotLocals :=
  { currInstr := snd.currInstr - 1
    wave := 0
    toneStep := 0
    toneDelta := 0
    volumeStep := 0
    tonePosition := snd.tonePosition
    samplesLeft := 0
    volume := 0
    prevFreq := 0
    prevEndFreq := 0 }

/-- Entering a new instruction (the `samplesLeft == 0` branch of the loop
body, after the cursor bump, when the stream is not exhausted): clamp a copy
of the record, compute the instruction's sample count and volume step; on
the first loop iteration of a resumed slot restore the saved interpolation
state, otherwise initialize the volume and, unless the frequency pair is
unchanged from the previous instruction, recompute the phase step and the
linear glide delta. -/
def setupInstr (spMS : Nat) (tsf : Nat → Nat) (snd : PlayingSound) (first : Bool)
    (st : SlotLocals) : SlotLocals :=
  let instr := clampInstr (snd.instrs.getD st.currInstr.toNat default)
  let samplesFull : Nat := u32 (instr.duration * spMS) >>> 8
  let volumeStep : Int :=
    cdiv (((instr.endVolume : Int) - (instr.startVolume : Int)) * 65536) (i32 samplesFull)
  if first ∧ snd.prevVolume ≠ -1 then
    { st with
      wave := instr.soundWave
      samplesLeft := snd.samplesLeftInCurr
      volume := snd.prevVolume
      toneStep := snd.prevToneStep
      toneDelta := snd.prevToneDelta
      volumeStep := volumeStep
      prevFreq := instr.frequency
      prevEndFreq := instr.endFrequency }
  else
    let base :=
      { st with
        wave := instr.soundWave
        samplesLeft := samplesFull
        volumeStep := volumeStep
        volume := (instr.startVolume : Int) * 65536 }
    if st.prevFreq ≠ instr.frequency ∨ st.prevEndFreq ≠ instr.endFrequency then
      let toneStep := u32 (tsf instr.frequency)
      let toneDelta : Int :=
        if instr.frequency ≠ instr.endFrequency then
          cdiv (i32 (u32 (tsf instr.endFrequency) + 2 ^ 32 - toneStep)) (i32 samplesFull)
        else 0
      { base with
        toneStep := toneStep
        toneDelta := toneDelta
        prevFreq := instr.frequency
        prevEndFreq := instr.endFrequency }
    else base

/-- Generate one sample: evaluate the waveform at the current phase, scale by
the current volume and shift to the output depth; then advance phase by
`toneStep`, `toneStep` by `toneDelta`, `volume` by `volumeStep`, and
decrement `samplesLeft` (all in their C widths). -/
def emitSample (st : SlotLocals) (rng : Nat) : Int × SlotLocals × Nat :=
  let g := getWaveFn st.wave ((st.tonePosition >>> 16) &&& 1023) rng
  let v := sar (g.1 * sar st.volume 16) (10 + (16 - OUTPUT_BITS))
  (v,
   { st with
     tonePosition := u32 (st.tonePosition + st.toneStep)
     toneStep := u32I ((st.toneStep : Int) + st.toneDelta)
     volume := st.volume + st.volumeStep
     samplesLeft := if st.samplesLeft = 0 then 2 ^ 32 - 1 else st.samplesLeft - 1 },
   g.2)

/-- Result of the per-slot sample loop: emitted contributions (one per loop
iteration until the break), final locals, final xorshift state. -/
structure SlotLoopRes where
  outs : List Int
  st : SlotLocals
  rng : Nat
  deriving Repr, DecidableEq

/-- The per-slot sample loop (`for j = 0 .. numsamples-1` with the early
break when the instruction stream is exhausted). -/
def slotLoop (spMS : Nat) (tsf : Nat → Nat) (snd : PlayingSound) :
    Nat → Bool → SlotLocals → Nat → SlotLoopRes
  | 0, _, st, rng => ⟨[], st, rng⟩
  | n + 1, first, st, rng =>
    if st.samplesLeft = 0 then
      if st.currInstr + 1 ≥ snd.instrEnd then
        ⟨[], { st with currInstr := st.currInstr + 1 }, rng⟩
      else
        let st1 := setupInstr spMS tsf snd first { st with currInstr := st.currInstr + 1 }
        let e := emitSample st1 rng
        let r := slotLoop spMS tsf snd n false e.2.1 e.2.2
        ⟨e.1 :: r.outs, r.st, r.rng⟩
    else
      let e := emitSample st rng
      let r := slotLoop spMS tsf snd n false e.2.1 e.2.2
      ⟨e.1 :: r.outs, r.st, r.rng⟩

/-- Result of processing one occupied slot for a whole fill call. -/
structure SlotFillRes where
  outs : List Int
  slot : PlayingSound
  rng : Nat
  finished : Bool
  deriving Repr, DecidableEq

/-- Process one occupied slot: run the sample loop from the slot's saved
state, then either retire the sound (stream exhausted: the slot is freed,
keeping its in-place-mutated cursor, the other fields stale) or write the
resumption state back (`samplesLeftInCurr` is bumped from `0` to `1` to
avoid re-entering the finished instruction's `samplesLeft == 0` path with a
wrapped counter on the next call). -/
def slotFill (spMS : Nat) (tsf : Nat → Nat) (snd : PlayingSound) (n : Nat) (rng : Nat) :
    SlotFillRes :=
  let r := slotLoop spMS tsf snd n true (initLocals snd) rng
  if r.st.currInstr ≥ snd.instrEnd then
    { outs := r.outs
      slot := { snd with sound := none, currInstr := r.st.currInstr }
      rng := r.rng
      finished := true }
  else
    { outs := r.outs
      slot := { snd with
        currInstr := r.st.currInstr
        tonePosition := r.st.tonePosition
        samplesLeftInCurr := if r.st.samplesLeft = 0 then 1 else r.st.samplesLeft
        prevVolume := r.st.volume
        prevToneDelta := r.st.toneDelta
        prevToneStep := r.st.toneStep }
      rng := r.rng
      finished := false }

/-- Accumulate a slot's contributions into the destination buffer
(`dst[j] += v` on `int16_t` cells); positions past the slot's early break
are left unchanged. -/
def addInto : List Int → List Int → List Int
  | [], _ => []
  | buf, [] => buf
  | b :: bs, c :: cs => wrapAdd16 b c :: addInto bs cs

/-- Result of the slot-processing pass of one non-split fill call. -/
structure FillSlotsRes where
  slots : List PlayingSound
  waiting : List (Nat × WaitingSound)
  buf : List Int
  rng : Nat
  anyActive : Bool
  deriving Repr, DecidableEq

/-- The slot-processing pass: for every occupied slot in pool order, run
`slotFill` over the whole buffer, mark the sound `Done` in the waiting list
when its stream is exhausted, and accumulate the contributions. -/
def fillSlots (spMS : Nat) (tsf : Nat → Nat) :
    List PlayingSound → List (Nat × WaitingSound) → List Int → Nat → FillSlotsRes
  | [], w, buf, rng => ⟨[], w, buf, rng, false⟩
  | slot :: others, w, buf, rng =>
    match slot.sound with
    | none =>
      let r := fillSlots spMS tsf others w buf rng
      ⟨slot :: r.slots, r.waiting, r.buf, r.rng, r.anyActive⟩
    | some sid =>
      let f := slotFill spMS tsf slot buf.length rng
      let w' := if f.finished then setSoundState w sid SoundState.Done else w
      let r := fillSlots spMS tsf others w' (addInto buf f.outs) f.rng
      ⟨f.slot :: r.slots, r.waiting, r.buf, r.rng, true⟩

/-- One non-split fill call of `n ≥ 1` samples (the part of `fillSamples`
after the split test): zero the buffer, process every slot, clamp the
accumulated samples, advance `currSample` by `n`.  Returns the written
samples, the new state, and whether any slot was occupied. -/
def fillOnce (tsf : Nat → Nat) (s : WSynthesizer) (n : Nat) :
    List Int × WSynthesizer × Bool :=
  let spMS := (s.sampleRate <<< 8) / 1000
  let r := fillSlots spMS tsf s.playingSounds s.waiting (List.replicate n 0) s.rng
  (r.buf.map clampOut,
   { s with
     playingSounds := r.slots
     waiting := r.waiting
     rng := r.rng
     currSample := s.currSample + n },
   r.anyActive)

/-- Result of `fillSamples`: the written samples, the C return value, and the
final synthesizer state. -/
structure FillRes where
  out : List Int
  res : Int
  synth : WSynthesizer
  deriving Repr, DecidableEq

/-- The fueled body of `fillSamples`: return immediately for a non-positive
request; otherwise run the scheduler, split the call in two at `timeLeft`
when a pending sound becomes due mid-buffer, and otherwise fill once.  The
fuel only bounds the split recursion (each sub-call's request is strictly
smaller, so `numsamples` fuel suffices). -/
def fillSamplesF (tsf : Nat → Nat) : Nat → WSynthesizer → Int → FillRes
  | 0, s, _ => ⟨[], 1, s⟩
  | fuel + 1, s, numsamples =>
    if numsamples ≤ 0 then ⟨[], 1, s⟩
    else
      let q := updateQueues s
      if q.1 < numsamples then
        let r1 := fillSamplesF tsf fuel q.2 q.1
        let r2 := fillSamplesF tsf fuel r1.synth (numsamples - q.1)
        ⟨r1.out ++ r2.out, 1, r2.synth⟩
      else
        let res0 : Int := if q.2.waiting = [] then 0 else 1
        let b := fillOnce tsf q.2 numsamples.toNat
        ⟨b.1, if b.2.2 then 1 else res0, b.2.1⟩

/-- `WSynthesizer::fillSamples`, parametrized by the tone-step function. -/
def fillSamples (tsf : Nat → Nat) (s : WSynthesizer) (numsamples : Int) : FillRes :=
  fillSamplesF tsf numsamples.toNat s numsamples

/-! ## Splitting-equivalence instrumentation (claim C2)

Predicates over the mixer's execution used to state the amended splitting
invariant.  They mirror the recursion structure of `fillSamples`;
`slotLoop`'s locals trajectory does not depend on the xorshift state, so the
per-slot checks fix it to `0`. -/

/-- No instruction of the buffer selects the noise waveform. -/
def noiseFree (l : List SoundInstruction) : Prop :=
  ∀ i ∈ l, i.soundWave ≠ SW_NOISE

/-- Neither the playing slots nor any queued buffer uses noise. -/
def noiseFreeState (s : WSynthesizer) : Prop :=
  (∀ slot ∈ s.playingSounds, slot.sound ≠ none → noiseFree slot.instrs) ∧
  (∀ e ∈ s.waiting, noiseFree e.2.instructions)

/-- After an `n`-sample loop, the slot's sound has not exhausted its
instruction stream (the loop did not break). -/
def slotLiveAt (spMS : Nat) (tsf : Nat → Nat) (snd : PlayingSound) (n : Nat) : Bool :=
  decide ((slotLoop spMS tsf snd n true (initLocals snd) 0).st.currInstr < snd.instrEnd)

/-- After an `n`-sample loop the slot is either retired, or stopped strictly
inside an instruction (`samplesLeft ≠ 0`, so the saved `samplesLeftInCurr`
is exact, not the `0 → 1` adjustment) with a saved volume distinct from the
fresh-bind marker `-1`. -/
def slotCleanAt (spMS : Nat) (tsf : Nat → Nat) (snd : PlayingSound) (n : Nat) : Bool :=
  let r := slotLoop spMS tsf snd n true (initLocals snd) 0
  decide (snd.instrEnd ≤ r.st.currInstr) ||
    (decide (r.st.samplesLeft ≠ 0) && decide (r.st.volume ≠ -1))

/-- Fueled form of `noFinish`: through the whole fill window, no occupied
slot exhausts its instruction stream. -/
def noFinishF (tsf : Nat → Nat) : Nat → WSynthesizer → Int → Bool
  | 0, _, _ => true
  | fuel + 1, s, n =>
    if n ≤ 0 then true
    else
      let q := updateQueues s
      if q.1 < n then
        noFinishF tsf fuel q.2 q.1 &&
          noFinishF tsf fuel (fillSamples tsf q.2 q.1).synth (n - q.1)
      else
        q.2.playingSounds.all fun slot =>
          slot.sound = none ∨ slotLiveAt ((q.2.sampleRate <<< 8) / 1000) tsf slot n.toNat

/-- No occupied slot exhausts its instruction stream during a fill of `n`
samples from `s`. -/
def noFinish (tsf : Nat → Nat) (s : WSynthesizer) (n : Int) : Bool :=
  noFinishF tsf n.toNat s n

/-- Fueled form of `splitClean`: the final base sub-call of the window ends
with every occupied slot clean (retired, or strictly inside an
instruction with a non-sentinel saved volume). -/
def splitCleanF (tsf : Nat → Nat) : Nat → WSynthesizer → Int → Bool
  | 0, _, _ => true
  | fuel + 1, s, n =>
    if n ≤ 0 then true
    else
      let q := updateQueues s
      if q.1 < n then
        splitCleanF tsf fuel (fillSamples tsf q.2 q.1).synth (n - q.1)
      else
        q.2.playingSounds.all fun slot =>
          slot.sound = none ∨ slotCleanAt ((q.2.sampleRate <<< 8) / 1000) tsf slot n.toNat

/-- The boundary after `n` samples from `s` falls cleanly: every slot still
occupied at the end of the window stopped strictly inside an instruction,
with a saved volume distinct from the fresh-bind marker. -/
def splitClean (tsf : Nat → Nat) (s : WSynthesizer) (n : Int) : Bool :=
  splitCleanF tsf n.toNat s n

/-- Cache coherence of the loop locals with the current instruction: the
fields that the resume path recomputes from the instruction record
(`wave`, `volumeStep`, `prevFreq`, `prevEndFreq`) agree with it. -/
def Coherent (spMS : Nat) (snd : PlayingSound) (st : SlotLocals) : Prop :=
  let instr := clampInstr (snd.instrs.getD st.currInstr.toNat default)
  st.wave = instr.soundWave ∧
  st.volumeStep = cdiv (((instr.endVolume : Int) - (instr.startVolume : Int)) * 65536)
    (i32 (u32 (instr.duration * spMS) >>> 8)) ∧
  st.prevFreq = instr.frequency ∧
  st.prevEndFreq = instr.endFrequency

/-- Loop-local well-formedness: mid-instruction states point strictly inside
the instruction stream. -/
def slotWF (snd : PlayingSound) (st : SlotLocals) : Prop :=
  st.samplesLeft = 0 ∨ st.currInstr < snd.instrEnd

/-- First instruction of the C2 counterexample: 1 ms of silence at volume 0. -/
def splitInstrA : SoundInstruction :=
  { soundWave := 15, frequency := 440, duration := 1, startVolume := 0,
    endVolume := 0, endFrequency := 440 }

/-- Second instruction of the C2 counterexample: 1 ms of 50% square at full
volume. -/
def splitInstrB : SoundInstruction :=
  { soundWave := 15, frequency := 440, duration := 1, startVolume := 1023,
    endVolume := 1023, endFrequency := 440 }

/-- C2 counterexample state: one freshly bound slot playing
`[splitInstrA, splitInstrB]` at 1000 Hz (each instruction lasts exactly one
sample), so a split after one sample lands exactly on the instruction
boundary. -/
def splitSlot : PlayingSound :=
  { sound := some 0
    instrs := [splitInstrA, splitInstrB]
    currInstr := 0
    instrEnd := 2
    startSampleNo := 0
    tonePosition := 0
    samplesLeftInCurr := 0
    prevVolume := -1
    prevToneStep := 0
    prevToneDelta := 0 }

def splitInput : WSynthesizer :=
  { currSample := 0
    sampleRate := 1000
    playingSounds := [splitSlot]
    waiting := [(0, ⟨SoundState.Playing, [splitInstrA, splitInstrB], 0⟩)]
    nextId := 1
    rng := 1 }

/-- A sequence of consecutive `fillSamples` calls: concatenate the outputs,
chain the states. -/
def runCalls (tsf : Nat → Nat) (s : WSynthesizer) : List Int → List Int × WSynthesizer
  | [] => ([], s)
  | n :: rest =>
    let r := fillSamples tsf s n
    let q := runCalls tsf r.synth rest
    (r.out ++ q.1, q.2)

/-- Every interior boundary of the call decomposition falls cleanly (see
`splitClean`); the final boundary is the end of the window and needs no
condition. -/
def cleanBounds (tsf : Nat → Nat) (s : WSynthesizer) : List Int → Bool
  | [] => true
  | [_] => true
  | n :: rest => splitClean tsf s n && cleanBounds tsf (fillSamples tsf s n).synth rest

/-- Instruction of the C2 witness: 4 ms of 50% square, constant volume. -/
def seamInstr : SoundInstruction :=
  { soundWave := 15, frequency := 440, duration := 4, startVolume := 512,
    endVolume := 512, endFrequency := 440 }

/-- Slot of the C2 witness: freshly bound to `[seamInstr]`. -/
def seamSlot : PlayingSound :=
  { sound := some 0
    instrs := [seamInstr]
    currInstr := 0
    instrEnd := 1
    startSampleNo := 0
    tonePosition := 0
    samplesLeftInCurr := 0
    prevVolume := -1
    prevToneStep := 0
    prevToneDelta := 0 }

/-- C2 witness state: at 1000 Hz the single 4 ms instruction spans 4 samples,
so a window of 3 split as 1 + 2 stops strictly inside it on both sides. -/
def seamInput : WSynthesizer :=
  { currSample := 0
    sampleRate := 1000
    playingSounds := [seamSlot]
    waiting := [(0, ⟨SoundState.Playing, [seamInstr], 0⟩)]
    nextId := 1
    rng := 1 }

/-! ## Waveform bounds and sine symmetry (claims C4 and C9) -/

set_option maxHeartbeats 4000000 in
set_option maxRecDepth 100000 in
/-- The sine table is bounded by `32767` in magnitude at every phase. -/
theorem sineTone_bounds_fin : ∀ p : Fin 1024, -32767 ≤ sineTone p.val ∧ sineTone p.val ≤ 32767 := by
  decide

set_option maxHeartbeats 4000000 in
set_option maxRecDepth 100000 in
/-- Half-cycle antisymmetry of the sine table, finite form. -/
theorem sineTone_antisym_fin : ∀ p : Fin 512, sineTone (p.val + 512) = - sineTone p.val := by
  decide

set_option maxHeartbeats 4000000 in
set_option maxRecDepth 100000 in
/-- Peak symmetry of the sine table, finite form. -/
theorem sineTone_sym_fin : ∀ p : Fin 513, sineTone (512 - p.val) = sineTone p.val := by
  decide

/-- C4 counterexample: at phase `0` (within `[0,1023]`) and reachable xorshift
state `7619`, the noise generator returns `32768`, which lies outside the
claimed range `[-32767, 32767]`.  (The xorshift sequence visits every nonzero
32-bit state, so this state occurs during playback; from the built-in seed
`0xf01ba80` an output of `32768` first occurs on call number 34677.) -/
theorem noiseTone_exceeds_claimed_bound :
    (getWaveFn SW_NOISE 0 7619).1 = 32768 ∧ ¬((getWaveFn SW_NOISE 0 7619).1 ≤ 32767) := by
  decide

/-- C4 (amended): every waveform generator (sine, sawtooth, triangle, the
square duty-cycle variants, silence fallback), at every phase in `[0, 1023]`
and every noise state, returns an amplitude within `[-32767, 32768]`; every
generator except noise stays within `[-32767, 32767]` (noise alone can
reach `32768`). -/
theorem waveform_amplitude_bounds (wave position rng : Nat) (hpos : position ≤ 1023) :
    (-32767 ≤ (getWaveFn wave position rng).1 ∧ (getWaveFn wave position rng).1 ≤ 32768) ∧
    (wave ≠ SW_NOISE →
      -32767 ≤ (getWaveFn wave position rng).1 ∧ (getWaveFn wave position rng).1 ≤ 32767) := by
  have hsine : -32767 ≤ sineTone position ∧ sineTone position ≤ 32767 :=
    sineTone_bounds_fin ⟨position, by omega⟩
  simp only [getWaveFn]
  split_ifs with h1 h2 h3 h4 h5
  · simp only [triangleTone, Nat.shiftLeft_eq]
    constructor
    · split_ifs <;> constructor <;> omega
    · intro _; split_ifs <;> constructor <;> omega
  · simp only [sawtoothTone, Nat.shiftLeft_eq]
    refine ⟨⟨by omega, by omega⟩, fun _ => ⟨by omega, by omega⟩⟩
  · have hand : xorshiftStep rng &&& 0xffff ≤ 0xffff := Nat.and_le_right
    simp only [noiseTone]
    exact ⟨⟨by omega, by omega⟩, fun hne => absurd h3 hne⟩
  · exact ⟨⟨hsine.1, by omega⟩, fun _ => hsine⟩
  · simp only [squareWaveTone]
    constructor
    · split_ifs <;> omega
    · intro _; split_ifs <;> omega
  · simp only [silenceTone]
    exact ⟨⟨by omega, by omega⟩, fun _ => ⟨by omega, by omega⟩⟩

/-- Witness for `waveform_amplitude_bounds` at the sine selector, phase 100. -/
theorem waveform_amplitude_bounds_witness :
    -32767 ≤ (getWaveFn 3 100 0).1 ∧ (getWaveFn 3 100 0).1 ≤ 32767 :=
  (waveform_amplitude_bounds 3 100 0 (by decide)).2 (by decide)

/-- C9: the sine generator is antisymmetric between its two half cycles
(`sineTone (p+512) = -sineTone p` for `p ∈ [0,511]`) and symmetric about the
half-cycle peak (`sineTone (512-p) = sineTone p` for `p ∈ [0,512]`). -/
theorem sineTone_half_cycle_symmetry (p : Nat) :
    (p ≤ 511 → sineTone (p + 512) = - sineTone p) ∧
    (p ≤ 512 → sineTone (512 - p) = sineTone p) := by
  constructor
  · intro h; exact sineTone_antisym_fin ⟨p, by omega⟩
  · intro h; exact sineTone_sym_fin ⟨p, by omega⟩

/-- Witness for `sineTone_half_cycle_symmetry` at `p = 100`. -/
theorem sineTone_half_cycle_symmetry_witness :
    sineTone 612 = - sineTone 100 ∧ sineTone 412 = sineTone 100 :=
  ⟨(sineTone_half_cycle_symmetry 100).1 (by decide),
   (sineTone_half_cycle_symmetry 100).2 (by decide)⟩

/-! ## Scheduler lemmas (claims C1 and C5) -/

/-- A due sound returned by the scan is a `Waiting` member of the list whose
start time has been reached. -/
theorem scanW_some_mem (curr : Int) (l : List (Nat × WaitingSound)) (acc m : Int)
    (pid : Nat) (p : WaitingSound) (h : scanW curr l acc = (m, some (pid, p))) :
    (pid, p) ∈ l ∧ p.state = SoundState.Waiting ∧ p.startSampleNo - curr ≤ 0 := by
  induction l generalizing acc with
  | nil => simp [scanW] at h
  | cons e rest ih =>
    obtain ⟨i, w⟩ := e
    simp only [scanW] at h
    by_cases hw : w.state = SoundState.Waiting
    · simp only [hw, if_true] at h
      by_cases hd : w.startSampleNo - curr ≤ 0
      · simp only [hd, if_true, Prod.mk.injEq, Option.some.injEq] at h
        obtain ⟨-, rfl, rfl⟩ := h
        exact ⟨List.mem_cons_self _ _, hw, hd⟩
      · simp only [hd, if_false] at h
        obtain ⟨h1, h2, h3⟩ := ih _ h
        exact ⟨List.mem_cons_of_mem _ h1, h2, h3⟩
    · have hne : ¬(maxTime ≤ 0) := by simp [maxTime]
      simp only [hw, if_false, hne] at h
      obtain ⟨h1, h2, h3⟩ := ih _ h
      exact ⟨List.mem_cons_of_mem _ h1, h2, h3⟩

/-- When the scan finds no due sound, every `Waiting` entry lies strictly in
the future and the returned value is the running minimum of their distances,
folded into the accumulator. -/
theorem scanW_none_spec (curr : Int) (l : List (Nat × WaitingSound)) (acc m : Int)
    (hacc : acc ≤ maxTime) (h : scanW curr l acc = (m, none)) :
    (∀ e ∈ l, e.2.state = SoundState.Waiting → 0 < e.2.startSampleNo - curr) ∧
    m = (l.filterMap fun e =>
      if e.2.state = SoundState.Waiting then some (e.2.startSampleNo - curr)
      else none).foldl min acc := by
  induction l generalizing acc with
  | nil =>
    simp only [scanW, Prod.mk.injEq] at h
    simp [h.1]
  | cons e rest ih =>
    obtain ⟨i, w⟩ := e
    simp only [scanW] at h
    by_cases hw : w.state = SoundState.Waiting
    · simp only [hw, if_true] at h
      by_cases hd : w.startSampleNo - curr ≤ 0
      · simp [hd] at h
      · simp only [hd, if_false] at h
        have hacc' : (if w.startSampleNo - curr < acc then w.startSampleNo - curr else acc) ≤
            maxTime := by split <;> omega
        obtain ⟨h1, h2⟩ := ih _ hacc' h
        refine ⟨?_, ?_⟩
        · intro e he hwe
          rcases List.mem_cons.mp he with rfl | hmem
          · have hsnd : ((i, w) : Nat × WaitingSound).2.startSampleNo = w.startSampleNo := rfl
            omega
          · exact h1 e hmem hwe
        · simp only [List.filterMap_cons, hw, if_true, List.foldl_cons, h2]
          congr 1
          rw [min_def]
          split <;> split <;> omega
    · have hne : ¬(maxTime ≤ 0) := by simp [maxTime]
      simp only [hw, if_false, hne] at h
      have hlt : ¬(maxTime < acc) := by omega
      simp only [hlt, if_false] at h
      obtain ⟨h1, h2⟩ := ih _ hacc h
      refine ⟨?_, ?_⟩
      · intro e he hwe
        rcases List.mem_cons.mp he with rfl | hmem
        · exact absurd hwe hw
        · exact h1 e hmem hwe
      · simpa [List.filterMap_cons, hw] using h2

/-- Folding `min` never increases the accumulator. -/
theorem foldl_min_le_acc (l : List Int) (acc : Int) : l.foldl min acc ≤ acc := by
  induction l generalizing acc with
  | nil => simp
  | cons d rest ih =>
    have h1 := ih (min acc d)
    have : min acc d ≤ acc := min_le_left _ _
    calc (d :: rest).foldl min acc = rest.foldl min (min acc d) := rfl
      _ ≤ min acc d := h1
      _ ≤ acc := this

/-- A common lower bound of the accumulator and all elements bounds the
`min`-fold. -/
theorem foldl_min_lb (b : Int) (l : List Int) (acc : Int) (hacc : b ≤ acc)
    (h : ∀ x ∈ l, b ≤ x) : b ≤ l.foldl min acc := by
  induction l generalizing acc with
  | nil => simpa
  | cons d rest ih =>
    have hd : b ≤ d := h d (List.mem_cons_self _ _)
    exact ih (min acc d) (le_min hacc hd) fun x hx => h x (List.mem_cons_of_mem _ hx)

/-- `countWaiting` on a cons. -/
theorem countWaiting_cons (e : Nat × WaitingSound) (l : List (Nat × WaitingSound)) :
    countWaiting (e :: l) =
      countWaiting l + (if e.2.state = SoundState.Waiting then 1 else 0) := by
  simp [countWaiting, List.countP_cons]

/-- `setSoundState` on a cons. -/
theorem setSoundState_cons (e : Nat × WaitingSound) (l : List (Nat × WaitingSound))
    (id : Nat) (st : SoundState) :
    setSoundState (e :: l) id st =
      (if e.1 = id then (e.1, { e.2 with state := st }) else e) :: setSoundState l id st := rfl

/-- Removing an entry (by identity) from `Waiting` never raises the number of
`Waiting` entries. -/
theorem countWaiting_setState_le (l : List (Nat × WaitingSound)) (id : Nat)
    (st : SoundState) (hst : st ≠ SoundState.Waiting) :
    countWaiting (setSoundState l id st) ≤ countWaiting l := by
  induction l with
  | nil => simp [countWaiting, setSoundState]
  | cons e rest ih =>
    rw [setSoundState_cons, countWaiting_cons, countWaiting_cons]
    by_cases hid : e.1 = id
    · simp only [hid, if_true]
      rw [if_neg hst]
      omega
    · simp only [hid, if_false]
      omega

/-- Setting a `Waiting` member's state to a non-`Waiting` state strictly
lowers the number of `Waiting` entries. -/
theorem countWaiting_setState_lt (l : List (Nat × WaitingSound)) (id : Nat)
    (st : SoundState) (hst : st ≠ SoundState.Waiting) (p : WaitingSound)
    (hmem : (id, p) ∈ l) (hw : p.state = SoundState.Waiting) :
    countWaiting (setSoundState l id st) < countWaiting l := by
  induction l with
  | nil => simp at hmem
  | cons e rest ih =>
    rw [setSoundState_cons, countWaiting_cons, countWaiting_cons]
    rcases List.mem_cons.mp hmem with heq | hmem'
    · have hid : e.1 = id := by rw [← heq]
      have hstate : e.2.state = SoundState.Waiting := by rw [← heq]; exact hw
      simp only [hid, if_true]
      rw [if_neg hst, if_pos hstate]
      have := countWaiting_setState_le rest id st hst
      omega
    · have hrest := ih hmem'
      by_cases hid : e.1 = id
      · simp only [hid, if_true]
        rw [if_neg hst]
        omega
      · simp only [hid, if_false]
        omega

/-- Entries whose identity differs from the written one are untouched by
`setSoundState`. -/
theorem setSoundState_mem_of_ne (l : List (Nat × WaitingSound)) (id : Nat)
    (st : SoundState) (e : Nat × WaitingSound) (he : e ∈ l) (hne : e.1 ≠ id) :
    e ∈ setSoundState l id st := by
  have h0 := List.mem_map_of_mem
    (fun x => if x.1 = id then (x.1, { x.2 with state := st }) else x) he
  simp only [if_neg hne] at h0
  exact h0

/-- Binding a due `Waiting` sound strictly lowers the number of `Waiting`
entries (the bound sound becomes `Playing`; an evicted occupant, if any,
becomes `Done`). -/
theorem countWaiting_bindSound_lt (s : WSynthesizer) (slotIdx pid : Nat)
    (p : WaitingSound) (hmem : (pid, p) ∈ s.waiting) (hw : p.state = SoundState.Waiting) :
    countWaiting (bindSound s slotIdx pid p).waiting < countWaiting s.waiting := by
  unfold bindSound
  cases hget : s.playingSounds.get? slotIdx with
  | none =>
    simpa using countWaiting_setState_lt s.waiting pid SoundState.Playing (by simp) p hmem hw
  | some slot =>
    cases hsnd : slot.sound with
    | none =>
      simpa [hsnd] using
        countWaiting_setState_lt s.waiting pid SoundState.Playing (by simp) p hmem hw
    | some evicted =>
      simp only [hsnd]
      by_cases hev : evicted = pid
      · subst hev
        have h1 : countWaiting (setSoundState s.waiting evicted SoundState.Done) <
            countWaiting s.waiting :=
          countWaiting_setState_lt s.waiting evicted SoundState.Done (by simp) p hmem hw
        have h2 := countWaiting_setState_le
          (setSoundState s.waiting evicted SoundState.Done) evicted SoundState.Playing (by simp)
        omega
      · have hmem1 : (pid, p) ∈ setSoundState s.waiting evicted SoundState.Done :=
          setSoundState_mem_of_ne s.waiting evicted SoundState.Done (pid, p) hmem
            (by simpa using fun h => hev h.symm)
        have h1 : countWaiting (setSoundState
            (setSoundState s.waiting evicted SoundState.Done) pid SoundState.Playing) <
            countWaiting (setSoundState s.waiting evicted SoundState.Done) :=
          countWaiting_setState_lt _ pid SoundState.Playing (by simp) p hmem1 hw
        have h2 := countWaiting_setState_le s.waiting evicted SoundState.Done (by simp)
        omega

/-- A scheduler iteration on a due sound strictly lowers the number of
`Waiting` entries. -/
theorem countWaiting_schedStep_lt (s : WSynthesizer) (pid : Nat) (p : WaitingSound)
    (hmem : (pid, p) ∈ s.waiting) (hw : p.state = SoundState.Waiting) :
    countWaiting (schedStep s pid p).waiting < countWaiting s.waiting := by
  unfold schedStep
  cases chooseSlot s.playingSounds with
  | some idx => exact countWaiting_bindSound_lt s idx pid p hmem hw
  | none =>
    simpa using countWaiting_setState_lt s.waiting pid SoundState.Playing (by simp) p hmem hw

/-- The fueled scheduler body is fuel-irrelevant once the fuel exceeds the
number of `Waiting` entries. -/
theorem updateQueuesF_congr (n : Nat) : ∀ (s : WSynthesizer) (f1 f2 : Nat),
    countWaiting s.waiting = n → n < f1 → n < f2 →
    updateQueuesF f1 s = updateQueuesF f2 s := by
  induction n using Nat.strong_induction_on with
  | _ n ih =>
    intro s f1 f2 hn h1 h2
    obtain ⟨f1', rfl⟩ : ∃ k, f1 = k + 1 := ⟨f1 - 1, by omega⟩
    obtain ⟨f2', rfl⟩ : ∃ k, f2 = k + 1 := ⟨f2 - 1, by omega⟩
    simp only [updateQueuesF]
    cases hscan : scanW s.currSample s.waiting maxTime with
    | mk m found =>
      cases found with
      | none => rfl
      | some pr =>
        obtain ⟨pid, p⟩ := pr
        obtain ⟨hmem, hw, _⟩ := scanW_some_mem _ _ _ _ _ _ hscan
        have hlt := countWaiting_schedStep_lt s pid p hmem hw
        rw [hn] at hlt
        show updateQueuesF f1' (schedStep s pid p) = updateQueuesF f2' (schedStep s pid p)
        exact ih _ hlt _ f1' f2' rfl (by omega) (by omega)

/-- Unfolding equation for `updateQueues`: scan, and either return `minLeft`
or bind the due sound and continue. -/
theorem updateQueues_eq (s : WSynthesizer) :
    updateQueues s = match scanW s.currSample s.waiting maxTime with
      | (minLeft, none) => (minLeft, s)
      | (_, some (pid, p)) => updateQueues (schedStep s pid p) := by
  unfold updateQueues
  simp only [updateQueuesF]
  cases hscan : scanW s.currSample s.waiting maxTime with
  | mk m found =>
    cases found with
    | none => rfl
    | some pr =>
      obtain ⟨pid, p⟩ := pr
      obtain ⟨hmem, hw, _⟩ := scanW_some_mem _ _ _ _ _ _ hscan
      have hlt := countWaiting_schedStep_lt s pid p hmem hw
      show updateQueuesF (countWaiting s.waiting) (schedStep s pid p) = _
      exact updateQueuesF_congr _ (schedStep s pid p) (countWaiting s.waiting)
        (countWaiting (schedStep s pid p).waiting + 1) rfl hlt (Nat.lt_succ_self _)

/-- The value returned by `updateQueues` lies in `[1, maxTime]`. -/
theorem updateQueues_fst_bounds (s : WSynthesizer) :
    1 ≤ (updateQueues s).1 ∧ (updateQueues s).1 ≤ maxTime := by
  generalize hn : countWaiting s.waiting = n
  induction n using Nat.strong_induction_on generalizing s with
  | _ n ih =>
    rw [updateQueues_eq]
    cases hscan : scanW s.currSample s.waiting maxTime with
    | mk m found =>
      cases found with
      | none =>
        obtain ⟨hpos, hmin⟩ := scanW_none_spec _ _ _ _ (le_refl _) hscan
        constructor
        · refine hmin ▸ foldl_min_lb 1 _ _ (by simp [maxTime]) ?_
          intro x hx
          simp only [List.mem_filterMap] at hx
          obtain ⟨e, he, hxe⟩ := hx
          by_cases hwe : e.2.state = SoundState.Waiting
          · simp only [hwe, if_true, Option.some.injEq] at hxe
            have := hpos e he hwe
            omega
          · simp [hwe] at hxe
        · exact hmin ▸ foldl_min_le_acc _ _
      | some pr =>
        obtain ⟨pid, p⟩ := pr
        obtain ⟨hmem, hw, _⟩ := scanW_some_mem _ _ _ _ _ _ hscan
        have hlt := countWaiting_schedStep_lt s pid p hmem hw
        rw [hn] at hlt
        exact ih _ hlt _ rfl

/-! ## Claim C1: the eviction policy -/

/-- C1 (code bug): with slot 0 playing since sample 10 and slot 1 playing
since sample 20, admitting a due sound evicts the occupant of slot 1 — the
sound with the *largest* `startSampleNo` (most recently started) — while
sound 0, the one playing the longest, keeps playing.  The comparison
`playingSounds[minIdx].startSampleNo < playingSounds[i].startSampleNo`
moves `minIdx` towards the maximum, contradicting the code's own comment
("expel the oldest sound") and the claimed policy. -/
theorem updateQueues_evicts_newest_not_oldest :
    ((updateQueues evictionInput).2.waiting.map fun e => e.2.state) =
      [SoundState.Playing, SoundState.Done, SoundState.Playing] ∧
    ((updateQueues evictionInput).2.playingSounds.map fun p => p.sound) =
      [some 0, some 2] := by
  decide

/-! ## Claim C5: the scheduler's return value -/

/-- C5 counterexample: for a single waiting sound `0x1000000` samples in the
future, `updateQueues` returns the sentinel `0xffffff`, not the minimum
distance `0x1000000` over remaining `Waiting` sounds demanded by the claim. -/
theorem updateQueues_sentinel_conflation :
    (updateQueues sentinelInput).1 = 0xffffff ∧
    ((updateQueues sentinelInput).2.waiting.filterMap fun e =>
      if e.2.state = SoundState.Waiting then
        some (e.2.startSampleNo - (updateQueues sentinelInput).2.currSample)
      else none) = [0x1000000] ∧
    (0xffffff : Int) ≠ 0x1000000 := by
  decide

/-- The full postcondition of `updateQueues`: the counter is untouched, no
due `Waiting` sound remains, and the returned value is the `min`-fold of the
remaining `Waiting` distances into the sentinel accumulator. -/
theorem updateQueues_post (s : WSynthesizer) :
    (updateQueues s).2.currSample = s.currSample ∧
    (∀ e ∈ (updateQueues s).2.waiting, e.2.state = SoundState.Waiting →
      0 < e.2.startSampleNo - s.currSample) ∧
    (updateQueues s).1 = ((updateQueues s).2.waiting.filterMap fun e =>
      if e.2.state = SoundState.Waiting then some (e.2.startSampleNo - s.currSample)
      else none).foldl min maxTime := by
  generalize hn : countWaiting s.waiting = n
  induction n using Nat.strong_induction_on generalizing s with
  | _ n ih =>
    rw [updateQueues_eq]
    cases hscan : scanW s.currSample s.waiting maxTime with
    | mk m found =>
      cases found with
      | none =>
        obtain ⟨hpos, hmin⟩ := scanW_none_spec _ _ _ _ (le_refl _) hscan
        exact ⟨rfl, hpos, hmin⟩
      | some pr =>
        obtain ⟨pid, p⟩ := pr
        obtain ⟨hmem, hw, _⟩ := scanW_some_mem _ _ _ _ _ _ hscan
        have hlt := countWaiting_schedStep_lt s pid p hmem hw
        rw [hn] at hlt
        have hcs : (schedStep s pid p).currSample = s.currSample := by
          unfold schedStep bindSound
          cases chooseSlot s.playingSounds with
          | some idx =>
            simp only
            cases s.playingSounds.get? idx <;> rfl
          | none => rfl
        have := ih _ hlt (schedStep s pid p) rfl
        rw [hcs] at this
        exact this

/-- C5 (amended): after `updateQueues` returns `v`, no `Waiting` sound with
`startSampleNo ≤ currSample` remains, and `v` is the minimum of
`startSampleNo - currSample` over the remaining `Waiting` sounds *capped at
the sentinel* — the `min`-fold with initial accumulator `0xffffff` — which
equals the sentinel when no `Waiting` sound remains.  (`currSample` is
unchanged by the call; the slot pool is nonempty, as `MAX_SOUNDS ≥ 1`
guarantees in the C code.) -/
theorem updateQueues_schedule_spec (s : WSynthesizer) (_hpool : s.playingSounds ≠ []) :
    (updateQueues s).2.currSample = s.currSample ∧
    (∀ e ∈ (updateQueues s).2.waiting, e.2.state = SoundState.Waiting →
      0 < e.2.startSampleNo - s.currSample) ∧
    (updateQueues s).1 = ((updateQueues s).2.waiting.filterMap fun e =>
      if e.2.state = SoundState.Waiting then some (e.2.startSampleNo - s.currSample)
      else none).foldl min maxTime :=
  updateQueues_post s

/-! ## Queue management lemmas (claim C7) -/

/-- The inner cleanup run decomposes its input: the removed run is a prefix
of `Done` nodes, and the kept suffix is either empty or starts with a
non-`Done` node. -/
theorem removeDoneRun_spec (l : List (Nat × WaitingSound)) :
    (removeDoneRun l).2 ++ (removeDoneRun l).1 = l ∧
    (∀ e ∈ (removeDoneRun l).2, e.2.state = SoundState.Done) ∧
    ((removeDoneRun l).1 = [] ∨
      ∃ y ys, (removeDoneRun l).1 = y :: ys ∧ y.2.state ≠ SoundState.Done) := by
  induction l with
  | nil => simp [removeDoneRun]
  | cons x rest ih =>
    by_cases hx : x.2.state = SoundState.Done
    · simp only [removeDoneRun, hx, if_true]
      refine ⟨by simpa using ih.1, ?_, ih.2.2⟩
      intro e he
      rcases List.mem_cons.mp he with rfl | hmem
      · exact hx
      · exact ih.2.1 e hmem
    · simp only [removeDoneRun, hx, if_false]
      exact ⟨rfl, by simp, Or.inr ⟨x, rest, rfl, hx⟩⟩

/-- Filtering for non-`Done` annihilates an all-`Done` list. -/
theorem filter_notDone_of_allDone (d : List (Nat × WaitingSound))
    (h : ∀ e ∈ d, e.2.state = SoundState.Done) :
    d.filter (fun e => ¬ e.2.state = SoundState.Done) = [] := by
  induction d with
  | nil => rfl
  | cons x rest ih =>
    have hx := h x (List.mem_cons_self _ _)
    simp only [List.filter_cons, hx]
    simpa using ih fun e he => h e (List.mem_cons_of_mem _ he)

/-- Filtering for `Done` preserves an all-`Done` list. -/
theorem filter_done_of_allDone (d : List (Nat × WaitingSound))
    (h : ∀ e ∈ d, e.2.state = SoundState.Done) :
    d.filter (fun e => e.2.state = SoundState.Done) = d := by
  induction d with
  | nil => rfl
  | cons x rest ih =>
    have hx := h x (List.mem_cons_self _ _)
    simp only [List.filter_cons, hx]
    simpa using ih fun e he => h e (List.mem_cons_of_mem _ he)

/-- The cleanup sweep keeps the head node and exactly the non-`Done` nodes
of the tail (in order), and removes exactly the `Done` nodes of the tail
(in order). -/
theorem sweepList_cons (n : Nat) : ∀ (x : Nat × WaitingSound) (rest : List (Nat × WaitingSound)),
    rest.length ≤ n →
    sweepList (x :: rest) =
      (x :: rest.filter (fun e => ¬ e.2.state = SoundState.Done),
       rest.filter (fun e => e.2.state = SoundState.Done)) := by
  induction n with
  | zero =>
    intro x rest hlen
    have : rest = [] := List.length_eq_zero.mp (Nat.le_zero.mp hlen)
    subst this
    simp [sweepList, removeDoneRun]
  | succ n ih =>
    intro x rest hlen
    obtain ⟨hsplit, hdone, hkept⟩ := removeDoneRun_spec rest
    cases hr : removeDoneRun rest with
    | mk k d =>
      rw [hr] at hsplit hdone hkept
      simp only at hsplit hdone hkept
      rw [sweepList, hr]
      simp only
      rcases hkept with hnil | ⟨y, ys, hcons, hy⟩
      · subst hnil
        simp only [List.append_nil] at hsplit
        subst hsplit
        rw [sweepList]
        simp [filter_notDone_of_allDone _ hdone, filter_done_of_allDone _ hdone]
        exact fun a b hab => hdone (a, b) hab
      · subst hcons
        have hys : ys.length ≤ n := by
          have := congrArg List.length hsplit
          simp only [List.length_append, List.length_cons] at this
          omega
        rw [ih y ys hys]
        rw [← hsplit, List.filter_append, List.filter_append]
        simp only [List.filter_cons]
        simp [filter_notDone_of_allDone _ hdone, filter_done_of_allDone _ hdone, hy]
        exact fun a b hab => hdone (a, b) hab

/-- C7: after `queuePlayInstructions` returns, the new sound (identity
`s.nextId`, state `Waiting`, start sample `currSample + when*sampleRate/1000`)
is at the head of the waiting list; the rest of the list is exactly the
previous list with every `Done` entry unlinked (so no `Done` entry remains
anywhere); and the released (unregistered) buffers are exactly the
instruction buffers of the unlinked entries, one release per entry, in list
order. -/
theorem queuePlayInstructions_spec (when : Int) (buf : List SoundInstruction)
    (s : WSynthesizer) :
    (queuePlayInstructions when buf s).1.waiting =
      (s.nextId, ⟨SoundState.Waiting, buf,
        s.currSample + cdiv (when * (s.sampleRate : Int)) 1000⟩) ::
      s.waiting.filter (fun e => ¬ e.2.state = SoundState.Done) ∧
    (∀ e ∈ (queuePlayInstructions when buf s).1.waiting, e.2.state ≠ SoundState.Done) ∧
    (queuePlayInstructions when buf s).2 =
      (s.waiting.filter (fun e => e.2.state = SoundState.Done)).map
        (fun e => e.2.instructions) := by
  have hsweep := sweepList_cons s.waiting.length
    (s.nextId, ⟨SoundState.Waiting, buf,
      s.currSample + cdiv (when * (s.sampleRate : Int)) 1000⟩) s.waiting (le_refl _)
  refine ⟨?_, ?_, ?_⟩
  · show (sweepList _).1 = _
    rw [hsweep]
  · intro e he
    have he' : e ∈ (sweepList ((s.nextId, ⟨SoundState.Waiting, buf,
        s.currSample + cdiv (when * (s.sampleRate : Int)) 1000⟩) :: s.waiting)).1 := he
    rw [hsweep] at he'
    rcases List.mem_cons.mp he' with rfl | hmem
    · simp
    · have := List.of_mem_filter hmem
      simpa using this
  · show ((sweepList _).2).map _ = _
    rw [hsweep]

/-! ## Mixer fuel machinery -/

/-- The fueled mixer body does not depend on the fuel once the fuel covers
the requested sample count (splits strictly decrease the request, which
stays positive by `updateQueues_fst_bounds`). -/
theorem fillSamplesF_congr (n : Nat) : ∀ (tsf : Nat → Nat) (s : WSynthesizer) (k : Int)
    (f1 f2 : Nat), k.toNat ≤ n → k.toNat ≤ f1 → k.toNat ≤ f2 →
    fillSamplesF tsf f1 s k = fillSamplesF tsf f2 s k := by
  induction n using Nat.strong_induction_on with
  | _ n ih =>
    intro tsf s k f1 f2 hn h1 h2
    by_cases hk : k ≤ 0
    · cases f1 with
      | zero =>
        cases f2 with
        | zero => rfl
        | succ g2 => simp only [fillSamplesF, if_pos hk]
      | succ g1 =>
        cases f2 with
        | zero => simp only [fillSamplesF, if_pos hk]
        | succ g2 => simp only [fillSamplesF, if_pos hk]
    · obtain ⟨g1, rfl⟩ : ∃ g, f1 = g + 1 := ⟨f1 - 1, by omega⟩
      obtain ⟨g2, rfl⟩ : ∃ g, f2 = g + 1 := ⟨f2 - 1, by omega⟩
      simp only [fillSamplesF, if_neg hk]
      obtain ⟨ht1, -⟩ := updateQueues_fst_bounds s
      by_cases hsplit : (updateQueues s).1 < k
      · simp only [if_pos hsplit]
        have e1 : fillSamplesF tsf g1 (updateQueues s).2 (updateQueues s).1 =
            fillSamplesF tsf g2 (updateQueues s).2 (updateQueues s).1 :=
          ih ((updateQueues s).1).toNat (by omega) tsf _ _ g1 g2 (le_refl _)
            (by omega) (by omega)
        have e2 : ∀ s', fillSamplesF tsf g1 s' (k - (updateQueues s).1) =
            fillSamplesF tsf g2 s' (k - (updateQueues s).1) := fun s' =>
          ih (k - (updateQueues s).1).toNat (by omega) tsf s' _ g1 g2 (le_refl _)
            (by omega) (by omega)
        rw [e1, e2]
      · simp only [if_neg hsplit]

/-- Unfolding equation for `fillSamples`: return for a non-positive request,
otherwise run the scheduler and either split at `timeLeft` or fill once. -/
theorem fillSamples_eq (tsf : Nat → Nat) (s : WSynthesizer) (n : Int) :
    fillSamples tsf s n =
      if n ≤ 0 then ⟨[], 1, s⟩
      else if (updateQueues s).1 < n then
        ⟨(fillSamples tsf (updateQueues s).2 (updateQueues s).1).out ++
          (fillSamples tsf (fillSamples tsf (updateQueues s).2 (updateQueues s).1).synth
            (n - (updateQueues s).1)).out, 1,
         (fillSamples tsf (fillSamples tsf (updateQueues s).2 (updateQueues s).1).synth
            (n - (updateQueues s).1)).synth⟩
      else
        ⟨(fillOnce tsf (updateQueues s).2 n.toNat).1,
         if (fillOnce tsf (updateQueues s).2 n.toNat).2.2 then 1
         else if (updateQueues s).2.waiting = [] then 0 else 1,
         (fillOnce tsf (updateQueues s).2 n.toNat).2.1⟩ := by
  by_cases hk : n ≤ 0
  · rw [if_pos hk]
    unfold fillSamples
    rw [Int.toNat_of_nonpos hk]
    rfl
  · rw [if_neg hk]
    unfold fillSamples
    obtain ⟨g, hg⟩ : ∃ g, n.toNat = g + 1 := ⟨n.toNat - 1, by omega⟩
    rw [hg]
    simp only [fillSamplesF, if_neg hk]
    obtain ⟨ht1, -⟩ := updateQueues_fst_bounds s
    by_cases hsplit : (updateQueues s).1 < n
    · simp only [if_pos hsplit]
      have e1 : fillSamplesF tsf g (updateQueues s).2 (updateQueues s).1 =
          fillSamplesF tsf ((updateQueues s).1).toNat (updateQueues s).2 (updateQueues s).1 :=
        fillSamplesF_congr ((updateQueues s).1).toNat tsf _ _ g _ (le_refl _)
          (by omega) (le_refl _)
      have e2 : ∀ s', fillSamplesF tsf g s' (n - (updateQueues s).1) =
          fillSamplesF tsf (n - (updateQueues s).1).toNat s' (n - (updateQueues s).1) :=
        fun s' => fillSamplesF_congr (n - (updateQueues s).1).toNat tsf s' _ g _ (le_refl _)
          (by omega) (le_refl _)
      rw [e1, e2]
    · simp only [if_neg hsplit]
      rw [hg]

/-! ## Structure-preservation lemmas -/

/-- Writing a `state` field touches nothing else: the state-erased waiting
list is unchanged. -/
theorem eraseStates_setSoundState (l : List (Nat × WaitingSound)) (id : Nat)
    (st : SoundState) : eraseStates (setSoundState l id st) = eraseStates l := by
  induction l with
  | nil => rfl
  | cons e rest ih =>
    rw [setSoundState_cons]
    by_cases hid : e.1 = id
    · simp only [hid, if_true, eraseStates, List.map_cons] at *
      rw [ih]
    · simp only [hid, if_false, eraseStates, List.map_cons] at *
      rw [ih]

/-- One scheduler iteration changes only sound states and slot bindings. -/
theorem schedStep_preserves (s : WSynthesizer) (pid : Nat) (p : WaitingSound) :
    (schedStep s pid p).currSample = s.currSample ∧
    (schedStep s pid p).sampleRate = s.sampleRate ∧
    (schedStep s pid p).nextId = s.nextId ∧
    (schedStep s pid p).rng = s.rng ∧
    (schedStep s pid p).playingSounds.length = s.playingSounds.length ∧
    eraseStates (schedStep s pid p).waiting = eraseStates s.waiting := by
  unfold schedStep bindSound
  cases chooseSlot s.playingSounds with
  | none => simp [eraseStates_setSoundState]
  | some idx =>
    simp only
    cases hget : s.playingSounds.get? idx with
    | none => simp [eraseStates_setSoundState]
    | some slot =>
      cases hsnd : slot.sound with
      | none => simp [hsnd, eraseStates_setSoundState, List.length_set]
      | some evicted => simp [hsnd, eraseStates_setSoundState, List.length_set]

/-- `updateQueues` changes only sound states and slot bindings. -/
theorem updateQueues_preserves (s : WSynthesizer) :
    (updateQueues s).2.currSample = s.currSample ∧
    (updateQueues s).2.sampleRate = s.sampleRate ∧
    (updateQueues s).2.nextId = s.nextId ∧
    (updateQueues s).2.rng = s.rng ∧
    (updateQueues s).2.playingSounds.length = s.playingSounds.length ∧
    eraseStates (updateQueues s).2.waiting = eraseStates s.waiting := by
  generalize hn : countWaiting s.waiting = n
  induction n using Nat.strong_induction_on generalizing s with
  | _ n ih =>
    rw [updateQueues_eq]
    cases hscan : scanW s.currSample s.waiting maxTime with
    | mk m found =>
      cases found with
      | none => exact ⟨rfl, rfl, rfl, rfl, rfl, rfl⟩
      | some pr =>
        obtain ⟨pid, p⟩ := pr
        obtain ⟨hmem, hw, -⟩ := scanW_some_mem _ _ _ _ _ _ hscan
        have hlt := countWaiting_schedStep_lt s pid p hmem hw
        rw [hn] at hlt
        obtain ⟨e1, e2, e3, e4, e5, e6⟩ := ih _ hlt (schedStep s pid p) rfl
        obtain ⟨f1, f2, f3, f4, f5, f6⟩ := schedStep_preserves s pid p
        exact ⟨e1.trans f1, e2.trans f2, e3.trans f3, e4.trans f4, e5.trans f5, e6.trans f6⟩

/-- Accumulating contributions does not change the buffer length. -/
theorem addInto_length (buf c : List Int) : (addInto buf c).length = buf.length := by
  induction buf generalizing c with
  | nil => cases c <;> rfl
  | cons b bs ih =>
    cases c with
    | nil => rfl
    | cons x xs => simp [addInto, ih]

/-- The slot pass keeps the buffer length, the state-erased waiting list and
the pool size. -/
theorem fillSlots_spec (spMS : Nat) (tsf : Nat → Nat) (slots : List PlayingSound) :
    ∀ (w : List (Nat × WaitingSound)) (buf : List Int) (rng : Nat),
    (fillSlots spMS tsf slots w buf rng).buf.length = buf.length ∧
    eraseStates (fillSlots spMS tsf slots w buf rng).waiting = eraseStates w ∧
    (fillSlots spMS tsf slots w buf rng).slots.length = slots.length := by
  induction slots with
  | nil => intro w buf rng; exact ⟨rfl, rfl, rfl⟩
  | cons slot others ih =>
    intro w buf rng
    simp only [fillSlots]
    cases slot.sound with
    | none =>
      obtain ⟨h1, h2, h3⟩ := ih w buf rng
      exact ⟨h1, h2, by simpa using h3⟩
    | some sid =>
      simp only
      set f := slotFill spMS tsf slot buf.length rng with hf
      set w' := if f.finished then setSoundState w sid SoundState.Done else w with hw'
      obtain ⟨h1, h2, h3⟩ := ih w' (addInto buf f.outs) f.rng
      refine ⟨by rw [h1, addInto_length], ?_, by simpa using h3⟩
      rw [h2, hw']
      split
      · exact eraseStates_setSoundState _ _ _
      · rfl

/-- Every clamped output sample lies in `[-MAXVAL, MAXVAL]`. -/
theorem clampOut_bounds (x : Int) : -MAXVAL ≤ clampOut x ∧ clampOut x ≤ MAXVAL := by
  have hM : MAXVAL = 2047 := by decide
  unfold clampOut
  split_ifs <;> omega

/-- One non-split fill call writes exactly `n` samples, each clamped into
`[-MAXVAL, MAXVAL]`, advances `currSample` by `n` and preserves the waiting
list structure, the sample rate, the identity counter and the pool size. -/
theorem fillOnce_spec (tsf : Nat → Nat) (s : WSynthesizer) (n : Nat) :
    (fillOnce tsf s n).1.length = n ∧
    (∀ x ∈ (fillOnce tsf s n).1, -MAXVAL ≤ x ∧ x ≤ MAXVAL) ∧
    (fillOnce tsf s n).2.1.currSample = s.currSample + n ∧
    eraseStates (fillOnce tsf s n).2.1.waiting = eraseStates s.waiting ∧
    (fillOnce tsf s n).2.1.sampleRate = s.sampleRate ∧
    (fillOnce tsf s n).2.1.nextId = s.nextId ∧
    (fillOnce tsf s n).2.1.playingSounds.length = s.playingSounds.length := by
  obtain ⟨h1, h2, h3⟩ := fillSlots_spec ((s.sampleRate <<< 8) / 1000) tsf s.playingSounds
    s.waiting (List.replicate n 0) s.rng
  refine ⟨?_, ?_, rfl, h2, rfl, rfl, h3⟩
  · show ((fillSlots ((s.sampleRate <<< 8) / 1000) tsf s.playingSounds s.waiting
        (List.replicate n 0) s.rng).buf.map clampOut).length = n
    rw [List.length_map, h1, List.length_replicate]
  · exact fun x hx => by
      obtain ⟨y, -, rfl⟩ := List.mem_map.mp hx
      exact clampOut_bounds y

/-! ## Claim C3: exact sample count, output range, counter advance -/

set_option maxHeartbeats 1000000 in
/-- For a positive request, `fillSamples` writes exactly `N` samples, each in
`[-MAXVAL, MAXVAL]`, and advances `currSample` by `N` (helper form). -/
theorem fillSamples_basic (tsf : Nat → Nat) (s : WSynthesizer) (n : Int)
    (h : 0 < n) :
    (fillSamples tsf s n).out.length = n.toNat ∧
    (∀ x ∈ (fillSamples tsf s n).out, -MAXVAL ≤ x ∧ x ≤ MAXVAL) ∧
    (fillSamples tsf s n).synth.currSample = s.currSample + n := by
  generalize hm : n.toNat = m
  induction m using Nat.strong_induction_on generalizing s n with
  | _ m ih =>
    subst hm
    rw [fillSamples_eq, if_neg (by omega : ¬ n ≤ 0)]
    obtain ⟨ht1, -⟩ := updateQueues_fst_bounds s
    obtain ⟨hq1, -, -, -, -, -⟩ := updateQueues_preserves s
    by_cases hsplit : (updateQueues s).1 < n
    · rw [if_pos hsplit]
      dsimp only
      obtain ⟨a1, a2, a3⟩ := ih ((updateQueues s).1).toNat (by omega) (updateQueues s).2
        (updateQueues s).1 (by omega) rfl
      obtain ⟨b1, b2, b3⟩ := ih (n - (updateQueues s).1).toNat (by omega)
        (fillSamples tsf (updateQueues s).2 (updateQueues s).1).synth
        (n - (updateQueues s).1) (by omega) rfl
      refine ⟨?_, ?_, ?_⟩
      · rw [List.length_append, a1, b1]; omega
      · intro x hx
        rcases List.mem_append.mp hx with hx | hx
        · exact a2 x hx
        · exact b2 x hx
      · rw [b3, a3, hq1]; omega
    · rw [if_neg hsplit]
      dsimp only
      obtain ⟨c1, c2, c3, -, -, -, -⟩ := fillOnce_spec tsf (updateQueues s).2 n.toNat
      refine ⟨c1, c2, ?_⟩
      rw [c3, hq1]
      omega

/-- C3: for every state, tone-step function and request `N > 0`,
`fillSamples` writes exactly `N` samples, each within
`[-(2^(OUTPUT_BITS-1)-1), 2^(OUTPUT_BITS-1)-1]` (that is,
`[-MAXVAL, MAXVAL]`), and advances `currSample` by exactly `N`. -/
theorem fillSamples_count_range (tsf : Nat → Nat) (s : WSynthesizer) (n : Int)
    (h : 0 < n) :
    (fillSamples tsf s n).out.length = n.toNat ∧
    (∀ x ∈ (fillSamples tsf s n).out, -MAXVAL ≤ x ∧ x ≤ MAXVAL) ∧
    (fillSamples tsf s n).synth.currSample = s.currSample + n :=
  fillSamples_basic tsf s n h

/-- Witness for `fillSamples_count_range` at a concrete state and `N = 2`. -/
theorem fillSamples_count_range_witness :
    (0 : Int) < 2 ∧
    ((fillSamples (fun _ => 0) evictionInput 2).out.length = (2 : Int).toNat ∧
     (∀ x ∈ (fillSamples (fun _ => 0) evictionInput 2).out, -MAXVAL ≤ x ∧ x ≤ MAXVAL) ∧
     (fillSamples (fun _ => 0) evictionInput 2).synth.currSample =
       evictionInput.currSample + 2) :=
  ⟨by decide, fillSamples_count_range (fun _ => 0) evictionInput 2 (by decide)⟩

/-! ## Claim C8: the mixer does not touch the list structure -/

/-- C8: a `fillSamples` call (of any request, through any internal splits)
preserves the waiting list's structure exactly — the nodes, their order
(the `next` links), each node's `instructions` buffer and `startSampleNo` —
as well as the sample rate, the identity counter and the pool size; the
state it mutates is confined to the sounds' `state` fields, the slot array,
the sample counter (and the noise generator's static xorshift word, which is
not part of the `WSynthesizer` object). -/
theorem fillSamples_preserves_links (tsf : Nat → Nat) (s : WSynthesizer) (n : Int) :
    eraseStates (fillSamples tsf s n).synth.waiting = eraseStates s.waiting ∧
    (fillSamples tsf s n).synth.sampleRate = s.sampleRate ∧
    (fillSamples tsf s n).synth.nextId = s.nextId ∧
    (fillSamples tsf s n).synth.playingSounds.length = s.playingSounds.length := by
  generalize hm : n.toNat = m
  induction m using Nat.strong_induction_on generalizing s n with
  | _ m ih =>
    rw [fillSamples_eq]
    by_cases hk : n ≤ 0
    · rw [if_pos hk]
      exact ⟨rfl, rfl, rfl, rfl⟩
    · rw [if_neg hk]
      obtain ⟨ht1, -⟩ := updateQueues_fst_bounds s
      obtain ⟨-, hq2, hq3, -, hq5, hq6⟩ := updateQueues_preserves s
      by_cases hsplit : (updateQueues s).1 < n
      · rw [if_pos hsplit]
        dsimp only
        obtain ⟨a1, a2, a3, a4⟩ := ih ((updateQueues s).1).toNat (by omega)
          (updateQueues s).2 (updateQueues s).1 rfl
        obtain ⟨b1, b2, b3, b4⟩ := ih (n - (updateQueues s).1).toNat (by omega)
          (fillSamples tsf (updateQueues s).2 (updateQueues s).1).synth
          (n - (updateQueues s).1) rfl
        exact ⟨b1.trans (a1.trans hq6), b2.trans (a2.trans hq2), b3.trans (a3.trans hq3),
          b4.trans (a4.trans hq5)⟩
      · rw [if_neg hsplit]
        dsimp only
        obtain ⟨-, -, -, c4, c5, c6, c7⟩ := fillOnce_spec tsf (updateQueues s).2 n.toNat
        exact ⟨c4.trans hq6, c5.trans hq2, c6.trans hq3, c7.trans hq5⟩

/-! ## Claim C6: scheduling accuracy — helper lemmas -/

/-- A `min`-fold is bounded by every element. -/
theorem foldl_min_le_mem (l : List Int) (acc x : Int) (hx : x ∈ l) :
    l.foldl min acc ≤ x := by
  induction l generalizing acc with
  | nil => cases hx
  | cons d rest ih =>
    rcases List.mem_cons.mp hx with rfl | hmem
    · calc (x :: rest).foldl min acc = rest.foldl min (min acc x) := rfl
        _ ≤ min acc x := foldl_min_le_acc _ _
        _ ≤ x := min_le_right _ _
    · exact ih (min acc d) hmem

/-- Entries of a different identity are untouched by a state write, in both
directions. -/
theorem setSoundState_mem_iff_of_ne (l : List (Nat × WaitingSound)) (id id' : Nat)
    (st : SoundState) (hne : id ≠ id') (w' : WaitingSound) :
    ((id, w') ∈ setSoundState l id' st) ↔ (id, w') ∈ l := by
  induction l with
  | nil => simp [setSoundState]
  | cons e rest ih =>
    rw [setSoundState_cons]
    by_cases hid : e.1 = id'
    · simp only [hid, if_true, List.mem_cons, ih]
      constructor
      · rintro (heq | hmem)
        · exact absurd (congrArg Prod.fst heq) (by simpa [hid] using hne)
        · exact Or.inr hmem
      · rintro (rfl | hmem)
        · exact absurd hid hne
        · exact Or.inr hmem
    · simp only [hid, if_false, List.mem_cons, ih]

/-- A state write with a non-`Waiting` value cannot create a `Waiting` entry
of a given identity. -/
theorem setSoundState_no_waiting_id (l : List (Nat × WaitingSound)) (id id' : Nat)
    (st : SoundState) (hst : st ≠ SoundState.Waiting)
    (h : ∀ w', (id, w') ∈ l → w'.state ≠ SoundState.Waiting) :
    ∀ w', (id, w') ∈ setSoundState l id' st → w'.state ≠ SoundState.Waiting := by
  induction l with
  | nil => intro w' hw'; simp [setSoundState] at hw'
  | cons e rest ih =>
    intro w' hw'
    rw [setSoundState_cons] at hw'
    rcases List.mem_cons.mp hw' with heq | hmem
    · by_cases hid : e.1 = id'
      · rw [if_pos hid] at heq
        have : w' = { e.2 with state := st } := congrArg Prod.snd heq
        rw [this]
        exact hst
      · rw [if_neg hid] at heq
        exact h w' (heq ▸ List.mem_cons_self _ _)
    · exact ih (fun w'' hw'' => h w'' (List.mem_cons_of_mem _ hw'')) w' hmem

/-- A `Waiting` entry surviving a non-`Waiting` state write was already
present before the write. -/
theorem setSoundState_waiting_mem_src (l : List (Nat × WaitingSound)) (id id' : Nat)
    (st : SoundState) (hst : st ≠ SoundState.Waiting) (w' : WaitingSound)
    (hmem : (id, w') ∈ setSoundState l id' st) (hw : w'.state = SoundState.Waiting) :
    (id, w') ∈ l := by
  induction l with
  | nil => simp [setSoundState] at hmem
  | cons e rest ih =>
    rw [setSoundState_cons] at hmem
    rcases List.mem_cons.mp hmem with heq | hmem'
    · by_cases hid : e.1 = id'
      · rw [if_pos hid] at heq
        have : w' = { e.2 with state := st } := congrArg Prod.snd heq
        rw [this] at hw
        exact absurd hw hst
      · rw [if_neg hid] at heq
        exact heq ▸ List.mem_cons_self _ _
    · exact List.mem_cons_of_mem _ (ih hmem')

/-- The `Waiting` entries of a given identity keep their start samples
across a non-`Waiting` state write. -/
theorem setSoundState_waiting_ssn (l : List (Nat × WaitingSound)) (id id' : Nat)
    (st : SoundState) (hst : st ≠ SoundState.Waiting) (q : Int → Prop)
    (h : ∀ w', (id, w') ∈ l → w'.state = SoundState.Waiting → q w'.startSampleNo) :
    ∀ w', (id, w') ∈ setSoundState l id' st → w'.state = SoundState.Waiting →
      q w'.startSampleNo := by
  intro w' hmem hw
  exact h w' (setSoundState_waiting_mem_src l id id' st hst w' hmem hw) hw

/-- An entry yields its tuple in the state-erased projection. -/
theorem eraseStates_mem (l : List (Nat × WaitingSound)) (e : Nat × WaitingSound)
    (he : e ∈ l) : (e.1, e.2.instructions, e.2.startSampleNo) ∈ eraseStates l :=
  List.mem_map_of_mem _ he

/-- A tuple of the state-erased projection comes from some entry. -/
theorem mem_of_eraseStates (l : List (Nat × WaitingSound))
    (x : Nat × List SoundInstruction × Int) (hx : x ∈ eraseStates l) :
    ∃ w'', (x.1, w'') ∈ l ∧ w''.instructions = x.2.1 ∧ w''.startSampleNo = x.2.2 := by
  obtain ⟨e, he, rfl⟩ := List.mem_map.mp hx
  exact ⟨e.2, he, rfl, rfl⟩

/-- Replacing a slot by one not bound to `id` keeps the pool free of `id`. -/
theorem set_slots_keeps (slots : List PlayingSound) (idx : Nat) (slot' : PlayingSound)
    (id : Nat) (hslots : ∀ slot ∈ slots, slot.sound ≠ some id)
    (h' : slot'.sound ≠ some id) :
    ∀ slot ∈ slots.set idx slot', slot.sound ≠ some id := by
  intro sl hsl
  rcases List.mem_or_eq_of_mem_set hsl with hmem | rfl
  · exact hslots _ hmem
  · exact h'

/-- One scheduler iteration that binds a sound other than `id` does not
touch `id`'s node and does not bind `id` to any slot. -/
theorem schedStep_keeps (s : WSynthesizer) (pid : Nat) (p : WaitingSound) (id : Nat)
    (w : WaitingSound) (hpid : pid ≠ id)
    (hmem : (id, w) ∈ s.waiting)
    (huniq : ∀ w', (id, w') ∈ s.waiting → w' = w)
    (hslots : ∀ slot ∈ s.playingSounds, slot.sound ≠ some id) :
    ((id, w) ∈ (schedStep s pid p).waiting) ∧
    (∀ w', (id, w') ∈ (schedStep s pid p).waiting → w' = w) ∧
    (∀ slot ∈ (schedStep s pid p).playingSounds, slot.sound ≠ some id) := by
  have hne : id ≠ pid := fun h => hpid h.symm
  unfold schedStep bindSound
  cases chooseSlot s.playingSounds with
  | none =>
    refine ⟨(setSoundState_mem_iff_of_ne _ _ _ _ hne _).mpr hmem, ?_, hslots⟩
    intro w' hw'
    exact huniq w' ((setSoundState_mem_iff_of_ne _ _ _ _ hne _).mp hw')
  | some idx =>
    simp only
    cases hget : s.playingSounds.get? idx with
    | none =>
      refine ⟨(setSoundState_mem_iff_of_ne _ _ _ _ hne _).mpr hmem, ?_, hslots⟩
      intro w' hw'
      exact huniq w' ((setSoundState_mem_iff_of_ne _ _ _ _ hne _).mp hw')
    | some slot =>
      have hslotmem : slot ∈ s.playingSounds := List.get?_mem hget
      cases hsnd : slot.sound with
      | none =>
        simp only [hsnd]
        refine ⟨(setSoundState_mem_iff_of_ne _ _ _ _ hne _).mpr hmem, ?_, ?_⟩
        · intro w' hw'
          exact huniq w' ((setSoundState_mem_iff_of_ne _ _ _ _ hne _).mp hw')
        · exact set_slots_keeps _ _ _ _ hslots
            (fun h => hpid (Option.some.inj h))
      | some evicted =>
        have hev : id ≠ evicted := by
          have := hslots slot hslotmem
          rw [hsnd] at this
          exact fun h => this (by rw [h])
        simp only [hsnd]
        refine ⟨?_, ?_, ?_⟩
        · exact (setSoundState_mem_iff_of_ne _ _ _ _ hne _).mpr
            ((setSoundState_mem_iff_of_ne _ _ _ _ hev _).mpr hmem)
        · intro w' hw'
          exact huniq w' ((setSoundState_mem_iff_of_ne _ _ _ _ hev _).mp
            ((setSoundState_mem_iff_of_ne _ _ _ _ hne _).mp hw'))
        · exact set_slots_keeps _ _ _ _ hslots
            (fun h => hpid (Option.some.inj h))

/-- `updateQueues` does not start, touch or rebind a `Waiting` sound whose
start time is still in the future. -/
theorem updateQueues_keeps_future (s : WSynthesizer) (id : Nat) (w : WaitingSound)
    (hmem : (id, w) ∈ s.waiting) (hw : w.state = SoundState.Waiting)
    (hdist : 0 < w.startSampleNo - s.currSample)
    (huniq : ∀ w', (id, w') ∈ s.waiting → w' = w)
    (hslots : ∀ slot ∈ s.playingSounds, slot.sound ≠ some id) :
    ((id, w) ∈ (updateQueues s).2.waiting) ∧
    (∀ w', (id, w') ∈ (updateQueues s).2.waiting → w' = w) ∧
    (∀ slot ∈ (updateQueues s).2.playingSounds, slot.sound ≠ some id) := by
  generalize hn : countWaiting s.waiting = n
  induction n using Nat.strong_induction_on generalizing s with
  | _ n ih =>
    rw [updateQueues_eq]
    cases hscan : scanW s.currSample s.waiting maxTime with
    | mk m found =>
      cases found with
      | none => exact ⟨hmem, huniq, hslots⟩
      | some pr =>
        obtain ⟨pid, p⟩ := pr
        obtain ⟨hpmem, hpw, hpdue⟩ := scanW_some_mem _ _ _ _ _ _ hscan
        have hpid : pid ≠ id := by
          rintro rfl
          have := huniq p hpmem
          subst this
          omega
        have hlt := countWaiting_schedStep_lt s pid p hpmem hpw
        rw [hn] at hlt
        obtain ⟨k1, k2, k3⟩ := schedStep_keeps s pid p id w hpid hmem huniq hslots
        have hcs : (schedStep s pid p).currSample = s.currSample :=
          (schedStep_preserves s pid p).1
        exact ih _ hlt (schedStep s pid p) k1 (by rw [hcs]; exact hdist) k2 k3 rfl

/-- `updateQueues` cannot create a `Waiting` entry of a given identity. -/
theorem updateQueues_no_waiting_id (s : WSynthesizer) (id : Nat)
    (h : ∀ w', (id, w') ∈ s.waiting → w'.state ≠ SoundState.Waiting) :
    ∀ w', (id, w') ∈ (updateQueues s).2.waiting → w'.state ≠ SoundState.Waiting := by
  generalize hn : countWaiting s.waiting = n
  induction n using Nat.strong_induction_on generalizing s with
  | _ n ih =>
    rw [updateQueues_eq]
    cases hscan : scanW s.currSample s.waiting maxTime with
    | mk m found =>
      cases found with
      | none => exact h
      | some pr =>
        obtain ⟨pid, p⟩ := pr
        obtain ⟨hpmem, hpw, -⟩ := scanW_some_mem _ _ _ _ _ _ hscan
        have hlt := countWaiting_schedStep_lt s pid p hpmem hpw
        rw [hn] at hlt
        have h' : ∀ w', (id, w') ∈ (schedStep s pid p).waiting →
            w'.state ≠ SoundState.Waiting := by
          unfold schedStep bindSound
          cases chooseSlot s.playingSounds with
          | none => exact setSoundState_no_waiting_id _ _ _ _ (by simp) h
          | some idx =>
            simp only
            cases s.playingSounds.get? idx with
            | none => exact setSoundState_no_waiting_id _ _ _ _ (by simp) h
            | some slot =>
              cases hsnd : slot.sound with
              | none =>
                simp only [hsnd]
                exact setSoundState_no_waiting_id _ _ _ _ (by simp) h
              | some evicted =>
                simp only [hsnd]
                exact setSoundState_no_waiting_id _ _ _ _ (by simp)
                  (setSoundState_no_waiting_id _ _ _ _ (by simp) h)
        exact ih _ hlt (schedStep s pid p) h' rfl

/-- Through `updateQueues`, a slot bound to `id` carries the scheduled start
sample `wssn`, provided every `Waiting` node of identity `id` is scheduled
at `wssn` and not yet overdue, and every already-bound slot carries it. -/
theorem updateQueues_stamp (s : WSynthesizer) (id : Nat) (wssn : Int)
    (hbound : ∀ w', (id, w') ∈ s.waiting → w'.state = SoundState.Waiting →
      s.currSample ≤ w'.startSampleNo)
    (hwait : ∀ w', (id, w') ∈ s.waiting → w'.state = SoundState.Waiting →
      w'.startSampleNo = wssn)
    (hslots : ∀ slot ∈ s.playingSounds, slot.sound = some id →
      slot.startSampleNo = wssn) :
    (∀ slot ∈ (updateQueues s).2.playingSounds, slot.sound = some id →
      slot.startSampleNo = wssn) ∧
    (∀ w', (id, w') ∈ (updateQueues s).2.waiting → w'.state = SoundState.Waiting →
      w'.startSampleNo = wssn) := by
  generalize hn : countWaiting s.waiting = n
  induction n using Nat.strong_induction_on generalizing s with
  | _ n ih =>
    rw [updateQueues_eq]
    cases hscan : scanW s.currSample s.waiting maxTime with
    | mk m found =>
      cases found with
      | none => exact ⟨hslots, hwait⟩
      | some pr =>
        obtain ⟨pid, p⟩ := pr
        obtain ⟨hpmem, hpw, hpdue⟩ := scanW_some_mem _ _ _ _ _ _ hscan
        have hlt := countWaiting_schedStep_lt s pid p hpmem hpw
        rw [hn] at hlt
        have hcs : (schedStep s pid p).currSample = s.currSample :=
          (schedStep_preserves s pid p).1
        have hb' : ∀ w', (id, w') ∈ (schedStep s pid p).waiting →
            w'.state = SoundState.Waiting →
            (schedStep s pid p).currSample ≤ w'.startSampleNo := by
          rw [hcs]
          unfold schedStep bindSound
          cases chooseSlot s.playingSounds with
          | none =>
            exact setSoundState_waiting_ssn _ id pid SoundState.Playing (by simp) (fun ssn => s.currSample ≤ ssn) hbound
          | some idx =>
            simp only
            cases s.playingSounds.get? idx with
            | none =>
              exact setSoundState_waiting_ssn _ id pid SoundState.Playing (by simp) (fun ssn => s.currSample ≤ ssn) hbound
            | some slot =>
              cases hsnd : slot.sound with
              | none =>
                simp only [hsnd]
                exact setSoundState_waiting_ssn _ id pid SoundState.Playing (by simp) (fun ssn => s.currSample ≤ ssn) hbound
              | some evicted =>
                simp only [hsnd]
                exact setSoundState_waiting_ssn _ id pid SoundState.Playing (by simp)
                  (fun ssn => s.currSample ≤ ssn)
                  (setSoundState_waiting_ssn _ id evicted SoundState.Done (by simp)
                    (fun ssn => s.currSample ≤ ssn) hbound)
        have hw' : ∀ w', (id, w') ∈ (schedStep s pid p).waiting →
            w'.state = SoundState.Waiting → w'.startSampleNo = wssn := by
          unfold schedStep bindSound
          cases chooseSlot s.playingSounds with
          | none =>
            exact setSoundState_waiting_ssn _ id pid SoundState.Playing (by simp) (fun ssn => ssn = wssn) hwait
          | some idx =>
            simp only
            cases s.playingSounds.get? idx with
            | none =>
              exact setSoundState_waiting_ssn _ id pid SoundState.Playing (by simp) (fun ssn => ssn = wssn) hwait
            | some slot =>
              cases hsnd : slot.sound with
              | none =>
                simp only [hsnd]
                exact setSoundState_waiting_ssn _ id pid SoundState.Playing (by simp) (fun ssn => ssn = wssn) hwait
              | some evicted =>
                simp only [hsnd]
                exact setSoundState_waiting_ssn _ id pid SoundState.Playing (by simp)
                  (fun ssn => ssn = wssn)
                  (setSoundState_waiting_ssn _ id evicted SoundState.Done (by simp)
                    (fun ssn => ssn = wssn) hwait)
        have hs' : ∀ slot ∈ (schedStep s pid p).playingSounds, slot.sound = some id →
            slot.startSampleNo = wssn := by
          have hstamp : pid = id → s.currSample = wssn := by
            rintro rfl
            have h1 := hwait p hpmem hpw
            have h2 := hbound p hpmem hpw
            omega
          unfold schedStep bindSound
          cases chooseSlot s.playingSounds with
          | none => exact hslots
          | some idx =>
            simp only
            cases s.playingSounds.get? idx with
            | none => exact hslots
            | some slot =>
              cases hsnd : slot.sound with
              | none =>
                simp only [hsnd]
                intro sl hsl hid
                rcases List.mem_or_eq_of_mem_set hsl with hmemsl | rfl
                · exact hslots _ hmemsl hid
                · have : pid = id := Option.some.inj hid
                  exact (hstamp this).symm ▸ rfl
              | some evicted =>
                simp only [hsnd]
                intro sl hsl hid
                rcases List.mem_or_eq_of_mem_set hsl with hmemsl | rfl
                · exact hslots _ hmemsl hid
                · have : pid = id := Option.some.inj hid
                  exact (hstamp this).symm ▸ rfl
        exact ih _ hlt (schedStep s pid p) hb' hw' hs' rfl

/-- Processing a slot either frees it or keeps its binding; its bind-time
start sample is never rewritten. -/
theorem slotFill_frame (spMS : Nat) (tsf : Nat → Nat) (snd : PlayingSound) (n rng : Nat) :
    ((slotFill spMS tsf snd n rng).slot.sound = none ∨
     (slotFill spMS tsf snd n rng).slot.sound = snd.sound) ∧
    (slotFill spMS tsf snd n rng).slot.startSampleNo = snd.startSampleNo := by
  by_cases h : (slotLoop spMS tsf snd n true (initLocals snd) rng).st.currInstr ≥ snd.instrEnd
  · simp [slotFill, if_pos h]
  · simp [slotFill, if_neg h]

/-- The destination buffer and the pool views of `fillOnce`, definitionally. -/
theorem fillOnce_waiting_def (tsf : Nat → Nat) (s : WSynthesizer) (n : Nat) :
    (fillOnce tsf s n).2.1.waiting =
      (fillSlots ((s.sampleRate <<< 8) / 1000) tsf s.playingSounds s.waiting
        (List.replicate n 0) s.rng).waiting := rfl

/-- The slot-pool view of `fillOnce`, definitionally. -/
theorem fillOnce_slots_def (tsf : Nat → Nat) (s : WSynthesizer) (n : Nat) :
    (fillOnce tsf s n).2.1.playingSounds =
      (fillSlots ((s.sampleRate <<< 8) / 1000) tsf s.playingSounds s.waiting
        (List.replicate n 0) s.rng).slots := rfl

/-- The sample counter of `fillOnce`, definitionally. -/
theorem fillOnce_currSample_def (tsf : Nat → Nat) (s : WSynthesizer) (n : Nat) :
    (fillOnce tsf s n).2.1.currSample = s.currSample + n := rfl

/-- A `Waiting` entry of identity `id` surviving the slot pass was already
present before it (the pass only writes `Done`). -/
theorem fillSlots_waiting_mem_src (spMS : Nat) (tsf : Nat → Nat) (id : Nat) :
    ∀ (slots : List PlayingSound) (w : List (Nat × WaitingSound)) (buf : List Int)
      (rng : Nat) (w' : WaitingSound),
    (id, w') ∈ (fillSlots spMS tsf slots w buf rng).waiting →
    w'.state = SoundState.Waiting → (id, w') ∈ w := by
  intro slots
  induction slots with
  | nil => intro w buf rng w' hmem _; exact hmem
  | cons slot others ih =>
    intro w buf rng w' hmem hw
    simp only [fillSlots] at hmem
    cases hsnd : slot.sound with
    | none =>
      rw [hsnd] at hmem
      exact ih w buf rng w' hmem hw
    | some sid =>
      rw [hsnd] at hmem
      simp only at hmem
      have := ih _ _ _ w' hmem hw
      by_cases hfin : (slotFill spMS tsf slot buf.length rng).finished
      · rw [if_pos hfin] at this
        exact setSoundState_waiting_mem_src _ _ _ _ (by simp) _ this hw
      · rwa [if_neg hfin] at this

/-- The slot pass does not bind `id` to any slot and does not touch `id`'s
node, provided `id` was unbound before. -/
theorem fillSlots_keeps (spMS : Nat) (tsf : Nat → Nat) (id : Nat) (w0 : WaitingSound) :
    ∀ (slots : List PlayingSound) (w : List (Nat × WaitingSound)) (buf : List Int)
      (rng : Nat),
    ((id, w0) ∈ w) →
    (∀ w', (id, w') ∈ w → w' = w0) →
    (∀ slot ∈ slots, slot.sound ≠ some id) →
    ((id, w0) ∈ (fillSlots spMS tsf slots w buf rng).waiting ∧
     (∀ w', (id, w') ∈ (fillSlots spMS tsf slots w buf rng).waiting → w' = w0) ∧
     (∀ slot ∈ (fillSlots spMS tsf slots w buf rng).slots, slot.sound ≠ some id)) := by
  intro slots
  induction slots with
  | nil =>
    intro w buf rng h1 h2 _
    exact ⟨h1, h2, fun slot hsl => absurd hsl (List.not_mem_nil _)⟩
  | cons slot others ih =>
    intro w buf rng h1 h2 h3
    simp only [fillSlots]
    cases hsnd : slot.sound with
    | none =>
      simp only [hsnd]
      obtain ⟨r1, r2, r3⟩ := ih w buf rng h1 h2
        (fun sl hsl => h3 sl (List.mem_cons_of_mem _ hsl))
      refine ⟨r1, r2, ?_⟩
      intro sl hsl
      rcases List.mem_cons.mp hsl with rfl | hmem
      · rw [hsnd]; exact Option.noConfusion
      · exact r3 sl hmem
    | some sid =>
      have hsid : sid ≠ id := by
        have := h3 slot (List.mem_cons_self _ _)
        rw [hsnd] at this
        exact fun h => this (by rw [h])
      have hne : id ≠ sid := fun h => hsid h.symm
      simp only [hsnd]
      have hw1 : (id, w0) ∈ (if (slotFill spMS tsf slot buf.length rng).finished then
          setSoundState w sid SoundState.Done else w) := by
        split
        · exact (setSoundState_mem_iff_of_ne _ _ _ _ hne _).mpr h1
        · exact h1
      have hw2 : ∀ w', (id, w') ∈ (if (slotFill spMS tsf slot buf.length rng).finished then
          setSoundState w sid SoundState.Done else w) → w' = w0 := by
        split
        · intro w' hw'
          exact h2 w' ((setSoundState_mem_iff_of_ne _ _ _ _ hne _).mp hw')
        · exact h2
      obtain ⟨r1, r2, r3⟩ := ih _ _ _ hw1 hw2
        (fun sl hsl => h3 sl (List.mem_cons_of_mem _ hsl))
      refine ⟨r1, r2, ?_⟩
      intro sl hsl
      rcases List.mem_cons.mp hsl with rfl | hmem
      · rcases (slotFill_frame spMS tsf slot buf.length rng).1 with h | h
        · rw [h]; exact Option.noConfusion
        · rw [h, hsnd]; exact fun hx => hsid (Option.some.inj hx)
      · exact r3 sl hmem

/-- Slots bound to `id` keep the stamp `wssn` through the slot pass. -/
theorem fillSlots_stamp (spMS : Nat) (tsf : Nat → Nat) (id : Nat) (wssn : Int) :
    ∀ (slots : List PlayingSound) (w : List (Nat × WaitingSound)) (buf : List Int)
      (rng : Nat),
    (∀ slot ∈ slots, slot.sound = some id → slot.startSampleNo = wssn) →
    ∀ slot ∈ (fillSlots spMS tsf slots w buf rng).slots, slot.sound = some id →
      slot.startSampleNo = wssn := by
  intro slots
  induction slots with
  | nil => intro w buf rng _ slot hsl; exact absurd hsl (List.not_mem_nil _)
  | cons slot others ih =>
    intro w buf rng h sl hsl
    simp only [fillSlots] at hsl
    cases hsnd : slot.sound with
    | none =>
      rw [hsnd] at hsl
      rcases List.mem_cons.mp hsl with rfl | hmem
      · exact h sl (List.mem_cons_self _ _)
      · exact ih w buf rng (fun s' hs' => h s' (List.mem_cons_of_mem _ hs')) sl hmem
    | some sid =>
      rw [hsnd] at hsl
      simp only at hsl
      rcases List.mem_cons.mp hsl with rfl | hmem
      · intro hid
        obtain ⟨hor, hssn⟩ := slotFill_frame spMS tsf slot buf.length rng
        rcases hor with hnone | hsame
        · rw [hnone] at hid; exact absurd hid Option.noConfusion
        · rw [hsame, hsnd] at hid
          have : slot.sound = some id := by rw [hsnd, hid]
          rw [hssn]
          exact h slot (List.mem_cons_self _ _) this
      · exact ih _ _ _ (fun s' hs' => h s' (List.mem_cons_of_mem _ hs')) sl hmem

/-- `fillSamples` cannot create a `Waiting` entry of a given identity. -/
theorem fillSamples_no_waiting_id (tsf : Nat → Nat) (id : Nat) (s : WSynthesizer)
    (n : Int)
    (h : ∀ w', (id, w') ∈ s.waiting → w'.state ≠ SoundState.Waiting) :
    ∀ w', (id, w') ∈ (fillSamples tsf s n).synth.waiting →
      w'.state ≠ SoundState.Waiting := by
  generalize hm : n.toNat = m
  induction m using Nat.strong_induction_on generalizing s n with
  | _ m ih =>
    subst hm
    rw [fillSamples_eq]
    by_cases hk : n ≤ 0
    · rw [if_pos hk]; exact h
    · rw [if_neg hk]
      obtain ⟨ht1, -⟩ := updateQueues_fst_bounds s
      have h1 := updateQueues_no_waiting_id s id h
      by_cases hsplit : (updateQueues s).1 < n
      · rw [if_pos hsplit]
        dsimp only
        have h2 := ih ((updateQueues s).1).toNat (by omega) (updateQueues s).2
          (updateQueues s).1 h1 rfl
        exact ih (n - (updateQueues s).1).toNat (by omega) _ (n - (updateQueues s).1) h2 rfl
      · rw [if_neg hsplit]
        dsimp only
        rw [fillOnce_waiting_def]
        intro w' hw' hst
        exact absurd hst (h1 w' (fillSlots_waiting_mem_src _ tsf id _ _ _ _ w' hw' hst))

/-- A `Waiting` sound whose start time lies at or beyond the requested fill
window keeps its node untouched and is never bound to a slot. -/
theorem fillSamples_keeps_future (tsf : Nat → Nat) (id : Nat) (w : WaitingSound)
    (hw : w.state = SoundState.Waiting) (s : WSynthesizer) (n : Int)
    (hmem : (id, w) ∈ s.waiting)
    (huniq : ∀ w', (id, w') ∈ s.waiting → w' = w)
    (hslots : ∀ slot ∈ s.playingSounds, slot.sound ≠ some id)
    (hn : n ≤ w.startSampleNo - s.currSample) :
    ((id, w) ∈ (fillSamples tsf s n).synth.waiting ∧
     (∀ w', (id, w') ∈ (fillSamples tsf s n).synth.waiting → w' = w) ∧
     (∀ slot ∈ (fillSamples tsf s n).synth.playingSounds, slot.sound ≠ some id)) := by
  generalize hm : n.toNat = m
  induction m using Nat.strong_induction_on generalizing s n with
  | _ m ih =>
    subst hm
    rw [fillSamples_eq]
    by_cases hk : n ≤ 0
    · rw [if_pos hk]; exact ⟨hmem, huniq, hslots⟩
    · rw [if_neg hk]
      have hdist : 0 < w.startSampleNo - s.currSample := by omega
      obtain ⟨ht1, -⟩ := updateQueues_fst_bounds s
      obtain ⟨hq1, -, -, -, -, -⟩ := updateQueues_preserves s
      obtain ⟨k1, k2, k3⟩ := updateQueues_keeps_future s id w hmem hw hdist huniq hslots
      obtain ⟨-, -, hfold⟩ := updateQueues_post s
      have htle : (updateQueues s).1 ≤ w.startSampleNo - s.currSample := by
        rw [hfold]
        apply foldl_min_le_mem
        exact List.mem_filterMap.mpr ⟨(id, w), k1, by simp [hw]⟩
      by_cases hsplit : (updateQueues s).1 < n
      · rw [if_pos hsplit]
        dsimp only
        obtain ⟨a1, a2, a3⟩ := ih ((updateQueues s).1).toNat (by omega) (updateQueues s).2
          (updateQueues s).1 k1 k2 k3 (by rw [hq1]; exact htle) rfl
        have hcs : (fillSamples tsf (updateQueues s).2 (updateQueues s).1).synth.currSample =
            s.currSample + (updateQueues s).1 := by
          have hb := (fillSamples_basic tsf (updateQueues s).2 (updateQueues s).1
            (by omega)).2.2
          rw [hb, hq1]
        exact ih (n - (updateQueues s).1).toNat (by omega) _ (n - (updateQueues s).1)
          a1 a2 a3 (by rw [hcs]; omega) rfl
      · rw [if_neg hsplit]
        dsimp only
        rw [fillOnce_waiting_def, fillOnce_slots_def]
        exact fillSlots_keeps _ tsf id w _ _ _ _ k1 k2 k3

/-- Through `fillSamples`, a slot bound to `id` carries `id`'s scheduled
start sample, and `id`'s `Waiting` nodes stay scheduled at it, not overdue. -/
theorem fillSamples_stamp (tsf : Nat → Nat) (id : Nat) (wssn : Int) (s : WSynthesizer)
    (n : Int)
    (hbound : ∀ w', (id, w') ∈ s.waiting → w'.state = SoundState.Waiting →
      s.currSample ≤ w'.startSampleNo)
    (hwait : ∀ w', (id, w') ∈ s.waiting → w'.state = SoundState.Waiting →
      w'.startSampleNo = wssn)
    (hslots : ∀ slot ∈ s.playingSounds, slot.sound = some id →
      slot.startSampleNo = wssn) :
    ((∀ slot ∈ (fillSamples tsf s n).synth.playingSounds, slot.sound = some id →
        slot.startSampleNo = wssn) ∧
     (∀ w', (id, w') ∈ (fillSamples tsf s n).synth.waiting →
        w'.state = SoundState.Waiting → w'.startSampleNo = wssn) ∧
     (∀ w', (id, w') ∈ (fillSamples tsf s n).synth.waiting →
        w'.state = SoundState.Waiting →
        (fillSamples tsf s n).synth.currSample ≤ w'.startSampleNo)) := by
  generalize hm : n.toNat = m
  induction m using Nat.strong_induction_on generalizing s n with
  | _ m ih =>
    subst hm
    rw [fillSamples_eq]
    by_cases hk : n ≤ 0
    · rw [if_pos hk]; exact ⟨hslots, hwait, hbound⟩
    · rw [if_neg hk]
      obtain ⟨ht1, -⟩ := updateQueues_fst_bounds s
      obtain ⟨hq1, -, -, -, -, -⟩ := updateQueues_preserves s
      obtain ⟨st1, st2⟩ := updateQueues_stamp s id wssn hbound hwait hslots
      obtain ⟨-, hnodue, hfold⟩ := updateQueues_post s
      have hb1 : ∀ w', (id, w') ∈ (updateQueues s).2.waiting →
          w'.state = SoundState.Waiting →
          (updateQueues s).2.currSample ≤ w'.startSampleNo := by
        intro w' hw' hst
        have hpos := hnodue (id, w') hw' hst
        have hproj : ((id, w') : Nat × WaitingSound).2.startSampleNo =
          w'.startSampleNo := rfl
        rw [hq1]
        omega
      by_cases hsplit : (updateQueues s).1 < n
      · rw [if_pos hsplit]
        dsimp only
        obtain ⟨a1, a2, a3⟩ := ih ((updateQueues s).1).toNat (by omega) (updateQueues s).2
          (updateQueues s).1 hb1 st2 st1 rfl
        exact ih (n - (updateQueues s).1).toNat (by omega) _ (n - (updateQueues s).1)
          a3 a2 a1 rfl
      · rw [if_neg hsplit]
        dsimp only
        refine ⟨?_, ?_, ?_⟩
        · rw [fillOnce_slots_def]
          exact fillSlots_stamp _ tsf id wssn _ _ _ _ st1
        · rw [fillOnce_waiting_def]
          intro w' hw' hst
          exact st2 w' (fillSlots_waiting_mem_src _ tsf id _ _ _ _ w' hw' hst) hst
        · rw [fillOnce_waiting_def, fillOnce_currSample_def]
          intro w' hw' hst
          have hsrc := fillSlots_waiting_mem_src _ tsf id _ _ _ _ w' hw' hst
          have hge : (updateQueues s).1 ≤ w'.startSampleNo - s.currSample := by
            rw [hfold]
            apply foldl_min_le_mem
            exact List.mem_filterMap.mpr ⟨(id, w'), hsrc, by simp [hst]⟩
          rw [hq1]
          omega

/-- A `Waiting` sound with a non-negative distance to its start time is no
longer `Waiting` after a fill window that crosses its start time: a slot is
always made available at that instant (by vacancy or eviction). -/
theorem fillSamples_starts_when_due (tsf : Nat → Nat) (id : Nat) (w : WaitingSound)
    (hw : w.state = SoundState.Waiting) : ∀ (m : Nat) (s : WSynthesizer) (n : Int),
    (id, w) ∈ s.waiting →
    (∀ w', (id, w') ∈ s.waiting → w' = w) →
    (∀ slot ∈ s.playingSounds, slot.sound ≠ some id) →
    0 ≤ w.startSampleNo - s.currSample →
    w.startSampleNo - s.currSample < n →
    n.toNat = m →
    ∀ w', (id, w') ∈ (fillSamples tsf s n).synth.waiting →
      w'.state ≠ SoundState.Waiting := by
  intro m
  induction m using Nat.strong_induction_on with
  | _ m ih =>
    intro s n hmem huniq hslots hdist0 hn hm
    subst hm
    rw [fillSamples_eq]
    have hk : ¬(n ≤ 0) := by omega
    rw [if_neg hk]
    obtain ⟨ht1, -⟩ := updateQueues_fst_bounds s
    obtain ⟨hq1, -, -, -, -, herase⟩ := updateQueues_preserves s
    by_cases hzero : w.startSampleNo - s.currSample = 0
    · have h1 : ∀ w', (id, w') ∈ (updateQueues s).2.waiting →
          w'.state ≠ SoundState.Waiting := by
        intro w' hw' hst
        obtain ⟨-, hnodue, -⟩ := updateQueues_post s
        have hpos := hnodue (id, w') hw' hst
        have hproj : ((id, w') : Nat × WaitingSound).2.startSampleNo =
          w'.startSampleNo := rfl
        have hx := eraseStates_mem _ _ hw'
        rw [herase] at hx
        obtain ⟨w'', hw'', -, hssn⟩ := mem_of_eraseStates _ _ hx
        have heq : w'' = w := huniq w'' hw''
        have hssn' : w.startSampleNo = w'.startSampleNo := by rw [← heq]; exact hssn
        omega
      by_cases hsplit : (updateQueues s).1 < n
      · rw [if_pos hsplit]
        dsimp only
        have h2 := fillSamples_no_waiting_id tsf id (updateQueues s).2
          (updateQueues s).1 h1
        exact fillSamples_no_waiting_id tsf id _ (n - (updateQueues s).1) h2
      · rw [if_neg hsplit]
        dsimp only
        rw [fillOnce_waiting_def]
        intro w' hw' hst
        exact absurd hst (h1 w' (fillSlots_waiting_mem_src _ tsf id _ _ _ _ w' hw' hst))
    · have hdist : 0 < w.startSampleNo - s.currSample := by omega
      obtain ⟨k1, k2, k3⟩ := updateQueues_keeps_future s id w hmem hw hdist huniq hslots
      obtain ⟨-, -, hfold⟩ := updateQueues_post s
      have htle : (updateQueues s).1 ≤ w.startSampleNo - s.currSample := by
        rw [hfold]
        apply foldl_min_le_mem
        exact List.mem_filterMap.mpr ⟨(id, w), k1, by simp [hw]⟩
      have hsplit : (updateQueues s).1 < n := by omega
      rw [if_pos hsplit]
      dsimp only
      obtain ⟨a1, a2, a3⟩ := fillSamples_keeps_future tsf id w hw (updateQueues s).2
        (updateQueues s).1 k1 k2 k3 (by rw [hq1]; exact htle)
      have hcs : (fillSamples tsf (updateQueues s).2 (updateQueues s).1).synth.currSample =
          s.currSample + (updateQueues s).1 := by
        have hb := (fillSamples_basic tsf (updateQueues s).2 (updateQueues s).1
          (by omega)).2.2
        rw [hb, hq1]
      exact ih (n - (updateQueues s).1).toNat (by omega) _ (n - (updateQueues s).1)
        a1 a2 a3 (by rw [hcs]; omega) (by rw [hcs]; omega) rfl

/-- C6: (enqueue stamping) a sound enqueued with delay `D` ms when the
counter is `S` gets `startSampleNo = S + D*sampleRate/1000`; (never early)
while the fill window stays at or before that start sample, the sound stays
`Waiting` with its node untouched and bound to no slot — so it contributes
no term to any generated sample; (on time) a fill window crossing the start
sample always takes the sound out of `Waiting` (a slot can always be made
available then, by vacancy or eviction), and any slot bound to it carries
`slot.startSampleNo = startSampleNo` — it began playing exactly at that
absolute sample index.  The hypotheses state that the sound is a `Waiting`
node of the current state, not yet overdue, with a unique identity (pointer
identity of the C node) and not yet bound to any slot. -/
theorem fillSamples_scheduling_accuracy (tsf : Nat → Nat) (s : WSynthesizer)
    (id : Nat) (w : WaitingSound)
    (hmem : (id, w) ∈ s.waiting) (hw : w.state = SoundState.Waiting)
    (hdist : 0 ≤ w.startSampleNo - s.currSample)
    (huniq : ∀ w', (id, w') ∈ s.waiting → w' = w)
    (hslots : ∀ slot ∈ s.playingSounds, slot.sound ≠ some id) :
    (∀ (when : Int) (buf : List SoundInstruction) (s0 : WSynthesizer),
      (queuePlayInstructions when buf s0).1.waiting.head? =
        some (s0.nextId, ⟨SoundState.Waiting, buf,
          s0.currSample + cdiv (when * (s0.sampleRate : Int)) 1000⟩)) ∧
    (∀ n : Int, n ≤ w.startSampleNo - s.currSample →
      ((id, w) ∈ (fillSamples tsf s n).synth.waiting ∧
       ∀ slot ∈ (fillSamples tsf s n).synth.playingSounds, slot.sound ≠ some id)) ∧
    (∀ n : Int, w.startSampleNo - s.currSample < n →
      ∀ w', (id, w') ∈ (fillSamples tsf s n).synth.waiting →
        w'.state ≠ SoundState.Waiting) ∧
    (∀ n : Int, ∀ slot ∈ (fillSamples tsf s n).synth.playingSounds,
      slot.sound = some id → slot.startSampleNo = w.startSampleNo) := by
  refine ⟨?_, ?_, ?_, ?_⟩
  · intro when buf s0
    show (sweepList ((s0.nextId, ⟨SoundState.Waiting, buf,
      s0.currSample + cdiv (when * (s0.sampleRate : Int)) 1000⟩) :: s0.waiting)).1.head? = _
    rw [sweepList_cons s0.waiting.length _ s0.waiting (le_refl _)]
    rfl
  · intro n hn
    obtain ⟨a1, -, a3⟩ := fillSamples_keeps_future tsf id w hw s n hmem huniq hslots hn
    exact ⟨a1, a3⟩
  · intro n hn
    exact fillSamples_starts_when_due tsf id w hw n.toNat s n hmem huniq hslots hdist hn rfl
  · intro n
    have hbound : ∀ w', (id, w') ∈ s.waiting → w'.state = SoundState.Waiting →
        s.currSample ≤ w'.startSampleNo := by
      intro w' hw' _
      rw [huniq w' hw']
      omega
    have hwait : ∀ w', (id, w') ∈ s.waiting → w'.state = SoundState.Waiting →
        w'.startSampleNo = w.startSampleNo := by
      intro w' hw' _
      rw [huniq w' hw']
    have hstamp : ∀ slot ∈ s.playingSounds, slot.sound = some id →
        slot.startSampleNo = w.startSampleNo :=
      fun slot hsl hid => absurd hid (hslots slot hsl)
    exact (fillSamples_stamp tsf id w.startSampleNo s n hbound hwait hstamp).1

/-- Witness for `fillSamples_scheduling_accuracy` at `schedInput`
(identity 0, start sample 5). -/
theorem fillSamples_scheduling_accuracy_witness :
    (0, schedSound) ∈ schedInput.waiting ∧
    ((∀ (when : Int) (buf : List SoundInstruction) (s0 : WSynthesizer),
      (queuePlayInstructions when buf s0).1.waiting.head? =
        some (s0.nextId, ⟨SoundState.Waiting, buf,
          s0.currSample + cdiv (when * (s0.sampleRate : Int)) 1000⟩)) ∧
    (∀ n : Int, n ≤ schedSound.startSampleNo - schedInput.currSample →
      ((0, schedSound) ∈ (fillSamples (fun _ => 0) schedInput n).synth.waiting ∧
       ∀ slot ∈ (fillSamples (fun _ => 0) schedInput n).synth.playingSounds,
         slot.sound ≠ some 0)) ∧
    (∀ n : Int, schedSound.startSampleNo - schedInput.currSample < n →
      ∀ w', (0, w') ∈ (fillSamples (fun _ => 0) schedInput n).synth.waiting →
        w'.state ≠ SoundState.Waiting) ∧
    (∀ n : Int, ∀ slot ∈ (fillSamples (fun _ => 0) schedInput n).synth.playingSounds,
      slot.sound = some 0 → slot.startSampleNo = schedSound.startSampleNo)) :=
  ⟨by decide, fillSamples_scheduling_accuracy (fun _ => 0) schedInput 0 schedSound
    (by decide) (by decide) (by decide)
    (fun w' hw' => congrArg Prod.snd (List.mem_singleton.mp hw'))
    (by decide)⟩

/-! ## Claim C10: non-positive requests -/

/-- A non-positive request returns `⟨[], 1, s⟩` (helper form). -/
theorem fillSamples_of_nonpos (tsf : Nat → Nat) (s : WSynthesizer) (n : Int) (h : n ≤ 0) :
    fillSamples tsf s n = ⟨[], 1, s⟩ := by
  unfold fillSamples
  rw [Int.toNat_of_nonpos h]
  rfl

/-- C10: a request of `numsamples ≤ 0` returns `1`, writes nothing and
leaves the synthesizer state (waiting list, slots, sample counter, noise
state) completely unchanged. -/
theorem fillSamples_nonpos (tsf : Nat → Nat) (s : WSynthesizer) (n : Int) (h : n ≤ 0) :
    fillSamples tsf s n = ⟨[], 1, s⟩ :=
  fillSamples_of_nonpos tsf s n h

/-- Witness for `fillSamples_nonpos` at a concrete state and `n = -1`. -/
theorem fillSamples_nonpos_witness :
    (-1 : Int) ≤ 0 ∧ fillSamples (fun _ => 0) sentinelInput (-1) = ⟨[], 1, sentinelInput⟩ :=
  ⟨by decide, fillSamples_nonpos (fun _ => 0) sentinelInput (-1) (by decide)⟩

/-! ## Claim C2: the splitting invariant

The groundwork below establishes, slot by slot and then for the whole mixer,
when filling a window in one call agrees with filling it in consecutive
calls.  The counterexample shows the unconditional claim is false: a
boundary landing exactly on an instruction's end replays one sample, because
the writeback saves `samplesLeftInCurr = 1` for an exhausted instruction. -/

/-- C2 counterexample: splitting a 2-sample window at the exact end of the
first instruction replays one sample of it — the first call saves
`samplesLeftInCurr = 1` for the already-finished instruction (the `0 → 1`
writeback adjustment), so the second call re-emits it instead of advancing —
and the split run emits `[0, 0]` where the unsplit run emits `[0, -2046]`. -/
theorem fillSamples_split_boundary_counterexample :
    (fillSamples (fun _ => 0) splitInput 2).out = [0, -2046] ∧
    (runCalls (fun _ => 0) splitInput [1, 1]).1 = [0, 0] ∧
    (fillSamples (fun _ => 0) splitInput 2).out ≠
      (runCalls (fun _ => 0) splitInput [1, 1]).1 := by
  decide

/-- Every generator except noise ignores and preserves the xorshift state. -/
theorem getWaveFn_nonNoise (wave position rng : Nat) (h : wave ≠ SW_NOISE) :
    getWaveFn wave position rng = ((getWaveFn wave position 0).1, rng) := by
  unfold getWaveFn
  split_ifs with h1 h2 h3 h4 <;> rfl

/-- Reading an instruction of a noise-free buffer (or the all-zero default
past its end) never yields the noise selector. -/
theorem getD_wave_nonNoise (l : List SoundInstruction) (hnf : noiseFree l) (k : Nat) :
    (clampInstr (l.getD k default)).soundWave ≠ SW_NOISE := by
  show (l.getD k default).soundWave ≠ SW_NOISE
  by_cases hk : k < l.length
  · rw [List.getD_eq_getElem l default hk]
    exact hnf _ (List.getElem_mem hk)
  · rw [List.getD_eq_default l default (by omega)]
    decide

/-- Entering an instruction loads its waveform selector. -/
theorem setupInstr_wave (spMS : Nat) (tsf : Nat → Nat) (snd : PlayingSound) (first : Bool)
    (st : SlotLocals) :
    (setupInstr spMS tsf snd first st).wave =
      (clampInstr (snd.instrs.getD st.currInstr.toNat default)).soundWave := by
  simp only [setupInstr]
  split_ifs <;> rfl

/-- Entering an instruction does not move the cursor. -/
theorem setupInstr_currInstr (spMS : Nat) (tsf : Nat → Nat) (snd : PlayingSound) (first : Bool)
    (st : SlotLocals) :
    (setupInstr spMS tsf snd first st).currInstr = st.currInstr := by
  simp only [setupInstr]
  split_ifs <;> rfl

/-- The loop locals and the number of emitted samples do not depend on the
xorshift state (only the emitted values do). -/
theorem slotLoop_st_rng (spMS : Nat) (tsf : Nat → Nat) (snd : PlayingSound) :
    ∀ (n : Nat) (first : Bool) (st : SlotLocals) (rng rng' : Nat),
    (slotLoop spMS tsf snd n first st rng).st = (slotLoop spMS tsf snd n first st rng').st ∧
    (slotLoop spMS tsf snd n first st rng).outs.length =
      (slotLoop spMS tsf snd n first st rng').outs.length := by
  intro n
  induction n with
  | zero => intro first st rng rng'; exact ⟨rfl, rfl⟩
  | succ m ih =>
    intro first st rng rng'
    simp only [slotLoop]
    by_cases h0 : st.samplesLeft = 0
    · rw [if_pos h0, if_pos h0]
      by_cases hbrk : st.currInstr + 1 ≥ snd.instrEnd
      · rw [if_pos hbrk, if_pos hbrk]
        exact ⟨rfl, rfl⟩
      · rw [if_neg hbrk, if_neg hbrk]
        have hpost : (emitSample (setupInstr spMS tsf snd first
            { st with currInstr := st.currInstr + 1 }) rng').2.1 =
            (emitSample (setupInstr spMS tsf snd first
            { st with currInstr := st.currInstr + 1 }) rng).2.1 := rfl
        rw [hpost]
        have hkey := ih false
          (emitSample (setupInstr spMS tsf snd first
            { st with currInstr := st.currInstr + 1 }) rng).2.1
          (emitSample (setupInstr spMS tsf snd first
            { st with currInstr := st.currInstr + 1 }) rng).2.2
          (emitSample (setupInstr spMS tsf snd first
            { st with currInstr := st.currInstr + 1 }) rng').2.2
        exact ⟨hkey.1, by simp only [List.length_cons, hkey.2]⟩
    · rw [if_neg h0, if_neg h0]
      have hpost : (emitSample st rng').2.1 = (emitSample st rng).2.1 := rfl
      rw [hpost]
      have hkey := ih false (emitSample st rng).2.1
        (emitSample st rng).2.2 (emitSample st rng').2.2
      exact ⟨hkey.1, by simp only [List.length_cons, hkey.2]⟩

/-- A noise-free slot preserves the xorshift state through its sample loop
(the state hypothesis rules out a stale noise `wave` in mid-instruction
locals). -/
theorem slotLoop_rng (spMS : Nat) (tsf : Nat → Nat) (snd : PlayingSound)
    (hnf : noiseFree snd.instrs) :
    ∀ (n : Nat) (first : Bool) (st : SlotLocals) (rng : Nat),
    (st.samplesLeft = 0 ∨ st.wave ≠ SW_NOISE) →
    (slotLoop spMS tsf snd n first st rng).rng = rng := by
  intro n
  induction n with
  | zero => intro first st rng _; rfl
  | succ m ih =>
    intro first st rng hw
    simp only [slotLoop]
    by_cases h0 : st.samplesLeft = 0
    · simp only [h0, if_true]
      by_cases hbrk : st.currInstr + 1 ≥ snd.instrEnd
      · simp only [if_pos hbrk]
      · simp only [if_neg hbrk]
        have hwave : (setupInstr spMS tsf snd first
            { st with currInstr := st.currInstr + 1 }).wave ≠ SW_NOISE := by
          rw [setupInstr_wave]
          exact getD_wave_nonNoise snd.instrs hnf _
        show (slotLoop spMS tsf snd m false _ _).rng = rng
        rw [ih false _ _ (Or.inr (by exact hwave))]
        show (getWaveFn (setupInstr spMS tsf snd first
          { st with currInstr := st.currInstr + 1 }).wave _ rng).2 = rng
        rw [getWaveFn_nonNoise _ _ _ hwave]
    · simp only [h0, if_false]
      have hwave : st.wave ≠ SW_NOISE := hw.resolve_left h0
      show (slotLoop spMS tsf snd m false _ _).rng = rng
      rw [ih false _ _ (Or.inr (by exact hwave))]
      show (getWaveFn st.wave _ rng).2 = rng
      rw [getWaveFn_nonNoise _ _ _ hwave]

/-- A noise-free slot preserves the xorshift state through `slotFill`. -/
theorem slotFill_rng (spMS : Nat) (tsf : Nat → Nat) (snd : PlayingSound)
    (hnf : noiseFree snd.instrs) (n rng : Nat) :
    (slotFill spMS tsf snd n rng).rng = rng := by
  simp only [slotFill]
  have h := slotLoop_rng spMS tsf snd hnf n true (initLocals snd) rng (Or.inl rfl)
  split <;> exact h

/-- A pool of noise-free slots preserves the xorshift state. -/
theorem fillSlots_rng (spMS : Nat) (tsf : Nat → Nat) :
    ∀ (slots : List PlayingSound) (w : List (Nat × WaitingSound)) (buf : List Int) (rng : Nat),
    (∀ slot ∈ slots, slot.sound ≠ none → noiseFree slot.instrs) →
    (fillSlots spMS tsf slots w buf rng).rng = rng := by
  intro slots
  induction slots with
  | nil => intro w buf rng _; rfl
  | cons slot others ih =>
    intro w buf rng hnf
    simp only [fillSlots]
    cases hsnd : slot.sound with
    | none =>
      exact ih w buf rng fun s hs => hnf s (List.mem_cons_of_mem _ hs)
    | some sid =>
      simp only
      have hhd : noiseFree slot.instrs :=
        hnf slot (List.mem_cons_self _ _) (by simp [hsnd])
      show (fillSlots spMS tsf others _ _ (slotFill spMS tsf slot buf.length rng).rng).rng = rng
      rw [ih _ _ _ fun s hs => hnf s (List.mem_cons_of_mem _ hs)]
      exact slotFill_rng spMS tsf slot hhd _ _

/-- With `first = false` the instruction-entry path never reads the slot's
saved resume fields. -/
theorem setupInstr_false_irrel (spMS : Nat) (tsf : Nat → Nat) (snd snd' : PlayingSound)
    (hi : snd.instrs = snd'.instrs) (st : SlotLocals) :
    setupInstr spMS tsf snd false st = setupInstr spMS tsf snd' false st := by
  unfold setupInstr
  rw [hi]
  simp

/-- After the first iteration the sample loop reads only the instruction
stream and its end from the slot, so slots agreeing there run identically
with `first = false`. -/
theorem slotLoop_resume_irrel (spMS : Nat) (tsf : Nat → Nat) (snd snd' : PlayingSound)
    (hi : snd.instrs = snd'.instrs) (he : snd.instrEnd = snd'.instrEnd) :
    ∀ (n : Nat) (st : SlotLocals) (rng : Nat),
    slotLoop spMS tsf snd n false st rng = slotLoop spMS tsf snd' n false st rng := by
  intro n
  induction n with
  | zero => intro st rng; rfl
  | succ m ih =>
    intro st rng
    simp only [slotLoop, he, setupInstr_false_irrel spMS tsf snd snd' hi, ih]

/-- Entering an instruction establishes cache coherence with it. -/
theorem setupInstr_coherent (spMS : Nat) (tsf : Nat → Nat) (snd : PlayingSound)
    (first : Bool) (st : SlotLocals) :
    Coherent spMS snd (setupInstr spMS tsf snd first st) := by
  simp only [Coherent, setupInstr]
  split_ifs with h1 h2 h3
  · exact ⟨rfl, rfl, rfl, rfl⟩
  · exact ⟨rfl, rfl, rfl, rfl⟩
  · exact ⟨rfl, rfl, rfl, rfl⟩
  · push_neg at h2
    exact ⟨rfl, rfl, h2.1, h2.2⟩

/-- Emitting a sample preserves cache coherence (it does not touch the
cursor or the instruction-derived fields). -/
theorem emitSample_coherent (spMS : Nat) (snd : PlayingSound) (st : SlotLocals) (rng : Nat)
    (h : Coherent spMS snd st) : Coherent spMS snd (emitSample st rng).2.1 := by
  simpa only [Coherent, emitSample] using h

/-- A loop segment that starts by entering an instruction (or from coherent
locals) ends broken, coherent, or without having run. -/
theorem slotLoop_coherent (spMS : Nat) (tsf : Nat → Nat) (snd : PlayingSound) :
    ∀ (n : Nat) (first : Bool) (st : SlotLocals) (rng : Nat),
    st.samplesLeft = 0 ∨ Coherent spMS snd st →
    snd.instrEnd ≤ (slotLoop spMS tsf snd n first st rng).st.currInstr ∨
      Coherent spMS snd (slotLoop spMS tsf snd n first st rng).st ∨ n = 0 := by
  intro n
  induction n with
  | zero => intro first st rng _; exact Or.inr (Or.inr rfl)
  | succ m ih =>
    intro first st rng hst
    simp only [slotLoop]
    by_cases h0 : st.samplesLeft = 0
    · rw [if_pos h0]
      by_cases hbrk : st.currInstr + 1 ≥ snd.instrEnd
      · rw [if_pos hbrk]
        exact Or.inl hbrk
      · rw [if_neg hbrk]
        have hco : Coherent spMS snd (emitSample (setupInstr spMS tsf snd first
            { st with currInstr := st.currInstr + 1 }) rng).2.1 :=
          emitSample_coherent spMS snd _ _ (setupInstr_coherent spMS tsf snd first _)
        rcases ih false _ _ (Or.inr hco) with h | h | h
        · exact Or.inl h
        · exact Or.inr (Or.inl h)
        · subst h
          exact Or.inr (Or.inl hco)
    · rw [if_neg h0]
      have hco : Coherent spMS snd (emitSample st rng).2.1 :=
        emitSample_coherent spMS snd st rng (hst.resolve_left h0)
      rcases ih false _ _ (Or.inr hco) with h | h | h
      · exact Or.inl h
      · exact Or.inr (Or.inl h)
      · subst h
        exact Or.inr (Or.inl hco)

/-- Concatenation law of the sample loop: over `n1 + n2` iterations the loop
either stops where its first `n1` iterations broke, or continues from their
final locals for `n2` more iterations with `first = false`. -/
theorem slotLoop_add (spMS : Nat) (tsf : Nat → Nat) (snd : PlayingSound) :
    ∀ (n1 n2 : Nat) (first : Bool) (st : SlotLocals) (rng : Nat), 1 ≤ n1 →
    slotWF snd st →
    (snd.instrEnd ≤ (slotLoop spMS tsf snd n1 first st rng).st.currInstr →
      slotLoop spMS tsf snd (n1 + n2) first st rng = slotLoop spMS tsf snd n1 first st rng) ∧
    (¬ snd.instrEnd ≤ (slotLoop spMS tsf snd n1 first st rng).st.currInstr →
      slotLoop spMS tsf snd (n1 + n2) first st rng =
        ⟨(slotLoop spMS tsf snd n1 first st rng).outs ++
            (slotLoop spMS tsf snd n2 false (slotLoop spMS tsf snd n1 first st rng).st
              (slotLoop spMS tsf snd n1 first st rng).rng).outs,
          (slotLoop spMS tsf snd n2 false (slotLoop spMS tsf snd n1 first st rng).st
            (slotLoop spMS tsf snd n1 first st rng).rng).st,
          (slotLoop spMS tsf snd n2 false (slotLoop spMS tsf snd n1 first st rng).st
            (slotLoop spMS tsf snd n1 first st rng).rng).rng⟩) := by
  intro n1
  induction n1 with
  | zero => intro n2 first st rng h1; exact absurd h1 (by omega)
  | succ m ih =>
    intro n2 first st rng _ hwf
    have hstep : (m + 1) + n2 = (m + n2) + 1 := by omega
    rw [hstep]
    simp only [slotLoop]
    by_cases h0 : st.samplesLeft = 0
    · rw [if_pos h0, if_pos h0]
      by_cases hbrk : st.currInstr + 1 ≥ snd.instrEnd
      · rw [if_pos hbrk, if_pos hbrk]
        exact ⟨fun _ => rfl, fun h => absurd hbrk h⟩
      · rw [if_neg hbrk, if_neg hbrk]
        have hcur : (emitSample (setupInstr spMS tsf snd first
            { st with currInstr := st.currInstr + 1 }) rng).2.1.currInstr =
            st.currInstr + 1 := by
          show (setupInstr spMS tsf snd first
            { st with currInstr := st.currInstr + 1 }).currInstr = st.currInstr + 1
          rw [setupInstr_currInstr]
        have hwf' : slotWF snd (emitSample (setupInstr spMS tsf snd first
            { st with currInstr := st.currInstr + 1 }) rng).2.1 :=
          Or.inr (by rw [hcur]; omega)
        cases m with
        | zero =>
          constructor
          · intro habs
            simp only [slotLoop] at habs
            rw [hcur] at habs
            exact absurd habs hbrk
          · intro _
            simp only [Nat.zero_add]
            rfl
        | succ k =>
          obtain ⟨ihA, ihB⟩ := ih n2 false
            (emitSample (setupInstr spMS tsf snd first
              { st with currInstr := st.currInstr + 1 }) rng).2.1
            (emitSample (setupInstr spMS tsf snd first
              { st with currInstr := st.currInstr + 1 }) rng).2.2
            (by omega) hwf'
          constructor
          · intro habs
            rw [ihA habs]
          · intro h
            rw [ihB h, List.cons_append]
    · rw [if_neg h0, if_neg h0]
      have hlt : st.currInstr < snd.instrEnd := by
        rcases hwf with h | h
        · exact absurd h h0
        · exact h
      have hwf' : slotWF snd (emitSample st rng).2.1 := Or.inr hlt
      cases m with
      | zero =>
        refine ⟨fun habs => absurd habs (not_le.mpr hlt), fun _ => ?_⟩
        simp only [Nat.zero_add]
        rfl
      | succ k =>
        obtain ⟨ihA, ihB⟩ := ih n2 false (emitSample st rng).2.1 (emitSample st rng).2.2
          (by omega) hwf'
        constructor
        · intro habs
          rw [ihA habs]
        · intro h
          rw [ihB h, List.cons_append]

/-- The loop emits at most one sample per iteration. -/
theorem slotLoop_length_le (spMS : Nat) (tsf : Nat → Nat) (snd : PlayingSound) :
    ∀ (n : Nat) (first : Bool) (st : SlotLocals) (rng : Nat),
    (slotLoop spMS tsf snd n first st rng).outs.length ≤ n := by
  intro n
  induction n with
  | zero => intro first st rng; exact Nat.le_refl 0
  | succ m ih =>
    intro first st rng
    simp only [slotLoop]
    by_cases h0 : st.samplesLeft = 0
    · rw [if_pos h0]
      by_cases hbrk : st.currInstr + 1 ≥ snd.instrEnd
      · rw [if_pos hbrk]
        exact Nat.zero_le _
      · rw [if_neg hbrk]
        simpa only [List.length_cons] using Nat.succ_le_succ (ih false _ _)
    · rw [if_neg h0]
      simpa only [List.length_cons] using Nat.succ_le_succ (ih false _ _)

/-- A loop segment that does not break emits exactly one sample per
iteration. -/
theorem slotLoop_length_eq (spMS : Nat) (tsf : Nat → Nat) (snd : PlayingSound) :
    ∀ (n : Nat) (first : Bool) (st : SlotLocals) (rng : Nat), slotWF snd st →
    ¬ snd.instrEnd ≤ (slotLoop spMS tsf snd n first st rng).st.currInstr →
    (slotLoop spMS tsf snd n first st rng).outs.length = n := by
  intro n
  induction n with
  | zero => intro first st rng _ _; rfl
  | succ m ih =>
    intro first st rng hwf hnb
    simp only [slotLoop] at hnb ⊢
    by_cases h0 : st.samplesLeft = 0
    · rw [if_pos h0] at hnb ⊢
      by_cases hbrk : st.currInstr + 1 ≥ snd.instrEnd
      · rw [if_pos hbrk] at hnb
        exact absurd hbrk hnb
      · rw [if_neg hbrk] at hnb ⊢
        have hcur : (emitSample (setupInstr spMS tsf snd first
            { st with currInstr := st.currInstr + 1 }) rng).2.1.currInstr =
            st.currInstr + 1 := by
          show (setupInstr spMS tsf snd first
            { st with currInstr := st.currInstr + 1 }).currInstr = st.currInstr + 1
          rw [setupInstr_currInstr]
        have hwf' : slotWF snd (emitSample (setupInstr spMS tsf snd first
            { st with currInstr := st.currInstr + 1 }) rng).2.1 :=
          Or.inr (by rw [hcur]; omega)
        simp only [List.length_cons]
        rw [ih false _ _ hwf' hnb]
    · rw [if_neg h0] at hnb ⊢
      have hlt : st.currInstr < snd.instrEnd := by
        rcases hwf with h | h
        · exact absurd h h0
        · exact h
      have hwf' : slotWF snd (emitSample st rng).2.1 := Or.inr hlt
      simp only [List.length_cons]
      rw [ih false _ _ hwf' hnb]

/-- The resumption seam: writing mid-instruction locals back into the slot
and restarting the loop reconstructs — through the restore path — exactly
the locals the uninterrupted loop would have continued from, provided the
stop was strictly inside the instruction (`samplesLeft ≠ 0`), the saved
volume is not the fresh-bind marker, and the locals are coherent with the
current instruction. -/
theorem slotLoop_seam_step (spMS : Nat) (tsf : Nat → Nat) (snd : PlayingSound)
    (st : SlotLocals) (rng : Nat) (n : Nat)
    (hco : Coherent spMS snd st) (hsl : ¬ st.samplesLeft = 0) (hvol : ¬ st.volume = -1)
    (hlt : st.currInstr < snd.instrEnd) (hn : 1 ≤ n) :
    slotLoop spMS tsf
      { snd with
        currInstr := st.currInstr
        tonePosition := st.tonePosition
        samplesLeftInCurr := if st.samplesLeft = 0 then 1 else st.samplesLeft
        prevVolume := st.volume
        prevToneDelta := st.toneDelta
        prevToneStep := st.toneStep } n true
      (initLocals
        { snd with
          currInstr := st.currInstr
          tonePosition := st.tonePosition
          samplesLeftInCurr := if st.samplesLeft = 0 then 1 else st.samplesLeft
          prevVolume := st.volume
          prevToneDelta := st.toneDelta
          prevToneStep := st.toneStep }) rng =
      slotLoop spMS tsf snd n false st rng := by
  obtain ⟨m, rfl⟩ : ∃ m, n = m + 1 := ⟨n - 1, by omega⟩
  obtain ⟨hcw, hcv, hcf, hce⟩ := hco
  rw [if_neg hsl]
  obtain ⟨sc, sw, sts, std, svs, stp, ssl, sv, spf, spef⟩ := st
  simp only [slotLoop, initLocals, Int.sub_add_cancel, ge_iff_le, not_le.mpr hlt, hsl,
    if_false, eq_self_iff_true, if_true]
  have hst1 : setupInstr spMS tsf
      { snd with
        currInstr := sc
        tonePosition := stp
        samplesLeftInCurr := ssl
        prevVolume := sv
        prevToneDelta := std
        prevToneStep := sts } true
      { currInstr := sc, wave := 0, toneStep := 0, toneDelta := 0, volumeStep := 0,
        tonePosition := stp, samplesLeft := 0, volume := 0, prevFreq := 0,
        prevEndFreq := 0 } =
      ⟨sc, sw, sts, std, svs, stp, ssl, sv, spf, spef⟩ := by
    simp only [setupInstr]
    rw [if_pos ⟨trivial, hvol⟩]
    simp only [SlotLocals.mk.injEq]
    simp only [eq_self_iff_true, true_and, and_true]
    exact ⟨hcw.symm, hcv.symm, hcf.symm, hce.symm⟩
  rw [hst1]
  rw [slotLoop_resume_irrel spMS tsf
    { snd with
      currInstr := sc
      tonePosition := stp
      samplesLeftInCurr := ssl
      prevVolume := sv
      prevToneDelta := std
      prevToneStep := sts } snd rfl rfl]

/-- `slotFill` when the loop does not break: the resumption writeback. -/
theorem slotFill_of_not_broke (spMS : Nat) (tsf : Nat → Nat) (snd : PlayingSound)
    (n rng : Nat)
    (h : ¬ snd.instrEnd ≤ (slotLoop spMS tsf snd n true (initLocals snd) rng).st.currInstr) :
    slotFill spMS tsf snd n rng =
      ⟨(slotLoop spMS tsf snd n true (initLocals snd) rng).outs,
        { snd with
          currInstr := (slotLoop spMS tsf snd n true (initLocals snd) rng).st.currInstr
          tonePosition := (slotLoop spMS tsf snd n true (initLocals snd) rng).st.tonePosition
          samplesLeftInCurr :=
            if (slotLoop spMS tsf snd n true (initLocals snd) rng).st.samplesLeft = 0 then 1
            else (slotLoop spMS tsf snd n true (initLocals snd) rng).st.samplesLeft
          prevVolume := (slotLoop spMS tsf snd n true (initLocals snd) rng).st.volume
          prevToneDelta := (slotLoop spMS tsf snd n true (initLocals snd) rng).st.toneDelta
          prevToneStep := (slotLoop spMS tsf snd n true (initLocals snd) rng).st.toneStep },
        (slotLoop spMS tsf snd n true (initLocals snd) rng).rng, false⟩ := by
  simp only [slotFill]
  rw [if_neg h]

/-- Slot-level splitting: when the slot's sound stays live through the whole
window and the boundary is clean, filling `n1 + n2` samples equals filling
`n1`, writing back, and filling `n2` from the written-back slot — same
contributions (exactly `n1` in the first part), same final slot, same
xorshift state, and no retirement anywhere. -/
theorem slotFill_seam (spMS : Nat) (tsf : Nat → Nat) (snd : PlayingSound)
    (n1 n2 rng : Nat) (h1 : 1 ≤ n1) (h2 : 1 ≤ n2)
    (hcl : slotCleanAt spMS tsf snd n1 = true)
    (hlv : slotLiveAt spMS tsf snd (n1 + n2) = true) :
    (slotFill spMS tsf snd n1 rng).finished = false ∧
    (slotFill spMS tsf (slotFill spMS tsf snd n1 rng).slot n2
        (slotFill spMS tsf snd n1 rng).rng).finished = false ∧
    (slotFill spMS tsf snd (n1 + n2) rng).finished = false ∧
    (slotFill spMS tsf snd (n1 + n2) rng).outs =
      (slotFill spMS tsf snd n1 rng).outs ++
        (slotFill spMS tsf (slotFill spMS tsf snd n1 rng).slot n2
          (slotFill spMS tsf snd n1 rng).rng).outs ∧
    (slotFill spMS tsf snd (n1 + n2) rng).slot =
      (slotFill spMS tsf (slotFill spMS tsf snd n1 rng).slot n2
        (slotFill spMS tsf snd n1 rng).rng).slot ∧
    (slotFill spMS tsf snd (n1 + n2) rng).rng =
      (slotFill spMS tsf (slotFill spMS tsf snd n1 rng).slot n2
        (slotFill spMS tsf snd n1 rng).rng).rng ∧
    (slotFill spMS tsf snd n1 rng).outs.length = n1 := by
  have hWFinit : slotWF snd (initLocals snd) := Or.inl rfl
  have hst0B := (slotLoop_st_rng spMS tsf snd (n1 + n2) true (initLocals snd) 0 rng).1
  have hst01 := (slotLoop_st_rng spMS tsf snd n1 true (initLocals snd) 0 rng).1
  simp only [slotLiveAt, decide_eq_true_eq] at hlv
  rw [hst0B] at hlv
  have hlive : ¬ snd.instrEnd ≤
      (slotLoop spMS tsf snd (n1 + n2) true (initLocals snd) rng).st.currInstr :=
    not_le.mpr hlv
  obtain ⟨hA, hB⟩ := slotLoop_add spMS tsf snd n1 n2 true (initLocals snd) rng h1 hWFinit
  have hnb1 : ¬ snd.instrEnd ≤
      (slotLoop spMS tsf snd n1 true (initLocals snd) rng).st.currInstr := by
    intro habs
    exact hlive (by rw [hA habs]; exact habs)
  have hlen1 : (slotLoop spMS tsf snd n1 true (initLocals snd) rng).outs.length = n1 :=
    slotLoop_length_eq spMS tsf snd n1 true (initLocals snd) rng hWFinit hnb1
  have hcoh : Coherent spMS snd (slotLoop spMS tsf snd n1 true (initLocals snd) rng).st := by
    rcases slotLoop_coherent spMS tsf snd n1 true (initLocals snd) rng (Or.inl rfl)
      with h | h | h
    · exact absurd h hnb1
    · exact h
    · omega
  simp only [slotCleanAt, Bool.or_eq_true, Bool.and_eq_true, decide_eq_true_eq] at hcl
  rw [hst01] at hcl
  have hclean : ¬ (slotLoop spMS tsf snd n1 true (initLocals snd) rng).st.samplesLeft = 0 ∧
      ¬ (slotLoop spMS tsf snd n1 true (initLocals snd) rng).st.volume = -1 := by
    rcases hcl with h | h
    · exact absurd h hnb1
    · exact h
  have hBeq := hB hnb1
  have hseam := slotLoop_seam_step spMS tsf snd
    (slotLoop spMS tsf snd n1 true (initLocals snd) rng).st
    (slotLoop spMS tsf snd n1 true (initLocals snd) rng).rng n2 hcoh hclean.1 hclean.2
    (not_le.mp hnb1) h2
  have hf1 := slotFill_of_not_broke spMS tsf snd n1 rng hnb1
  have hfB := slotFill_of_not_broke spMS tsf snd (n1 + n2) rng hlive
  have hstc : (slotLoop spMS tsf snd n2 false
      (slotLoop spMS tsf snd n1 true (initLocals snd) rng).st
      (slotLoop spMS tsf snd n1 true (initLocals snd) rng).rng).st =
      (slotLoop spMS tsf snd (n1 + n2) true (initLocals snd) rng).st := by
    rw [hBeq]
  have hnb2 : ¬ snd.instrEnd ≤ (slotLoop spMS tsf snd n2 false
      (slotLoop spMS tsf snd n1 true (initLocals snd) rng).st
      (slotLoop spMS tsf snd n1 true (initLocals snd) rng).rng).st.currInstr := by
    rw [hstc]
    exact hlive
  have hnb2 : ¬ snd.instrEnd ≤ (slotLoop spMS tsf snd n2 false
      (slotLoop spMS tsf snd n1 true (initLocals snd) rng).st
      (slotLoop spMS tsf snd n1 true (initLocals snd) rng).rng).st.currInstr := by
    rw [hstc]
    exact hlive
  have hf2 := slotFill_of_not_broke spMS tsf
    { snd with
      currInstr := (slotLoop spMS tsf snd n1 true (initLocals snd) rng).st.currInstr
      tonePosition := (slotLoop spMS tsf snd n1 true (initLocals snd) rng).st.tonePosition
      samplesLeftInCurr :=
        if (slotLoop spMS tsf snd n1 true (initLocals snd) rng).st.samplesLeft = 0 then 1
        else (slotLoop spMS tsf snd n1 true (initLocals snd) rng).st.samplesLeft
      prevVolume := (slotLoop spMS tsf snd n1 true (initLocals snd) rng).st.volume
      prevToneDelta := (slotLoop spMS tsf snd n1 true (initLocals snd) rng).st.toneDelta
      prevToneStep := (slotLoop spMS tsf snd n1 true (initLocals snd) rng).st.toneStep } n2
    (slotLoop spMS tsf snd n1 true (initLocals snd) rng).rng
    (by rw [hseam]; exact hnb2)
  rw [hseam] at hf2
  refine ⟨by rw [hf1], ?_, by rw [hfB], ?_, ?_, ?_, by rw [hf1]; exact hlen1⟩
  · simp only [hf1]
    rw [hf2]
  · simp only [hfB, hf1, hf2, hBeq]
  · simp only [hfB, hf1, hf2]
    simp only [← hstc]
  · simp only [hfB, hf1, hf2, hBeq]

/-- A slot that is not retired keeps its binding, buffer and stream end. -/
theorem slotFill_keeps_sound (spMS : Nat) (tsf : Nat → Nat) (snd : PlayingSound)
    (n rng : Nat) (h : (slotFill spMS tsf snd n rng).finished = false) :
    (slotFill spMS tsf snd n rng).slot.sound = snd.sound ∧
    (slotFill spMS tsf snd n rng).slot.instrs = snd.instrs ∧
    (slotFill spMS tsf snd n rng).slot.instrEnd = snd.instrEnd := by
  by_cases hb : (slotLoop spMS tsf snd n true (initLocals snd) rng).st.currInstr ≥
      snd.instrEnd
  · simp [slotFill, if_pos hb] at h
  · simp [slotFill, if_neg hb]

/-- Accumulating a contribution that covers exactly the first part of a
buffer splits along the parts. -/
theorem addInto_append_eq : ∀ (b1 c1 b2 c2 : List Int), c1.length = b1.length →
    addInto (b1 ++ b2) (c1 ++ c2) = addInto b1 c1 ++ addInto b2 c2 := by
  intro b1
  induction b1 with
  | nil =>
    intro c1 b2 c2 hlen
    rw [List.length_nil, List.length_eq_zero] at hlen
    subst hlen
    rfl
  | cons b bs ih =>
    intro c1 b2 c2 hlen
    cases c1 with
    | nil => simp at hlen
    | cons c cs =>
      simp only [List.length_cons] at hlen
      simp only [List.cons_append, addInto, List.append_eq]
      rw [ih cs b2 c2 (by omega)]

/-- A slot whose `slotFill` did not retire the sound is live for that
window (in the xorshift-independent instrumentation). -/
theorem slotLiveAt_of_not_finished (spMS : Nat) (tsf : Nat → Nat) (snd : PlayingSound)
    (n rng : Nat) (h : (slotFill spMS tsf snd n rng).finished = false) :
    slotLiveAt spMS tsf snd n = true := by
  unfold slotLiveAt
  rw [decide_eq_true_eq]
  by_cases hb : (slotLoop spMS tsf snd n true (initLocals snd) rng).st.currInstr ≥
      snd.instrEnd
  · simp [slotFill, if_pos hb] at h
  · rw [(slotLoop_st_rng spMS tsf snd n true (initLocals snd) 0 rng).1]
    omega

set_option maxHeartbeats 2000000 in
/-- Pool-level splitting: with every occupied slot noise-free, clean at the
boundary and live through the whole window, filling the concatenated buffer
equals filling the two parts in sequence — contributions concatenate, the
final slots agree exactly, and the store and xorshift state are untouched.
Every slot still occupied at the boundary is moreover live for the second
part of the window on its own. -/
theorem fillSlots_seam (spMS : Nat) (tsf : Nat → Nat) :
    ∀ (slots : List PlayingSound) (w : List (Nat × WaitingSound)) (b1 b2 : List Int)
      (rng : Nat),
    1 ≤ b1.length → 1 ≤ b2.length →
    (∀ slot ∈ slots, slot.sound ≠ none → noiseFree slot.instrs) →
    (∀ slot ∈ slots, slot.sound ≠ none → slotCleanAt spMS tsf slot b1.length = true) →
    (∀ slot ∈ slots, slot.sound ≠ none →
      slotLiveAt spMS tsf slot (b1.length + b2.length) = true) →
    (fillSlots spMS tsf slots w (b1 ++ b2) rng).buf =
      (fillSlots spMS tsf slots w b1 rng).buf ++
        (fillSlots spMS tsf (fillSlots spMS tsf slots w b1 rng).slots w b2 rng).buf ∧
    (fillSlots spMS tsf slots w (b1 ++ b2) rng).slots =
      (fillSlots spMS tsf (fillSlots spMS tsf slots w b1 rng).slots w b2 rng).slots ∧
    (fillSlots spMS tsf slots w (b1 ++ b2) rng).waiting = w ∧
    (fillSlots spMS tsf slots w (b1 ++ b2) rng).rng = rng ∧
    (fillSlots spMS tsf slots w b1 rng).waiting = w ∧
    (fillSlots spMS tsf slots w b1 rng).rng = rng ∧
    (fillSlots spMS tsf (fillSlots spMS tsf slots w b1 rng).slots w b2 rng).waiting = w ∧
    (fillSlots spMS tsf (fillSlots spMS tsf slots w b1 rng).slots w b2 rng).rng = rng ∧
    (∀ sl ∈ (fillSlots spMS tsf slots w b1 rng).slots, sl.sound ≠ none →
      slotLiveAt spMS tsf sl b2.length = true) := by
  intro slots
  induction slots with
  | nil =>
    intro w b1 b2 rng _ _ _ _ _
    exact ⟨rfl, rfl, rfl, rfl, rfl, rfl, rfl, rfl,
      fun sl hsl => absurd hsl (List.not_mem_nil sl)⟩
  | cons slot others ih =>
    intro w b1 b2 rng hl1 hl2 hnf hcl hlv
    have hnfo : ∀ s ∈ others, s.sound ≠ none → noiseFree s.instrs :=
      fun s hs => hnf s (List.mem_cons_of_mem _ hs)
    have hclo : ∀ s ∈ others, s.sound ≠ none → slotCleanAt spMS tsf s b1.length = true :=
      fun s hs => hcl s (List.mem_cons_of_mem _ hs)
    have hlvo : ∀ s ∈ others, s.sound ≠ none →
        slotLiveAt spMS tsf s (b1.length + b2.length) = true :=
      fun s hs => hlv s (List.mem_cons_of_mem _ hs)
    cases hsnd : slot.sound with
    | none =>
      obtain ⟨i1, i2, i3, i4, i5, i6, i7, i8, i9⟩ := ih w b1 b2 rng hl1 hl2 hnfo hclo hlvo
      simp only [fillSlots, hsnd]
      refine ⟨i1, by rw [i2], i3, i4, i5, i6, i7, i8, ?_⟩
      intro sl hsl hso
      rcases List.mem_cons.mp hsl with rfl | hin
      · exact absurd hsnd hso
      · exact i9 sl hin hso
    | some sid =>
      have hocc : slot.sound ≠ none := by simp [hsnd]
      have hnfh : noiseFree slot.instrs := hnf slot (List.mem_cons_self _ _) hocc
      obtain ⟨s1, s2, s3, s4, s5, s6, s7⟩ := slotFill_seam spMS tsf slot
        b1.length b2.length rng hl1 hl2
        (hcl slot (List.mem_cons_self _ _) hocc)
        (hlv slot (List.mem_cons_self _ _) hocc)
      have hr1 : (slotFill spMS tsf slot b1.length rng).rng = rng :=
        slotFill_rng spMS tsf slot hnfh _ _
      rw [hr1] at s2 s4 s5 s6
      have hkeep := slotFill_keeps_sound spMS tsf slot b1.length rng s1
      have hs2 : (slotFill spMS tsf slot b1.length rng).slot.sound = some sid := by
        rw [hkeep.1, hsnd]
      have hr2 : (slotFill spMS tsf (slotFill spMS tsf slot b1.length rng).slot
          b2.length rng).rng = rng := by
        apply slotFill_rng
        rw [hkeep.2.1]
        exact hnfh
      have hrB : (slotFill spMS tsf slot (b1.length + b2.length) rng).rng = rng := by
        rw [s6, hr2]
      obtain ⟨i1, i2, i3, i4, i5, i6, i7, i8, i9⟩ := ih w
        (addInto b1 (slotFill spMS tsf slot b1.length rng).outs)
        (addInto b2 (slotFill spMS tsf
          (slotFill spMS tsf slot b1.length rng).slot b2.length rng).outs) rng
        (by rw [addInto_length]; exact hl1) (by rw [addInto_length]; exact hl2)
        hnfo
        (fun s hs ho => by rw [addInto_length]; exact hclo s hs ho)
        (fun s hs ho => by rw [addInto_length, addInto_length]; exact hlvo s hs ho)
      rw [addInto_length] at i9
      have hlive2 : slotLiveAt spMS tsf (slotFill spMS tsf slot b1.length rng).slot
          b2.length = true :=
        slotLiveAt_of_not_finished spMS tsf _ _ rng s2
      simp only [fillSlots, hsnd, List.length_append, hs2]
      simp only [s1, s2, s3, Bool.false_eq_true, if_false]
      simp only [s4]
      rw [addInto_append_eq b1 _ b2 _ s7]
      simp only [s5, hr1, hr2, hrB]
      refine ⟨i1, by rw [i2], i3, i4, i5, i6, i7, i8, ?_⟩
      intro sl hsl hso
      rcases List.mem_cons.mp hsl with rfl | hin
      · exact hlive2
      · exact i9 sl hin hso

/-- One-call-level splitting for an event-free window: the written samples
concatenate and the final synthesizer states agree exactly. -/
theorem fillOnce_seam (tsf : Nat → Nat) (s : WSynthesizer) (n1 n2 : Nat)
    (h1 : 1 ≤ n1) (h2 : 1 ≤ n2)
    (hnf : ∀ slot ∈ s.playingSounds, slot.sound ≠ none → noiseFree slot.instrs)
    (hcl : ∀ slot ∈ s.playingSounds, slot.sound ≠ none →
      slotCleanAt ((s.sampleRate <<< 8) / 1000) tsf slot n1 = true)
    (hlv : ∀ slot ∈ s.playingSounds, slot.sound ≠ none →
      slotLiveAt ((s.sampleRate <<< 8) / 1000) tsf slot (n1 + n2) = true) :
    (fillOnce tsf s (n1 + n2)).1 =
      (fillOnce tsf s n1).1 ++ (fillOnce tsf (fillOnce tsf s n1).2.1 n2).1 ∧
    (fillOnce tsf s (n1 + n2)).2.1 = (fillOnce tsf (fillOnce tsf s n1).2.1 n2).2.1 ∧
    (fillOnce tsf s n1).2.1.waiting = s.waiting ∧
    (∀ sl ∈ (fillOnce tsf s n1).2.1.playingSounds, sl.sound ≠ none →
      slotLiveAt ((s.sampleRate <<< 8) / 1000) tsf sl n2 = true) := by
  have hrep : List.replicate (n1 + n2) (0 : Int) =
      List.replicate n1 0 ++ List.replicate n2 0 := by
    rw [List.replicate_add]
  obtain ⟨i1, i2, i3, i4, i5, i6, i7, i8, i9⟩ := fillSlots_seam ((s.sampleRate <<< 8) / 1000)
    tsf s.playingSounds s.waiting (List.replicate n1 0) (List.replicate n2 0) s.rng
    (by rw [List.length_replicate]; exact h1) (by rw [List.length_replicate]; exact h2)
    hnf
    (fun sl hs ho => by rw [List.length_replicate]; exact hcl sl hs ho)
    (fun sl hs ho => by
      rw [List.length_replicate, List.length_replicate]; exact hlv sl hs ho)
  rw [List.length_replicate] at i9
  simp only [fillOnce]
  rw [hrep]
  rw [i5, i6]
  refine ⟨?_, ?_, rfl, i9⟩
  · rw [i1, List.map_append]
  · rw [i2, i3, i4, i7, i8]
    simp only [WSynthesizer.mk.injEq, eq_self_iff_true, and_true, true_and]
    push_cast
    ring

/-- The scan finds no due sound when every `Waiting` entry lies strictly in
the future, and then returns the `min`-fold of their distances. -/
theorem scanW_no_due (curr : Int) : ∀ (l : List (Nat × WaitingSound)) (acc : Int),
    acc ≤ maxTime →
    (∀ e ∈ l, e.2.state = SoundState.Waiting → 0 < e.2.startSampleNo - curr) →
    scanW curr l acc =
      ((l.filterMap fun e =>
        if e.2.state = SoundState.Waiting then some (e.2.startSampleNo - curr)
        else none).foldl min acc, none) := by
  intro l
  induction l with
  | nil => intro acc _ _; rfl
  | cons e rest ih =>
    intro acc hacc h
    obtain ⟨i, w⟩ := e
    simp only [scanW]
    by_cases hw : w.state = SoundState.Waiting
    · have hpos : 0 < w.startSampleNo - curr := h (i, w) (List.mem_cons_self _ _) hw
      rw [if_pos hw, if_neg (by omega : ¬ w.startSampleNo - curr ≤ 0)]
      have hacc' : (if w.startSampleNo - curr < acc then w.startSampleNo - curr else acc) =
          min acc (w.startSampleNo - curr) := by
        rw [min_def]
        split <;> split <;> omega
      rw [hacc']
      rw [ih _ (by have := min_le_left acc (w.startSampleNo - curr); omega)
        (fun e he hwe => h e (List.mem_cons_of_mem _ he) hwe)]
      simp only [List.filterMap_cons, hw, if_true, List.foldl_cons]
    · have hne : ¬ (maxTime ≤ (0 : Int)) := by decide
      rw [if_neg hw, if_neg hne, if_neg (by omega : ¬ maxTime < acc)]
      rw [ih _ hacc (fun e he hwe => h e (List.mem_cons_of_mem _ he) hwe)]
      simp only [List.filterMap_cons, hw, if_false]

/-- When no sound is due, `updateQueues` changes nothing and returns the
`min`-fold of the `Waiting` distances into the sentinel. -/
theorem updateQueues_noop (s : WSynthesizer)
    (h : ∀ e ∈ s.waiting, e.2.state = SoundState.Waiting →
      0 < e.2.startSampleNo - s.currSample) :
    updateQueues s = ((s.waiting.filterMap fun e =>
      if e.2.state = SoundState.Waiting then some (e.2.startSampleNo - s.currSample)
      else none).foldl min maxTime, s) := by
  rw [updateQueues_eq, scanW_no_due s.currSample s.waiting maxTime (le_refl _) h]

/-- Running the scheduler twice is the same as running it once. -/
theorem updateQueues_idem (s : WSynthesizer) :
    updateQueues (updateQueues s).2 = ((updateQueues s).1, (updateQueues s).2) := by
  obtain ⟨hcs, hdue, hval⟩ := updateQueues_post s
  have h := updateQueues_noop (updateQueues s).2 (by rw [hcs]; exact hdue)
  rw [h, hcs, ← hval]

/-- A `min`-fold is either its accumulator or attained by a list element. -/
theorem foldl_min_attained : ∀ (l : List Int) (acc : Int),
    l.foldl min acc = acc ∨ l.foldl min acc ∈ l := by
  intro l
  induction l with
  | nil => intro acc; exact Or.inl rfl
  | cons d rest ih =>
    intro acc
    rw [List.foldl_cons]
    rcases ih (min acc d) with h | h
    · rw [h, min_def]
      split
      · exact Or.inl rfl
      · exact Or.inr (List.mem_cons_self _ _)
    · exact Or.inr (List.mem_cons_of_mem _ h)

/-- Shifting every distance down by `k ≥ 0` shifts an attained (non-sentinel)
`min`-fold by `k`. -/
theorem foldl_min_map_sub (l : List Int) (k : Int) (hk : 0 ≤ k)
    (ht : l.foldl min maxTime < maxTime) :
    (l.map fun d => d - k).foldl min maxTime = l.foldl min maxTime - k := by
  have hle : ∀ x ∈ l, l.foldl min maxTime ≤ x := fun x hx => foldl_min_le_mem l maxTime x hx
  apply le_antisymm
  · rcases foldl_min_attained l maxTime with h | h
    · omega
    · exact foldl_min_le_mem _ maxTime _ (List.mem_map_of_mem _ h)
  · apply foldl_min_lb
    · omega
    · intro x hx
      obtain ⟨d, hd, rfl⟩ := List.mem_map.mp hx
      have := hle d hd
      omega

/-- Writing a state field preserves every entry's instruction buffer. -/
theorem setSoundState_mem_instr (l : List (Nat × WaitingSound)) (id : Nat)
    (st : SoundState) (e : Nat × WaitingSound) (he : e ∈ setSoundState l id st) :
    ∃ w0, (e.1, w0) ∈ l ∧ w0.instructions = e.2.instructions := by
  obtain ⟨x, hx, hxe⟩ := List.mem_map.mp he
  by_cases h : x.1 = id
  · simp only [h, if_true] at hxe
    subst hxe
    exact ⟨x.2, by rw [← h]; exact hx, rfl⟩
  · simp only [h, if_false] at hxe
    subst hxe
    exact ⟨x.2, hx, rfl⟩

/-- `slotFill` never changes the slot's captured instruction buffer. -/
theorem slotFill_instrs (spMS : Nat) (tsf : Nat → Nat) (snd : PlayingSound) (n rng : Nat) :
    (slotFill spMS tsf snd n rng).slot.instrs = snd.instrs := by
  by_cases h : (slotLoop spMS tsf snd n true (initLocals snd) rng).st.currInstr ≥
      snd.instrEnd
  · simp [slotFill, if_pos h]
  · simp [slotFill, if_neg h]

/-- One scheduler iteration preserves noise-freeness of the whole state. -/
theorem schedStep_noiseFree (s : WSynthesizer) (pid : Nat) (p : WaitingSound)
    (hmem : (pid, p) ∈ s.waiting) (h : noiseFreeState s) :
    noiseFreeState (schedStep s pid p) := by
  obtain ⟨hslots, hwait⟩ := h
  have hp : noiseFree p.instructions := hwait (pid, p) hmem
  have hset : ∀ (l : List (Nat × WaitingSound)) (id : Nat) (st : SoundState),
      (∀ e ∈ l, noiseFree e.2.instructions) →
      ∀ e ∈ setSoundState l id st, noiseFree e.2.instructions := by
    intro l id st hl e he
    obtain ⟨w0, hw0, hinstr⟩ := setSoundState_mem_instr l id st e he
    rw [← hinstr]
    exact hl (e.1, w0) hw0
  unfold schedStep bindSound
  cases chooseSlot s.playingSounds with
  | none => exact ⟨hslots, hset _ _ _ hwait⟩
  | some idx =>
    simp only
    cases hget : s.playingSounds.get? idx with
    | none => exact ⟨hslots, hset _ _ _ hwait⟩
    | some slot =>
      cases hsnd : slot.sound with
      | none =>
        simp only [hsnd]
        refine ⟨?_, hset _ _ _ hwait⟩
        intro sl hsl hso
        rcases List.mem_or_eq_of_mem_set hsl with hin | rfl
        · exact hslots sl hin hso
        · exact hp
      | some evicted =>
        simp only [hsnd]
        refine ⟨?_, hset _ _ _ (hset _ _ _ hwait)⟩
        intro sl hsl hso
        rcases List.mem_or_eq_of_mem_set hsl with hin | rfl
        · exact hslots sl hin hso
        · exact hp

/-- `updateQueues` preserves noise-freeness of the whole state. -/
theorem updateQueues_noiseFree (s : WSynthesizer) (h : noiseFreeState s) :
    noiseFreeState (updateQueues s).2 := by
  generalize hn : countWaiting s.waiting = n
  induction n using Nat.strong_induction_on generalizing s with
  | _ n ih =>
    rw [updateQueues_eq]
    cases hscan : scanW s.currSample s.waiting maxTime with
    | mk m found =>
      cases found with
      | none => exact h
      | some pr =>
        obtain ⟨pid, p⟩ := pr
        obtain ⟨hmem, hw, -⟩ := scanW_some_mem _ _ _ _ _ _ hscan
        have hlt := countWaiting_schedStep_lt s pid p hmem hw
        rw [hn] at hlt
        exact ih _ hlt (schedStep s pid p) (schedStep_noiseFree s pid p hmem h) rfl

/-- The slot pass preserves noise-freeness of occupied slots and of the
waiting list. -/
theorem fillSlots_noiseFree (spMS : Nat) (tsf : Nat → Nat) :
    ∀ (slots : List PlayingSound) (w : List (Nat × WaitingSound)) (buf : List Int)
      (rng : Nat),
    (∀ sl ∈ slots, sl.sound ≠ none → noiseFree sl.instrs) →
    (∀ e ∈ w, noiseFree e.2.instructions) →
    (∀ sl ∈ (fillSlots spMS tsf slots w buf rng).slots, sl.sound ≠ none →
      noiseFree sl.instrs) ∧
    (∀ e ∈ (fillSlots spMS tsf slots w buf rng).waiting, noiseFree e.2.instructions) := by
  intro slots
  induction slots with
  | nil =>
    intro w buf rng _ hw
    exact ⟨fun sl hsl => absurd hsl (List.not_mem_nil sl), hw⟩
  | cons slot others ih =>
    intro w buf rng hs hw
    have hso : ∀ sl ∈ others, sl.sound ≠ none → noiseFree sl.instrs :=
      fun sl h1 => hs sl (List.mem_cons_of_mem _ h1)
    simp only [fillSlots]
    cases hsnd : slot.sound with
    | none =>
      obtain ⟨ih1, ih2⟩ := ih w buf rng hso hw
      refine ⟨?_, ih2⟩
      intro sl hsl hne
      rcases List.mem_cons.mp hsl with rfl | hin
      · exact absurd hsnd hne
      · exact ih1 sl hin hne
    | some sid =>
      simp only
      have hw' : ∀ e ∈ (if (slotFill spMS tsf slot buf.length rng).finished then
          setSoundState w sid SoundState.Done else w), noiseFree e.2.instructions := by
        split
        · intro e he
          obtain ⟨w0, hw0, hinstr⟩ := setSoundState_mem_instr w sid SoundState.Done e he
          rw [← hinstr]
          exact hw (e.1, w0) hw0
        · exact hw
      obtain ⟨ih1, ih2⟩ := ih _ _ _ hso hw'
      refine ⟨?_, ih2⟩
      intro sl hsl hne
      rcases List.mem_cons.mp hsl with rfl | hin
      · rcases (slotFill_frame spMS tsf slot buf.length rng).1 with h0 | h0
        · exact absurd h0 hne
        · rw [slotFill_instrs]
          apply hs slot (List.mem_cons_self _ _)
          rw [← h0]
          exact hne
      · exact ih1 sl hin hne

/-- A non-split fill preserves noise-freeness of the whole state. -/
theorem fillOnce_noiseFree (tsf : Nat → Nat) (s : WSynthesizer) (n : Nat)
    (h : noiseFreeState s) : noiseFreeState (fillOnce tsf s n).2.1 := by
  obtain ⟨h1, h2⟩ := fillSlots_noiseFree ((s.sampleRate <<< 8) / 1000) tsf s.playingSounds
    s.waiting (List.replicate n 0) s.rng h.1 h.2
  exact ⟨h1, h2⟩

/-- `fillSamples` preserves noise-freeness of the whole state. -/
theorem fillSamples_noiseFree (tsf : Nat → Nat) (s : WSynthesizer) (n : Int)
    (h : noiseFreeState s) : noiseFreeState (fillSamples tsf s n).synth := by
  generalize hm : n.toNat = m
  induction m using Nat.strong_induction_on generalizing s n with
  | _ m ih =>
    subst hm
    rw [fillSamples_eq]
    by_cases hk : n ≤ 0
    · rw [if_pos hk]
      exact h
    · rw [if_neg hk]
      obtain ⟨ht1, -⟩ := updateQueues_fst_bounds s
      have hq := updateQueues_noiseFree s h
      by_cases hsplit : (updateQueues s).1 < n
      · rw [if_pos hsplit]
        have h1 := ih ((updateQueues s).1).toNat (by omega) (updateQueues s).2
          (updateQueues s).1 hq rfl
        exact ih (n - (updateQueues s).1).toNat (by omega) _ _ h1 rfl
      · rw [if_neg hsplit]
        exact fillOnce_noiseFree tsf (updateQueues s).2 n.toNat hq

/-- `noFinishF` is fuel-irrelevant once the fuel covers the request. -/
theorem noFinishF_congr (n : Nat) : ∀ (tsf : Nat → Nat) (s : WSynthesizer) (k : Int)
    (f1 f2 : Nat), k.toNat ≤ n → k.toNat ≤ f1 → k.toNat ≤ f2 →
    noFinishF tsf f1 s k = noFinishF tsf f2 s k := by
  induction n using Nat.strong_induction_on with
  | _ n ih =>
    intro tsf s k f1 f2 hn h1 h2
    by_cases hk : k ≤ 0
    · cases f1 with
      | zero =>
        cases f2 with
        | zero => rfl
        | succ g2 => simp only [noFinishF, if_pos hk]
      | succ g1 =>
        cases f2 with
        | zero => simp only [noFinishF, if_pos hk]
        | succ g2 => simp only [noFinishF, if_pos hk]
    · obtain ⟨g1, rfl⟩ : ∃ g, f1 = g + 1 := ⟨f1 - 1, by omega⟩
      obtain ⟨g2, rfl⟩ : ∃ g, f2 = g + 1 := ⟨f2 - 1, by omega⟩
      simp only [noFinishF, if_neg hk]
      obtain ⟨ht1, -⟩ := updateQueues_fst_bounds s
      by_cases hsplit : (updateQueues s).1 < k
      · simp only [if_pos hsplit]
        have e1 : noFinishF tsf g1 (updateQueues s).2 (updateQueues s).1 =
            noFinishF tsf g2 (updateQueues s).2 (updateQueues s).1 :=
          ih ((updateQueues s).1).toNat (by omega) tsf _ _ g1 g2 (le_refl _) (by omega)
            (by omega)
        have e2 : noFinishF tsf g1
            (fillSamples tsf (updateQueues s).2 (updateQueues s).1).synth
            (k - (updateQueues s).1) = noFinishF tsf g2
            (fillSamples tsf (updateQueues s).2 (updateQueues s).1).synth
            (k - (updateQueues s).1) :=
          ih (k - (updateQueues s).1).toNat (by omega) tsf _ _ g1 g2 (le_refl _) (by omega)
            (by omega)
        rw [e1, e2]
      · simp only [if_neg hsplit]

/-- Unfolding equation for `noFinish`. -/
theorem noFinish_eq (tsf : Nat → Nat) (s : WSynthesizer) (n : Int) :
    noFinish tsf s n =
      if n ≤ 0 then true
      else if (updateQueues s).1 < n then
        noFinish tsf (updateQueues s).2 (updateQueues s).1 &&
          noFinish tsf (fillSamples tsf (updateQueues s).2 (updateQueues s).1).synth
            (n - (updateQueues s).1)
      else
        (updateQueues s).2.playingSounds.all fun slot =>
          slot.sound = none ∨
            slotLiveAt (((updateQueues s).2.sampleRate <<< 8) / 1000) tsf slot n.toNat := by
  by_cases hk : n ≤ 0
  · rw [if_pos hk]
    unfold noFinish
    rw [Int.toNat_of_nonpos hk]
    rfl
  · rw [if_neg hk]
    unfold noFinish
    obtain ⟨g, hg⟩ : ∃ g, n.toNat = g + 1 := ⟨n.toNat - 1, by omega⟩
    rw [hg]
    simp only [noFinishF, if_neg hk]
    obtain ⟨ht1, -⟩ := updateQueues_fst_bounds s
    by_cases hsplit : (updateQueues s).1 < n
    · simp only [if_pos hsplit]
      have e1 : noFinishF tsf g (updateQueues s).2 (updateQueues s).1 =
          noFinishF tsf ((updateQueues s).1).toNat (updateQueues s).2 (updateQueues s).1 :=
        noFinishF_congr ((updateQueues s).1).toNat tsf _ _ g _ (le_refl _) (by omega)
          (le_refl _)
      have e2 : noFinishF tsf g
          (fillSamples tsf (updateQueues s).2 (updateQueues s).1).synth
          (n - (updateQueues s).1) = noFinishF tsf (n - (updateQueues s).1).toNat
          (fillSamples tsf (updateQueues s).2 (updateQueues s).1).synth
          (n - (updateQueues s).1) :=
        noFinishF_congr (n - (updateQueues s).1).toNat tsf _ _ g _ (le_refl _) (by omega)
          (le_refl _)
      rw [e1, e2]
    · simp only [if_neg hsplit]
      rw [hg]

/-- `splitCleanF` is fuel-irrelevant once the fuel covers the request. -/
theorem splitCleanF_congr (n : Nat) : ∀ (tsf : Nat → Nat) (s : WSynthesizer) (k : Int)
    (f1 f2 : Nat), k.toNat ≤ n → k.toNat ≤ f1 → k.toNat ≤ f2 →
    splitCleanF tsf f1 s k = splitCleanF tsf f2 s k := by
  induction n using Nat.strong_induction_on with
  | _ n ih =>
    intro tsf s k f1 f2 hn h1 h2
    by_cases hk : k ≤ 0
    · cases f1 with
      | zero =>
        cases f2 with
        | zero => rfl
        | succ g2 => simp only [splitCleanF, if_pos hk]
      | succ g1 =>
        cases f2 with
        | zero => simp only [splitCleanF, if_pos hk]
        | succ g2 => simp only [splitCleanF, if_pos hk]
    · obtain ⟨g1, rfl⟩ : ∃ g, f1 = g + 1 := ⟨f1 - 1, by omega⟩
      obtain ⟨g2, rfl⟩ : ∃ g, f2 = g + 1 := ⟨f2 - 1, by omega⟩
      simp only [splitCleanF, if_neg hk]
      obtain ⟨ht1, -⟩ := updateQueues_fst_bounds s
      by_cases hsplit : (updateQueues s).1 < k
      · simp only [if_pos hsplit]
        exact ih (k - (updateQueues s).1).toNat (by omega) tsf _ _ g1 g2 (le_refl _)
          (by omega) (by omega)
      · simp only [if_neg hsplit]

/-- Unfolding equation for `splitClean`. -/
theorem splitClean_eq (tsf : Nat → Nat) (s : WSynthesizer) (n : Int) :
    splitClean tsf s n =
      if n ≤ 0 then true
      else if (updateQueues s).1 < n then
        splitClean tsf (fillSamples tsf (updateQueues s).2 (updateQueues s).1).synth
          (n - (updateQueues s).1)
      else
        (updateQueues s).2.playingSounds.all fun slot =>
          slot.sound = none ∨
            slotCleanAt (((updateQueues s).2.sampleRate <<< 8) / 1000) tsf slot n.toNat := by
  by_cases hk : n ≤ 0
  · rw [if_pos hk]
    unfold splitClean
    rw [Int.toNat_of_nonpos hk]
    rfl
  · rw [if_neg hk]
    unfold splitClean
    obtain ⟨g, hg⟩ : ∃ g, n.toNat = g + 1 := ⟨n.toNat - 1, by omega⟩
    rw [hg]
    simp only [splitCleanF, if_neg hk]
    obtain ⟨ht1, -⟩ := updateQueues_fst_bounds s
    by_cases hsplit : (updateQueues s).1 < n
    · simp only [if_pos hsplit]
      exact splitCleanF_congr (n - (updateQueues s).1).toNat tsf _ _ g _ (le_refl _)
        (by omega) (le_refl _)
    · simp only [if_neg hsplit]
      rw [hg]

/-- Reducing the reference sample by `k` shifts every `Waiting` distance
down by `k`. -/
theorem filterMap_dist_shift (l : List (Nat × WaitingSound)) (c k : Int) :
    (l.filterMap fun e => if e.2.state = SoundState.Waiting
        then some (e.2.startSampleNo - (c + k)) else none) =
      (l.filterMap fun e => if e.2.state = SoundState.Waiting
        then some (e.2.startSampleNo - c) else none).map fun d => d - k := by
  rw [List.map_filterMap]
  congr 1
  funext e
  split
  · simp [sub_sub]
  · rfl

/-- After an event-free base fill of `k` samples (store untouched, counter
advanced by `k`), the scheduler binds nothing, leaves the state alone, and
returns at least `t - k`; exactly `t - k` when `t` is below the sentinel. -/
theorem updateQueues_noop_shifted (S1 : WSynthesizer) (w0 : List (Nat × WaitingSound))
    (c t k : Int) (hw : S1.waiting = w0) (hc : S1.currSample = c + k)
    (hk : 0 ≤ k) (hkt : k < t) (htm : t ≤ maxTime)
    (hval : (w0.filterMap fun e => if e.2.state = SoundState.Waiting
        then some (e.2.startSampleNo - c) else none).foldl min maxTime = t) :
    updateQueues S1 = ((updateQueues S1).1, S1) ∧
    t - k ≤ (updateQueues S1).1 ∧
    (t < maxTime → (updateQueues S1).1 = t - k) := by
  have hmem : ∀ e ∈ w0, e.2.state = SoundState.Waiting → t ≤ e.2.startSampleNo - c := by
    intro e he hW
    refine hval ▸ foldl_min_le_mem _ _ _ ?_
    exact List.mem_filterMap.mpr ⟨e, he, by rw [if_pos hW]⟩
  have hnodue : ∀ e ∈ S1.waiting, e.2.state = SoundState.Waiting →
      0 < e.2.startSampleNo - S1.currSample := by
    intro e he hW
    rw [hw] at he
    rw [hc]
    have := hmem e he hW
    omega
  have hnoop := updateQueues_noop S1 hnodue
  have hfold : (S1.waiting.filterMap fun e => if e.2.state = SoundState.Waiting
      then some (e.2.startSampleNo - S1.currSample) else none) =
      (w0.filterMap fun e => if e.2.state = SoundState.Waiting
        then some (e.2.startSampleNo - c) else none).map fun d => d - k := by
    rw [hw, hc]
    exact filterMap_dist_shift w0 c k
  rw [hfold] at hnoop
  refine ⟨by rw [hnoop], ?_, ?_⟩
  · rw [hnoop]
    apply foldl_min_lb
    · omega
    · intro x hx
      obtain ⟨d, hd, rfl⟩ := List.mem_map.mp hx
      obtain ⟨e, he, hde⟩ := List.mem_filterMap.mp hd
      by_cases hW : e.2.state = SoundState.Waiting
      · rw [if_pos hW] at hde
        obtain rfl := Option.some.injEq _ _ ▸ hde
        have := hmem e he hW
        omega
      · rw [if_neg hW] at hde
        exact absurd hde (by simp)
  · intro hlt
    rw [hnoop]
    show (List.map _ _).foldl min maxTime = t - k
    rw [foldl_min_map_sub _ k hk (by rw [hval]; exact hlt), hval]

set_option maxHeartbeats 4000000 in
/-- Main splitting lemma (binary split), by strong induction on the window:
under the amendment conditions the outputs concatenate and the final
synthesizer states agree exactly. -/
theorem fillSamples_seam_main (tsf : Nat → Nat) :
    ∀ (m : Nat) (s : WSynthesizer) (n1 n2 : Int),
    (n1 + n2).toNat ≤ m → 1 ≤ n1 → 1 ≤ n2 → n1 + n2 ≤ maxTime →
    noiseFreeState s → splitClean tsf s n1 = true → noFinish tsf s (n1 + n2) = true →
    (fillSamples tsf s (n1 + n2)).out =
      (fillSamples tsf s n1).out ++
        (fillSamples tsf (fillSamples tsf s n1).synth n2).out ∧
    (fillSamples tsf s (n1 + n2)).synth =
      (fillSamples tsf (fillSamples tsf s n1).synth n2).synth := by
  intro m
  induction m using Nat.strong_induction_on with
  | _ m ih =>
    intro s n1 n2 hm h1 h2 hcap hnf hclean hfin
    obtain ⟨ht1, htm⟩ := updateQueues_fst_bounds s
    obtain ⟨hcs, hdue, hval⟩ := updateQueues_post s
    have hqnf : noiseFreeState (updateQueues s).2 := updateQueues_noiseFree s hnf
    have hONE := fillSamples_eq tsf s (n1 + n2)
    rw [if_neg (by omega : ¬ n1 + n2 ≤ 0)] at hONE
    have hC1 := fillSamples_eq tsf s n1
    rw [if_neg (by omega : ¬ n1 ≤ 0)] at hC1
    by_cases hc1 : (updateQueues s).1 < n1
    · -- the next event falls before the boundary: both sides begin with the
      -- same event sub-call; recurse on the remainder of the window
      rw [if_pos hc1] at hC1
      rw [if_pos (by omega : (updateQueues s).1 < n1 + n2)] at hONE
      have hclean' : splitClean tsf
          (fillSamples tsf (updateQueues s).2 (updateQueues s).1).synth
          (n1 - (updateQueues s).1) = true := by
        rw [splitClean_eq, if_neg (by omega : ¬ n1 ≤ 0), if_pos hc1] at hclean
        exact hclean
      have hfin' : noFinish tsf
          (fillSamples tsf (updateQueues s).2 (updateQueues s).1).synth
          (n1 + n2 - (updateQueues s).1) = true := by
        rw [noFinish_eq, if_neg (by omega : ¬ n1 + n2 ≤ 0),
          if_pos (by omega : (updateQueues s).1 < n1 + n2), Bool.and_eq_true] at hfin
        exact hfin.2
      have hnf' : noiseFreeState
          (fillSamples tsf (updateQueues s).2 (updateQueues s).1).synth :=
        fillSamples_noiseFree tsf _ _ hqnf
      have harith : (n1 - (updateQueues s).1) + n2 = (n1 + n2) - (updateQueues s).1 := by
        ring
      obtain ⟨iho, ihs⟩ := ih (n1 + n2 - (updateQueues s).1).toNat (by omega)
        (fillSamples tsf (updateQueues s).2 (updateQueues s).1).synth
        (n1 - (updateQueues s).1) n2 (by omega) (by omega) h2 (by omega) hnf' hclean'
        (by rw [harith]; exact hfin')
      rw [harith] at iho ihs
      constructor
      · simp only [hONE, hC1]
        rw [iho, ← List.append_assoc]
      · simp only [hONE, hC1]
        exact ihs
    · -- the boundary lies inside the event-free window
      rw [if_neg hc1] at hC1
      have hidem := updateQueues_idem s
      -- clean-boundary instrumentation, extracted at the base window
      have hcleanB : ∀ sl ∈ (updateQueues s).2.playingSounds, sl.sound ≠ none →
          slotCleanAt (((updateQueues s).2.sampleRate <<< 8) / 1000) tsf sl n1.toNat =
            true := by
        rw [splitClean_eq, if_neg (by omega : ¬ n1 ≤ 0), if_neg hc1] at hclean
        intro sl hs ho
        have h := List.all_eq_true.mp hclean sl hs
        rw [decide_eq_true_eq] at h
        rcases h with h | h
        · exact absurd h ho
        · exact h
      by_cases hc2 : (updateQueues s).1 < n1 + n2
      · -- an event interrupts the window strictly after the boundary
        rw [if_pos hc2] at hONE
        by_cases hc3 : n1 < (updateQueues s).1
        · -- n1 < timeLeft < n1 + n2
          -- the event sub-call of the one-call run is a single base fill
          have hr1 := fillSamples_eq tsf (updateQueues s).2 (updateQueues s).1
          rw [if_neg (by omega : ¬ (updateQueues s).1 ≤ 0)] at hr1
          rw [hidem] at hr1
          rw [if_neg (by omega : ¬ (updateQueues s).1 < (updateQueues s).1)] at hr1
          -- liveness through the event-free window [0, timeLeft)
          have hfin1 : noFinish tsf (updateQueues s).2 (updateQueues s).1 = true := by
            rw [noFinish_eq, if_neg (by omega : ¬ n1 + n2 ≤ 0), if_pos hc2,
              Bool.and_eq_true] at hfin
            exact hfin.1
          rw [noFinish_eq] at hfin1
          rw [hidem] at hfin1
          rw [if_neg (by omega : ¬ (updateQueues s).1 ≤ 0),
            if_neg (by omega : ¬ (updateQueues s).1 < (updateQueues s).1)] at hfin1
          have hlvB : ∀ sl ∈ (updateQueues s).2.playingSounds, sl.sound ≠ none →
              slotLiveAt (((updateQueues s).2.sampleRate <<< 8) / 1000) tsf sl
                ((updateQueues s).1).toNat = true := by
            intro sl hs ho
            have h := List.all_eq_true.mp hfin1 sl hs
            rw [decide_eq_true_eq] at h
            rcases h with h | h
            · exact absurd h ho
            · exact h
          -- the base seam at the boundary
          obtain ⟨hso, hss, hsw, -⟩ := fillOnce_seam tsf (updateQueues s).2 n1.toNat
            ((updateQueues s).1 - n1).toNat (by omega) (by omega) hqnf.1 hcleanB
            (fun sl hs ho => by
              rw [show n1.toNat + ((updateQueues s).1 - n1).toNat =
                ((updateQueues s).1).toNat by omega]
              exact hlvB sl hs ho)
          rw [show n1.toNat + ((updateQueues s).1 - n1).toNat =
            ((updateQueues s).1).toNat by omega] at hso hss
          -- the second call's scheduler pass is a no-op returning the
          -- remaining time to the event
          obtain ⟨hq2noop, hq2lb, hq2ex⟩ := updateQueues_noop_shifted
            (fillOnce tsf (updateQueues s).2 n1.toNat).2.1 (updateQueues s).2.waiting
            s.currSample (updateQueues s).1 n1 hsw
            (by rw [fillOnce_currSample_def, hcs]; omega) (by omega) (by omega) htm hval.symm
          have hv2 : (updateQueues (fillOnce tsf (updateQueues s).2 n1.toNat).2.1).1 =
              (updateQueues s).1 - n1 := hq2ex (by omega)
          have hq2s : (updateQueues (fillOnce tsf (updateQueues s).2 n1.toNat).2.1).2 =
              (fillOnce tsf (updateQueues s).2 n1.toNat).2.1 := by
            rw [hq2noop]
          -- unfold the second call: it splits at the event
          have hC2 := fillSamples_eq tsf (fillOnce tsf (updateQueues s).2 n1.toNat).2.1 n2
          rw [if_neg (by omega : ¬ n2 ≤ 0), hv2, hq2s,
            if_pos (by omega : (updateQueues s).1 - n1 < n2)] at hC2
          -- its first part is a single base fill of the remaining time
          have hc2a := fillSamples_eq tsf (fillOnce tsf (updateQueues s).2 n1.toNat).2.1
            ((updateQueues s).1 - n1)
          rw [if_neg (by omega : ¬ (updateQueues s).1 - n1 ≤ 0), hv2, hq2s,
            if_neg (by omega : ¬ (updateQueues s).1 - n1 < (updateQueues s).1 - n1)]
            at hc2a
          have harith2 : n2 - ((updateQueues s).1 - n1) =
              n1 + n2 - (updateQueues s).1 := by ring
          constructor
          · simp only [hONE, hC1, hC2, hc2a, hr1, hso, hss, harith2]
            rw [List.append_assoc]
          · simp only [hONE, hC1, hC2, hc2a, hr1, hss, harith2]
        · -- timeLeft = n1: the one-call split and the user boundary coincide
          have heq : (updateQueues s).1 = n1 := by omega
          have hr1 := fillSamples_eq tsf (updateQueues s).2 (updateQueues s).1
          rw [if_neg (by omega : ¬ (updateQueues s).1 ≤ 0)] at hr1
          rw [hidem] at hr1
          rw [if_neg (by omega : ¬ (updateQueues s).1 < (updateQueues s).1)] at hr1
          rw [heq] at hr1
          have harith2 : n1 + n2 - n1 = n2 := by ring
          constructor
          · simp only [hONE, heq, harith2, hr1, hC1]
          · simp only [hONE, heq, harith2, hr1, hC1]
      · -- no event in the whole window: one base fill against two
        rw [if_neg hc2] at hONE
        rw [noFinish_eq, if_neg (by omega : ¬ n1 + n2 ≤ 0), if_neg hc2] at hfin
        have hlvB : ∀ sl ∈ (updateQueues s).2.playingSounds, sl.sound ≠ none →
            slotLiveAt (((updateQueues s).2.sampleRate <<< 8) / 1000) tsf sl
              (n1 + n2).toNat = true := by
          intro sl hs ho
          have h := List.all_eq_true.mp hfin sl hs
          rw [decide_eq_true_eq] at h
          rcases h with h | h
          · exact absurd h ho
          · exact h
        obtain ⟨hso, hss, hsw, -⟩ := fillOnce_seam tsf (updateQueues s).2 n1.toNat n2.toNat
          (by omega) (by omega) hqnf.1 hcleanB
          (fun sl hs ho => by
            rw [show n1.toNat + n2.toNat = (n1 + n2).toNat by omega]
            exact hlvB sl hs ho)
        rw [show n1.toNat + n2.toNat = (n1 + n2).toNat by omega] at hso hss
        obtain ⟨hq2noop, hq2lb, -⟩ := updateQueues_noop_shifted
          (fillOnce tsf (updateQueues s).2 n1.toNat).2.1 (updateQueues s).2.waiting
          s.currSample (updateQueues s).1 n1 hsw
          (by rw [fillOnce_currSample_def, hcs]; omega) (by omega) (by omega) htm hval.symm
        have hq2s : (updateQueues (fillOnce tsf (updateQueues s).2 n1.toNat).2.1).2 =
            (fillOnce tsf (updateQueues s).2 n1.toNat).2.1 := by
          rw [hq2noop]
        have hC2 := fillSamples_eq tsf (fillOnce tsf (updateQueues s).2 n1.toNat).2.1 n2
        rw [if_neg (by omega : ¬ n2 ≤ 0), hq2s,
          if_neg (by omega :
            ¬ (updateQueues (fillOnce tsf (updateQueues s).2 n1.toNat).2.1).1 < n2)]
          at hC2
        constructor
        · simp only [hONE, hC1, hC2, hso]
        · simp only [hONE, hC1, hC2, hss]

/-- The sample rate is untouched by a base fill. -/
theorem fillOnce_sampleRate_def (tsf : Nat → Nat) (s : WSynthesizer) (n : Nat) :
    (fillOnce tsf s n).2.1.sampleRate = s.sampleRate := rfl

set_option maxHeartbeats 4000000 in
/-- The no-finish guarantee over a window transfers to the part of the
window beyond any clean interior boundary. -/
theorem noFinish_split (tsf : Nat → Nat) : ∀ (m : Nat) (s : WSynthesizer) (a b : Int),
    (a + b).toNat ≤ m → 1 ≤ a → 1 ≤ b → a + b ≤ maxTime →
    noiseFreeState s → splitClean tsf s a = true → noFinish tsf s (a + b) = true →
    noFinish tsf (fillSamples tsf s a).synth b = true := by
  intro m
  induction m using Nat.strong_induction_on with
  | _ m ih =>
    intro s a b hm h1 h2 hcap hnf hclean hfin
    obtain ⟨ht1, htm⟩ := updateQueues_fst_bounds s
    obtain ⟨hcs, hdue, hval⟩ := updateQueues_post s
    have hqnf : noiseFreeState (updateQueues s).2 := updateQueues_noiseFree s hnf
    have hCa := fillSamples_eq tsf s a
    rw [if_neg (by omega : ¬ a ≤ 0)] at hCa
    by_cases hc1 : (updateQueues s).1 < a
    · rw [if_pos hc1] at hCa
      have hclean' : splitClean tsf
          (fillSamples tsf (updateQueues s).2 (updateQueues s).1).synth
          (a - (updateQueues s).1) = true := by
        rw [splitClean_eq, if_neg (by omega : ¬ a ≤ 0), if_pos hc1] at hclean
        exact hclean
      have hfin' : noFinish tsf
          (fillSamples tsf (updateQueues s).2 (updateQueues s).1).synth
          (a + b - (updateQueues s).1) = true := by
        rw [noFinish_eq, if_neg (by omega : ¬ a + b ≤ 0),
          if_pos (by omega : (updateQueues s).1 < a + b), Bool.and_eq_true] at hfin
        exact hfin.2
      have hnf' := fillSamples_noiseFree tsf (updateQueues s).2 (updateQueues s).1 hqnf
      have harith : (a - (updateQueues s).1) + b = a + b - (updateQueues s).1 := by ring
      have hrec := ih (a + b - (updateQueues s).1).toNat (by omega)
        (fillSamples tsf (updateQueues s).2 (updateQueues s).1).synth
        (a - (updateQueues s).1) b (by omega) (by omega) h2 (by omega) hnf' hclean'
        (by rw [harith]; exact hfin')
      simp only [hCa]
      exact hrec
    · rw [if_neg hc1] at hCa
      have hidem := updateQueues_idem s
      have hcleanB : ∀ sl ∈ (updateQueues s).2.playingSounds, sl.sound ≠ none →
          slotCleanAt (((updateQueues s).2.sampleRate <<< 8) / 1000) tsf sl a.toNat =
            true := by
        rw [splitClean_eq, if_neg (by omega : ¬ a ≤ 0), if_neg hc1] at hclean
        intro sl hs ho
        have h := List.all_eq_true.mp hclean sl hs
        rw [decide_eq_true_eq] at h
        rcases h with h | h
        · exact absurd h ho
        · exact h
      by_cases hc2 : (updateQueues s).1 < a + b
      · have hr1 := fillSamples_eq tsf (updateQueues s).2 (updateQueues s).1
        rw [if_neg (by omega : ¬ (updateQueues s).1 ≤ 0)] at hr1
        rw [hidem] at hr1
        rw [if_neg (by omega : ¬ (updateQueues s).1 < (updateQueues s).1)] at hr1
        have hfin2 : noFinish tsf
            (fillSamples tsf (updateQueues s).2 (updateQueues s).1).synth
            (a + b - (updateQueues s).1) = true := by
          rw [noFinish_eq, if_neg (by omega : ¬ a + b ≤ 0), if_pos hc2,
            Bool.and_eq_true] at hfin
          exact hfin.2
        by_cases hc3 : a < (updateQueues s).1
        · -- a < timeLeft < a + b
          have hfin1 : noFinish tsf (updateQueues s).2 (updateQueues s).1 = true := by
            rw [noFinish_eq, if_neg (by omega : ¬ a + b ≤ 0), if_pos hc2,
              Bool.and_eq_true] at hfin
            exact hfin.1
          rw [noFinish_eq] at hfin1
          rw [hidem] at hfin1
          rw [if_neg (by omega : ¬ (updateQueues s).1 ≤ 0),
            if_neg (by omega : ¬ (updateQueues s).1 < (updateQueues s).1)] at hfin1
          have hlvB : ∀ sl ∈ (updateQueues s).2.playingSounds, sl.sound ≠ none →
              slotLiveAt (((updateQueues s).2.sampleRate <<< 8) / 1000) tsf sl
                ((updateQueues s).1).toNat = true := by
            intro sl hs ho
            have h := List.all_eq_true.mp hfin1 sl hs
            rw [decide_eq_true_eq] at h
            rcases h with h | h
            · exact absurd h ho
            · exact h
          obtain ⟨hso, hss, hsw, hsl4⟩ := fillOnce_seam tsf (updateQueues s).2 a.toNat
            ((updateQueues s).1 - a).toNat (by omega) (by omega) hqnf.1 hcleanB
            (fun sl hs ho => by
              rw [show a.toNat + ((updateQueues s).1 - a).toNat =
                ((updateQueues s).1).toNat by omega]
              exact hlvB sl hs ho)
          rw [show a.toNat + ((updateQueues s).1 - a).toNat =
            ((updateQueues s).1).toNat by omega] at hso hss
          obtain ⟨hq2noop, hq2lb, hq2ex⟩ := updateQueues_noop_shifted
            (fillOnce tsf (updateQueues s).2 a.toNat).2.1 (updateQueues s).2.waiting
            s.currSample (updateQueues s).1 a hsw
            (by rw [fillOnce_currSample_def, hcs]; omega) (by omega) (by omega) htm
            hval.symm
          have hv2 : (updateQueues (fillOnce tsf (updateQueues s).2 a.toNat).2.1).1 =
              (updateQueues s).1 - a := hq2ex (by omega)
          have hq2s : (updateQueues (fillOnce tsf (updateQueues s).2 a.toNat).2.1).2 =
              (fillOnce tsf (updateQueues s).2 a.toNat).2.1 := by
            rw [hq2noop]
          have hc2a := fillSamples_eq tsf (fillOnce tsf (updateQueues s).2 a.toNat).2.1
            ((updateQueues s).1 - a)
          rw [if_neg (by omega : ¬ (updateQueues s).1 - a ≤ 0), hv2, hq2s,
            if_neg (by omega : ¬ (updateQueues s).1 - a < (updateQueues s).1 - a)]
            at hc2a
          simp only [hCa]
          rw [noFinish_eq, if_neg (by omega : ¬ b ≤ 0), hv2, hq2s,
            if_pos (by omega : (updateQueues s).1 - a < b), Bool.and_eq_true]
          constructor
          · -- no finish during the remaining event-free time
            rw [noFinish_eq, if_neg (by omega : ¬ (updateQueues s).1 - a ≤ 0), hv2,
              hq2s, if_neg (by omega :
                ¬ (updateQueues s).1 - a < (updateQueues s).1 - a)]
            apply List.all_eq_true.mpr
            intro sl hs
            rw [decide_eq_true_eq]
            by_cases hso2 : sl.sound = none
            · exact Or.inl hso2
            · refine Or.inr ?_
              have := hsl4 sl hs hso2
              rw [fillOnce_sampleRate_def]
              exact this
          · -- beyond the event both runs continue from the same state
            rw [hc2a]
            simp only
            rw [hss.symm]
            have harith2 : b - ((updateQueues s).1 - a) =
                a + b - (updateQueues s).1 := by ring
            rw [harith2]
            simp only [hr1] at hfin2
            exact hfin2
        · -- timeLeft = a
          have heq : (updateQueues s).1 = a := by omega
          rw [heq] at hr1
          simp only [heq, hr1] at hfin2
          rw [show a + b - a = b by ring] at hfin2
          simp only [hCa, heq]
          exact hfin2
      · -- no event in the whole window
        rw [noFinish_eq, if_neg (by omega : ¬ a + b ≤ 0), if_neg hc2] at hfin
        have hlvB : ∀ sl ∈ (updateQueues s).2.playingSounds, sl.sound ≠ none →
            slotLiveAt (((updateQueues s).2.sampleRate <<< 8) / 1000) tsf sl
              (a + b).toNat = true := by
          intro sl hs ho
          have h := List.all_eq_true.mp hfin sl hs
          rw [decide_eq_true_eq] at h
          rcases h with h | h
          · exact absurd h ho
          · exact h
        obtain ⟨hso, hss, hsw, hsl4⟩ := fillOnce_seam tsf (updateQueues s).2 a.toNat
          b.toNat (by omega) (by omega) hqnf.1 hcleanB
          (fun sl hs ho => by
            rw [show a.toNat + b.toNat = (a + b).toNat by omega]
            exact hlvB sl hs ho)
        obtain ⟨hq2noop, hq2lb, -⟩ := updateQueues_noop_shifted
          (fillOnce tsf (updateQueues s).2 a.toNat).2.1 (updateQueues s).2.waiting
          s.currSample (updateQueues s).1 a hsw
          (by rw [fillOnce_currSample_def, hcs]; omega) (by omega) (by omega) htm
          hval.symm
        have hq2s : (updateQueues (fillOnce tsf (updateQueues s).2 a.toNat).2.1).2 =
            (fillOnce tsf (updateQueues s).2 a.toNat).2.1 := by
          rw [hq2noop]
        simp only [hCa]
        rw [noFinish_eq, if_neg (by omega : ¬ b ≤ 0), hq2s,
          if_neg (by omega :
            ¬ (updateQueues (fillOnce tsf (updateQueues s).2 a.toNat).2.1).1 < b)]
        apply List.all_eq_true.mpr
        intro sl hs
        rw [decide_eq_true_eq]
        by_cases hso2 : sl.sound = none
        · exact Or.inl hso2
        · refine Or.inr ?_
          have := hsl4 sl hs hso2
          rw [fillOnce_sampleRate_def]
          exact this

/-- A nonempty list of positive counts has a positive sum. -/
theorem sum_pos_of_parts : ∀ (l : List Int), l ≠ [] → (∀ p ∈ l, 1 ≤ p) → 1 ≤ l.sum := by
  intro l
  induction l with
  | nil => intro h _; exact absurd rfl h
  | cons p rest ih =>
    intro _ hpos
    rw [List.sum_cons]
    cases rest with
    | nil => simpa using hpos p (List.mem_cons_self _ _)
    | cons q r =>
      have h1 := hpos p (List.mem_cons_self _ _)
      have h2 := ih (by simp) fun x hx => hpos x (List.mem_cons_of_mem _ hx)
      omega

set_option maxHeartbeats 1000000 in
/-- C2 (amended): filling a window of `N ≤ 0xffffff` samples in one
`fillSamples` call produces the same output sample sequence and the same
final synthesizer state as any sequence of consecutive calls whose positive
counts sum to `N` — an instruction spanning a boundary resumes with its
phase, phase step, step delta, volume and remaining-sample count carried
over exactly — provided that (i) no queued or playing instruction uses the
noise waveform (noise draws from one shared xorshift stream in slot order,
which splitting reorders), (ii) every interior call boundary stops each
still-live slot strictly inside an instruction with a saved volume distinct
from the fresh-bind marker `-1` (a boundary on an instruction's exact end
replays one sample, `Music.fillSamples_split_boundary_counterexample`), and
(iii) no sound exhausts its instruction stream inside the window (a freed
slot's stale resume fields, read back when the slot is reused, depend on
where the boundaries fell). -/
theorem fillSamples_splitting_invariant (tsf : Nat → Nat) :
    ∀ (parts : List Int) (s : WSynthesizer),
    (∀ p ∈ parts, 1 ≤ p) → parts.sum ≤ maxTime →
    noiseFreeState s → cleanBounds tsf s parts = true →
    noFinish tsf s parts.sum = true →
    (runCalls tsf s parts).1 = (fillSamples tsf s parts.sum).out ∧
    (runCalls tsf s parts).2 = (fillSamples tsf s parts.sum).synth := by
  intro parts
  induction parts with
  | nil => intro s _ _ _ _ _; exact ⟨rfl, rfl⟩
  | cons n rest ih =>
    intro s hpos hcap hnf hclean hfin
    have h1 : 1 ≤ n := hpos n (List.mem_cons_self _ _)
    cases rest with
    | nil =>
      rw [List.sum_cons, List.sum_nil, add_zero] at hfin ⊢
      constructor
      · show (fillSamples tsf s n).out ++ [] = (fillSamples tsf s n).out
        rw [List.append_nil]
      · rfl
    | cons q r =>
      have hrpos : ∀ p ∈ q :: r, 1 ≤ p := fun p hp => hpos p (List.mem_cons_of_mem _ hp)
      have hsum1 : 1 ≤ (q :: r).sum := sum_pos_of_parts _ (by simp) hrpos
      rw [List.sum_cons] at hcap hfin ⊢
      have hcleans : splitClean tsf s n = true ∧
          cleanBounds tsf (fillSamples tsf s n).synth (q :: r) = true := by
        have hclean' : (splitClean tsf s n &&
            cleanBounds tsf (fillSamples tsf s n).synth (q :: r)) = true := hclean
        rw [Bool.and_eq_true] at hclean'
        exact hclean'
      obtain ⟨ho, hs2⟩ := fillSamples_seam_main tsf (n + (q :: r).sum).toNat s n
        (q :: r).sum (le_refl _) h1 hsum1 hcap hnf hcleans.1 hfin
      have hfinrest : noFinish tsf (fillSamples tsf s n).synth (q :: r).sum = true :=
        noFinish_split tsf (n + (q :: r).sum).toNat s n (q :: r).sum (le_refl _) h1
          hsum1 hcap hnf hcleans.1 hfin
      have hnfrest := fillSamples_noiseFree tsf s n hnf
      obtain ⟨iho, ihs⟩ := ih (fillSamples tsf s n).synth hrpos (by omega) hnfrest
        hcleans.2 hfinrest
      constructor
      · show (fillSamples tsf s n).out ++
            (runCalls tsf (fillSamples tsf s n).synth (q :: r)).1 =
          (fillSamples tsf s (n + (q :: r).sum)).out
        rw [iho, ho]
      · show (runCalls tsf (fillSamples tsf s n).synth (q :: r)).2 =
          (fillSamples tsf s (n + (q :: r).sum)).synth
        rw [ihs]
        exact hs2.symm

/-- Witness for `fillSamples_splitting_invariant`: the 3-sample window of
`seamInput` split as `1 + 2` (both boundaries strictly inside the single
4-sample instruction). -/
theorem fillSamples_splitting_invariant_witness :
    ((∀ p ∈ ([1, 2] : List Int), 1 ≤ p) ∧ ([1, 2] : List Int).sum ≤ maxTime ∧
      noiseFreeState seamInput ∧ cleanBounds (fun _ => 0) seamInput [1, 2] = true ∧
      noFinish (fun _ => 0) seamInput ([1, 2] : List Int).sum = true) ∧
    (runCalls (fun _ => 0) seamInput [1, 2]).1 =
      (fillSamples (fun _ => 0) seamInput ([1, 2] : List Int).sum).out ∧
    (runCalls (fun _ => 0) seamInput [1, 2]).2 =
      (fillSamples (fun _ => 0) seamInput ([1, 2] : List Int).sum).synth :=
  ⟨⟨by decide, by decide, by unfold noiseFreeState noiseFree; decide, by decide,
      by decide⟩,
   fillSamples_splitting_invariant (fun _ => 0) [1, 2] seamInput (by decide) (by decide)
     (by unfold noiseFreeState noiseFree; decide) (by decide) (by decide)⟩

/-- Witness for `updateQueues_schedule_spec` at `sentinelInput`. -/
theorem updateQueues_schedule_spec_witness :
    sentinelInput.playingSounds ≠ [] ∧
    ((updateQueues sentinelInput).2.currSample = sentinelInput.currSample ∧
     (∀ e ∈ (updateQueues sentinelInput).2.waiting, e.2.state = SoundState.Waiting →
       0 < e.2.startSampleNo - sentinelInput.currSample) ∧
     (updateQueues sentinelInput).1 = ((updateQueues sentinelInput).2.waiting.filterMap fun e =>
       if e.2.state = SoundState.Waiting then
         some (e.2.startSampleNo - sentinelInput.currSample)
       else none).foldl min maxTime) :=
  ⟨by decide, updateQueues_schedule_spec sentinelInput (by decide)⟩

end Music
